import Mathlib

/-!
# jsonobj: ordered JSON objects built from Go values

A shallow embedding of `jsonobj.go` and `utils.go`.

* Go strings are modelled by Lean `String` (the Go strings that are valid
  UTF-8); `camelToSnake` works on their UTF-8 bytes, as the Go code does.
* A Go `panic` is the `error` case of `Except Panic`; a method that panics
  leaves its receiver as it was before the call.
* `strings.ToLower`, `strings.ToUpper` (package `strings`) and the leaf
  encoders of `encoding/json` are not part of the repository: they are
  parameters (`Strings`, `Codec`).
-/

namespace Jsonobj

/-! ## utils.go -/

/-- UTF-8 bytes of a string, as numbers: `camel[i]` reads this list. -/
def utf8Bytes (s : String) : List Nat :=
  s.data.flatMap (fun c => (String.utf8EncodeChar c).map UInt8.toNat)

/-- Byte offsets at which the runes of a string start, from offset `i` on:
the values `for i := range camel` gives to `i`. -/
def runeStartsFrom : Nat → List Char → List Nat
  | _, [] => []
  | i, c :: cs => i :: runeStartsFrom (i + (String.utf8EncodeChar c).length) cs

/-- Values taken by `i` in `for i := range camel`. -/
def runeStarts (s : String) : List Nat := runeStartsFrom 0 s.data

/-- Loop state of `camelToSnake`: the buffer `snake` (the runes written so
far) and the flag `prevLower`. -/
structure SnakeState where
  snake : List Char
  prevLower : Bool
deriving DecidableEq, Repr

/-- Value of `nextLower` in the iteration at byte offset `i`
(utils.go lines 11-21). -/
def nextLowerAt (camel : List Nat) (i : Nat) : Bool :=
  if i < camel.length - 1 then
    let next := camel.getD (i + 1) 0
    decide ('a'.toNat ≤ next ∧ next ≤ 'z'.toNat)
  else false

/-- Whether the iteration at byte offset `i`, entered in state `st`, writes
an underscore (utils.go lines 24-28). -/
def emitsUnderscore (camel : List Nat) (st : SnakeState) (i : Nat) : Bool :=
  let cur := camel.getD i 0
  let isDigit := decide ('0'.toNat ≤ cur ∧ cur ≤ '9'.toNat)
  (decide ('A'.toNat ≤ cur ∧ cur ≤ 'Z'.toNat) || isDigit) &&
    (decide (st.snake.length > 0) && (nextLowerAt camel i || st.prevLower))

/-- One iteration of the loop of `camelToSnake` (utils.go lines 10-43), at
byte offset `i` of the bytes `camel`. -/
def camelToSnakeStep (camel : List Nat) (st : SnakeState) (i : Nat) : SnakeState :=
  let cur := camel.getD i 0
  let isDigit := decide ('0'.toNat ≤ cur ∧ cur ≤ '9'.toNat)
  if decide ('A'.toNat ≤ cur ∧ cur ≤ 'Z'.toNat) || isDigit then
    let snake :=
      if emitsUnderscore camel st i then st.snake ++ ['_'] else st.snake
    let snake :=
      if isDigit then snake ++ [Char.ofNat cur]
      else snake ++ [Char.ofNat (cur - 'A'.toNat + 'a'.toNat)]
    { snake := snake, prevLower := false }
  else
    { snake := st.snake ++ [Char.ofNat cur], prevLower := true }

/-- State of the loop of `camelToSnake` after the iterations at the byte
offsets `is`. -/
def camelToSnakeLoop (camel : List Nat) (st : SnakeState) (is : List Nat) : SnakeState :=
  is.foldl (camelToSnakeStep camel) st

/-- Go `camelToSnake` (utils.go). -/
def camelToSnake (camel : String) : String :=
  String.mk (camelToSnakeLoop (utf8Bytes camel) ⟨[], false⟩ (runeStarts camel)).snake

/-! ## jsonobj.go: options -/

/-- Go `type NameConv int`. -/
abbrev NameConv := Int

/-- Constant `CamelCase = NameConv(iota)`. -/
def CamelCase : NameConv := 0
/-- Constant `SnakeCase`. -/
def SnakeCase : NameConv := 1
/-- Constant `LowerCase`. -/
def LowerCase : NameConv := 2
/-- Constant `UpperCase`. -/
def UpperCase : NameConv := 3

/-- Go `type Options struct`. -/
structure Options where
  FieldNameConvention : NameConv
deriving DecidableEq, Repr

/-- The functions of Go package `strings` that `SetField` calls. -/
structure Strings where
  ToLower : String → String
  ToUpper : String → String

/-- The panics of the package: the explicit `panic(...)` calls and the
run-time panics of indexing, of reflection on a nil reference and of the type
assertion `k.Interface().(string)` (jsonobj.go line 119). -/
inductive Panic where
  | indexOutOfRange
  | unknownField
  | notHandled
  | onlyStringKey
  | notAStructure
  | canConvertOnlySlice
  | nilReference
  | notAMap
  | typeAssertion
deriving DecidableEq, Repr

/-! ## jsonobj.go: fields and objects -/

/-- Go `type Field struct`, over the type of values. -/
structure FieldOf (α : Type) where
  Name : String
  Value : α
deriving DecidableEq, Repr

/-- Go `type JSONObject struct`, over the type of values. `cache` is the Go
`map[string]int` as an association list read by `List.lookup`; `Options` is
the pointer `*Options` (`none` is the nil pointer). -/
structure JSONObjectOf (α : Type) where
  fields : List (FieldOf α)
  cache : List (String × Nat)
  Options : Option Options
deriving Repr

/-- The integer kinds that `isBaseType` accepts. -/
inductive IntKind where
  | Int | Int8 | Int16 | Int32 | Int64
  | Uint | Uint8 | Uint16 | Uint32 | Uint64
deriving DecidableEq, Repr

/-- The floating-point kinds. -/
inductive FloatKind where
  | Float32 | Float64
deriving DecidableEq, Repr

/-- Go values of a base type (`isBaseType`): integers, floats (by their
IEEE bits), strings and booleans. -/
inductive Scalar where
  | int (k : IntKind) (n : Int)
  | float (k : FloatKind) (bits : Nat)
  | str (s : String)
  | bool (b : Bool)
deriving DecidableEq, Repr

/-- What a field of a `JSONObject` holds (Go `any`): a base-type value, a
`*JSONObject`, or a `[]interface{}`, nil (`nilSlice`) or not (`slice`). -/
inductive Value where
  | scalar (s : Scalar)
  | object (o : JSONObjectOf Value)
  | nilSlice
  | slice (xs : List Value)

/-- Go `Field`. -/
abbrev Field := FieldOf Value

/-- Go `JSONObject`. -/
abbrev JSONObject := JSONObjectOf Value

/-- Go `New`: no field, an empty cache, `Options: &Options{}`. -/
def New : JSONObject :=
  { fields := [], cache := [], Options := some ⟨0⟩ }

/-- Go `newChild`: a new object with the receiver's `Options`. -/
def newChild (o : JSONObject) : JSONObject :=
  { New with Options := o.Options }

/-- The switch on `o.Options.FieldNameConvention` at the head of `SetField`
(jsonobj.go lines 260-269). -/
def renameField (S : Strings) (opts : Option Options) (name : String) : String :=
  match opts with
  | none => name
  | some opt =>
    if opt.FieldNameConvention = SnakeCase then camelToSnake name
    else if opt.FieldNameConvention = LowerCase then S.ToLower name
    else if opt.FieldNameConvention = UpperCase then S.ToUpper name
    else name

/-- The assignment `fields[i].Value = value`; `none` when `i` is out of
range. -/
def setValueAt {α : Type} (value : α) : List (FieldOf α) → Nat → Option (List (FieldOf α))
  | [], _ => none
  | f :: fs, 0 => some ({ f with Value := value } :: fs)
  | f :: fs, i + 1 => (setValueAt value fs i).map (f :: ·)

/-- Go `SetField` (jsonobj.go lines 258-279). -/
def SetField (S : Strings) (o : JSONObject) (name : String) (value : Value) :
    Except Panic JSONObject :=
  let name := renameField S o.Options name
  match o.cache.lookup name with
  | some i =>
    match setValueAt value o.fields i with
    | some fields => .ok { o with fields := fields }
    | none => .error .indexOutOfRange
  | none =>
    let fields := o.fields ++ [{ Name := name, Value := value }]
    .ok { o with fields := fields, cache := (name, fields.length) :: o.cache }

/-- Go `HasField`. -/
def HasField (o : JSONObject) (name : String) : Bool :=
  (o.cache.lookup name).isSome

/-- Go `GetField`. -/
def GetField (o : JSONObject) (name : String) : Except Panic Value :=
  match o.cache.lookup name with
  | some i =>
    match o.fields.get? i with
    | some f => .ok f.Value
    | none => .error .indexOutOfRange
  | none => .error .unknownField

/-- Go `IsEmpty`. -/
def IsEmpty (o : JSONObject) : Bool :=
  o.fields.length == 0

/-- The names of the fields of an object, in stored order. -/
def fieldNames (o : JSONObject) : List String :=
  o.fields.map (·.Name)

/-- A sequence of `SetField` calls on `o`, each given by its arguments; it
stops at the first call that panics. -/
def setFields (S : Strings) (o : JSONObject) : List (String × Value) → Except Panic JSONObject
  | [] => .ok o
  | (name, value) :: rest =>
    match SetField S o name value with
    | .ok o' => setFields S o' rest
    | .error e => .error e

/-- The objects obtained from `New()`, with any `Options`, by `SetField`
calls that return. -/
inductive Reachable (S : Strings) : JSONObject → Prop where
  | new (opts : Option Options) : Reachable S { New with Options := opts }
  | setField {o o' : JSONObject} (name : String) (value : Value) :
      Reachable S o → SetField S o name value = .ok o' → Reachable S o'

/-- An instance of package `strings` on ASCII letters, for examples. -/
def asciiStrings : Strings :=
  { ToLower := fun s => String.mk (s.data.map Char.toLower),
    ToUpper := fun s => String.mk (s.data.map Char.toUpper) }

/-- The integer 42 of Go type `int`, and friends, for examples. -/
def intValue (n : Int) : Value := .scalar (.int .Int n)

/-! ## jsonobj.go: the values of the host program, seen through `reflect` -/

/-- Go `reflect.Kind`. -/
inductive Kind where
  | Invalid | Bool | Int | Int8 | Int16 | Int32 | Int64
  | Uint | Uint8 | Uint16 | Uint32 | Uint64 | Uintptr
  | Float32 | Float64 | Complex64 | Complex128
  | Array | Chan | Func | Interface | Map | Ptr | Slice | String | Struct | UnsafePointer
deriving DecidableEq, Repr

/-- Kinds of values that the model carries without their content, none of
them a base type, a reference, a record, a sequence or a map, and none of
them encoded by `encoding/json`. -/
inductive OtherKind where
  | Complex64 | Complex128 | Chan | Func | UnsafePointer
deriving DecidableEq, Repr

/-- A member of a record, as `reflect` gives it: `t.Field(i).Name`,
`t.Field(i).IsExported()`, `t.Field(i).Anonymous` and `v.Field(i)`. -/
structure StructFieldOf (α : Type) where
  Name : String
  Exported : Bool
  Anonymous : Bool
  value : α
deriving Repr

/-- A Go value as `reflect.Value` shows it. A slice and an array carry the
kind of their element type, a map the kind of its key type and its entries in
the order in which `MapRange` yields them, each key as text. In `map` the key
type of kind `String` is the type `string` itself; `namedKeyMap` is a map
that is not nil and whose key type is a defined type of kind `String` (such
as `type Key string`), the one place where the code tells a defined type from
its underlying type (the assertion `k.Interface().(string)`, line 119). Other
defined types, struct tags and methods are not modelled. -/
inductive HostValue where
  | scalar (s : Scalar)
  | nilPtr
  | ptr (elem : HostValue)
  | nilIface
  | iface (elem : HostValue)
  | struct (members : List (StructFieldOf HostValue))
  | nilSlice (elemKind : Kind)
  | slice (elemKind : Kind) (elems : List HostValue)
  | nilMap (keyKind : Kind)
  | map (keyKind : Kind) (entries : List (String × HostValue))
  | other (k : OtherKind)
  | array (elemKind : Kind) (elems : List HostValue)
  | uintptr (n : Nat)
  | namedKeyMap (entries : List (String × HostValue))

/-- Go `StructField`. -/
abbrev StructField := StructFieldOf HostValue

/-- Kind of a base-type value. -/
def Scalar.Kind : Scalar → Kind
  | .int .Int _ => .Int
  | .int .Int8 _ => .Int8
  | .int .Int16 _ => .Int16
  | .int .Int32 _ => .Int32
  | .int .Int64 _ => .Int64
  | .int .Uint _ => .Uint
  | .int .Uint8 _ => .Uint8
  | .int .Uint16 _ => .Uint16
  | .int .Uint32 _ => .Uint32
  | .int .Uint64 _ => .Uint64
  | .float .Float32 _ => .Float32
  | .float .Float64 _ => .Float64
  | .str _ => .String
  | .bool _ => .Bool

/-- Kind of an unsupported value. -/
def OtherKind.Kind : OtherKind → Kind
  | .Complex64 => .Complex64
  | .Complex128 => .Complex128
  | .Chan => .Chan
  | .Func => .Func
  | .UnsafePointer => .UnsafePointer

/-- Go `v.Kind()`. -/
def HostValue.Kind : HostValue → Kind
  | .scalar s => s.Kind
  | .nilPtr => .Ptr
  | .ptr _ => .Ptr
  | .nilIface => .Interface
  | .iface _ => .Interface
  | .struct _ => .Struct
  | .nilSlice _ => .Slice
  | .slice _ _ => .Slice
  | .nilMap _ => .Map
  | .map _ _ => .Map
  | .other k => k.Kind
  | .array _ _ => .Array
  | .uintptr _ => .Uintptr
  | .namedKeyMap _ => .Map

/-- Go `isBaseType`, on the kind of the value. -/
def isBaseType (v : HostValue) : Bool :=
  match v.Kind with
  | .Int | .Int8 | .Int16 | .Int32 | .Int64
  | .Uint | .Uint8 | .Uint16 | .Uint32 | .Uint64
  | .Float32 | .Float64 | .String | .Bool => true
  | _ => false

/-- Go `resolve`: follows pointers and interfaces down to a value of another
kind; on a nil pointer or interface `v.Elem()` is the zero `Value` and
`v.Type()` panics. -/
def resolve : HostValue → Except Panic HostValue
  | .ptr v => resolve v
  | .iface v => resolve v
  | .nilPtr => .error .nilReference
  | .nilIface => .error .nilReference
  | v => .ok v

/-- Go `append(s, x)` on a `[]interface{}`. -/
def appendValue : Value → Value → Value
  | .slice xs, x => .slice (xs ++ [x])
  | _, x => .slice [x]

mutual
/-- Go `fromStruct` (jsonobj.go lines 147-187): `resolve`, the test of the
kind, then the loop over the members. -/
def fromStruct (S : Strings) (o : JSONObject) : HostValue → Except Panic JSONObject
  | .ptr v => fromStruct S o v
  | .iface v => fromStruct S o v
  | .nilPtr => .error .nilReference
  | .nilIface => .error .nilReference
  | .struct members => fromStructFields S o members
  | _ => .error .notAStructure
/-- The loop of `fromStruct` (lines 155-186) over the members left. -/
def fromStructFields (S : Strings) (o : JSONObject) :
    List (StructFieldOf HostValue) → Except Panic JSONObject
  | [] => .ok o
  | ⟨fieldName, exported, anonymous, field⟩ :: rest =>
    if !exported then fromStructFields S o rest
    else
      match field with
      | .scalar s =>
        match SetField S o fieldName (.scalar s) with
        | .ok o' => fromStructFields S o' rest
        | .error e => .error e
      | .struct _ | .ptr _ | .nilPtr =>
        if anonymous then
          match fromStruct S o field with
          | .ok o' => fromStructFields S o' rest
          | .error e => .error e
        else
          match fromStruct S (newChild o) field with
          | .error e => .error e
          | .ok child =>
            match SetField S o fieldName (.object child) with
            | .ok o' => fromStructFields S o' rest
            | .error e => .error e
      | .slice _ _ | .nilSlice _ =>
        match convertSlice S o field with
        | .error e => .error e
        | .ok s =>
          match SetField S o fieldName s with
          | .ok o' => fromStructFields S o' rest
          | .error e => .error e
      | .map _ _ | .nilMap _ | .namedKeyMap _ =>
        match fromMapValue S (newChild o) field with
        | .error e => .error e
        | .ok child =>
          match SetField S o fieldName (.object child) with
          | .ok o' => fromStructFields S o' rest
          | .error e => .error e
      | _ => .error .notHandled
/-- Go `convertSlice` (lines 79-106). -/
def convertSlice (S : Strings) (o : JSONObject) : HostValue → Except Panic Value
  | .slice _ elems => convertElems S o elems .nilSlice
  | .nilSlice _ => .ok .nilSlice
  | _ => .error .canConvertOnlySlice
/-- The loop of `convertSlice` (lines 84-104) over the elements left, `s`
being the slice built so far. -/
def convertElems (S : Strings) (o : JSONObject) : List HostValue → Value → Except Panic Value
  | [], s => .ok s
  | v :: rest, s =>
    match convertValue S o v with
    | .error e => .error e
    | .ok x => convertElems S o rest (appendValue s x)
/-- The body that the loops of `convertSlice` (lines 87-103) and of
`fromMapValue` (lines 121-137) share: `resolve`, then a base-type value as it
is, a record as `newFromValue`, a slice as `convertSlice`, a map as
`newFromMapValue`, and the panic `not handled` on the other kinds (an array
and a `uintptr` among them). -/
def convertValue (S : Strings) (o : JSONObject) : HostValue → Except Panic Value
  | .ptr v => convertValue S o v
  | .iface v => convertValue S o v
  | .nilPtr => .error .nilReference
  | .nilIface => .error .nilReference
  | .scalar s => .ok (.scalar s)
  | .struct members =>
    match fromStructFields S (newChild o) members with
    | .ok child => .ok (.object child)
    | .error e => .error e
  | .slice _ elems => convertElems S o elems .nilSlice
  | .nilSlice _ => .ok .nilSlice
  | .map keyKind entries =>
    match fromMapEntries S (newChild o) keyKind entries with
    | .ok child => .ok (.object child)
    | .error e => .error e
  | .nilMap _ => .ok (.object (newChild o))
  | .namedKeyMap [] => .ok (.object (newChild o))
  | .namedKeyMap (_ :: _) => .error .typeAssertion
  | .other _ => .error .notHandled
  | .array _ _ => .error .notHandled
  | .uintptr _ => .error .notHandled
/-- Go `fromMapValue` (lines 108-139); `MapRange` panics on a value that is
not a map and yields nothing on a nil map. When the key type is a defined
type of kind `String`, the first entry passes the test of the kind (line 115)
and the assertion `k.Interface().(string)` (line 119) panics. -/
def fromMapValue (S : Strings) (o : JSONObject) : HostValue → Except Panic JSONObject
  | .map keyKind entries => fromMapEntries S o keyKind entries
  | .nilMap _ => .ok o
  | .namedKeyMap [] => .ok o
  | .namedKeyMap (_ :: _) => .error .typeAssertion
  | _ => .error .notAMap
/-- The loop of `fromMapValue` (lines 111-138) over the entries left. -/
def fromMapEntries (S : Strings) (o : JSONObject) (keyKind : Kind) :
    List (String × HostValue) → Except Panic JSONObject
  | [] => .ok o
  | (fieldName, v) :: rest =>
    if keyKind ≠ .String then .error .onlyStringKey
    else
      match convertValue S o v with
      | .error e => .error e
      | .ok x =>
        match SetField S o fieldName x with
        | .ok o' => fromMapEntries S o' keyKind rest
        | .error e => .error e
end

/-- Go `newFromValue`. -/
def newFromValue (S : Strings) (o : JSONObject) (v : HostValue) : Except Panic JSONObject :=
  fromStruct S (newChild o) v

/-- Go `newFromMapValue`. -/
def newFromMapValue (S : Strings) (o : JSONObject) (m : HostValue) : Except Panic JSONObject :=
  fromMapValue S (newChild o) m

/-- Go `FromStruct`, on `reflect.ValueOf(s)`. -/
def FromStruct (S : Strings) (s : HostValue) : Except Panic JSONObject :=
  newFromValue S New s

/-- Go `FromStructWithOptions`. -/
def FromStructWithOptions (S : Strings) (s : HostValue) (opt : Options) :
    Except Panic JSONObject :=
  fromStruct S { New with Options := some opt } s

/-- Go `FromMap`, on `reflect.ValueOf(m)`. -/
def FromMap (S : Strings) (m : HostValue) : Except Panic JSONObject :=
  fromMapValue S New m

/-- Go `ConvertSlice`. -/
def ConvertSlice (S : Strings) (o : JSONObject) (slice : HostValue) : Except Panic Value :=
  convertSlice S o slice

/-! ## jsonobj.go: serialization -/

/-- Strings joined by commas. -/
def joinComma : List String → String
  | [] => ""
  | [x] => x
  | x :: y :: rest => x ++ "," ++ joinComma (y :: rest)

/-- Errors of `json.Marshal`: an error of a leaf encoder, or the error of a
`MarshalJSON` method, which `json.Marshal` wraps. -/
inductive MarshalError where
  | leaf (msg : String)
  | marshaler (inner : MarshalError)
deriving DecidableEq, Repr

/-- The part of `encoding/json` that is not the repository's: `json.Marshal`
on a value of a base type (numbers, booleans, strings with their quotes and
escapes), and its text for a `[]byte`. -/
structure Codec where
  marshalScalar : Scalar → Except MarshalError String
  marshalBytes : List Int → String

mutual
/-- Go `json.Marshal(v)` for `v` a field value: the leaf encoder on a base
type, the `MarshalJSON` hook on a `*JSONObject`, `null` on a nil
`[]interface{}` and a JSON array on another one. -/
def marshalValue (J : Codec) : Value → Except MarshalError String
  | .scalar s => J.marshalScalar s
  | .object ⟨fields, _, _⟩ =>
    match marshalFields J fields.length 0 fields "\x7b" with
    | .ok out => .ok (out ++ "\x7d")
    | .error e => .error (.marshaler e)
  | .nilSlice => .ok "null"
  | .slice xs =>
    match marshalItems J xs with
    | .ok items => .ok ("[" ++ joinComma items ++ "]")
    | .error e => .error e
/-- The loop of `MarshalJSON` (jsonobj.go lines 223-241) from index `i` on,
over the fields left, with `n` the value of `len(o.fields)` and `out` the
bytes written so far. -/
def marshalFields (J : Codec) (n : Nat) : Nat → List (FieldOf Value) → String →
    Except MarshalError String
  | _, [], out => .ok out
  | i, ⟨fname, fvalue⟩ :: rest, out =>
    match J.marshalScalar (.str fname) with
    | .error e => .error e
    | .ok name =>
      match marshalValue J fvalue with
      | .error e => .error e
      | .ok value =>
        let out := out ++ name ++ ":" ++ value
        let out := if i ≠ n - 1 then out ++ "," else out
        marshalFields J n (i + 1) rest out
/-- The texts of the elements of a `[]interface{}`, in order; the first
failure is the result. -/
def marshalItems (J : Codec) : List Value → Except MarshalError (List String)
  | [] => .ok []
  | x :: rest =>
    match marshalValue J x with
    | .error e => .error e
    | .ok value =>
      match marshalItems J rest with
      | .error e => .error e
      | .ok items => .ok (value :: items)
end

/-- Go `MarshalJSON` (jsonobj.go lines 219-246). -/
def MarshalJSON (J : Codec) (o : JSONObject) : Except MarshalError String :=
  match marshalFields J o.fields.length 0 o.fields "\x7b" with
  | .ok out => .ok (out ++ "\x7d")
  | .error e => .error e

/-- The character of a 6-bit number in base64. -/
def base64Char (n : Nat) : Char :=
  "ABCDEFGHIJKLMNOPQRSTUVWXYZabcdefghijklmnopqrstuvwxyz0123456789+/".data.getD n '='

/-- Standard base64 of a list of bytes, with padding. -/
def base64 : List Nat → List Char
  | [] => []
  | [a] => [base64Char (a / 4), base64Char (a % 4 * 16), '=', '=']
  | [a, b] =>
    [base64Char (a / 4), base64Char (a % 4 * 16 + b / 16), base64Char (b % 16 * 4), '=']
  | a :: b :: c :: rest =>
    [base64Char (a / 4), base64Char (a % 4 * 16 + b / 16), base64Char (b % 16 * 4 + c / 64),
      base64Char (c % 64)] ++ base64 rest

/-- A leaf encoder for examples: integers in decimal, booleans, strings
between quotes (right for the strings that need no escape), a `[]byte` in
base64; it refuses floats. -/
def demoCodec : Codec where
  marshalScalar
    | .int _ n => .ok (toString n)
    | .bool b => .ok (if b then "true" else "false")
    | .str s => .ok ("\"" ++ s ++ "\"")
    | .float _ _ => .error (.leaf "float")
  marshalBytes := fun bs => "\"" ++ String.mk (base64 (bs.map Int.toNat)) ++ "\""

/-! ## `encoding/json` on the values of the host program

`json.Marshal` applied to a Go value directly is what the specification
compares `MarshalJSON` with. It is not code of the repository; the model
below follows the documentation of package `encoding/json` for values without
struct tags and without `Marshaler` methods. -/

/-- Order of Go `strings.Compare` (byte by byte), as `a ≤ b`. -/
def bytesLE : List Nat → List Nat → Bool
  | [], _ => true
  | _ :: _, [] => false
  | a :: as, b :: bs => decide (a < b) || (a == b && bytesLE as bs)

/-- Order in which `encoding/json` writes the keys of a map. -/
def keyLE (a b : String) : Bool := bytesLE (utf8Bytes a) (utf8Bytes b)

/-- A field that `encoding/json` considers for a record: its name, how deep
in embedded records it was found, and the encoding of its value. -/
structure JsonField where
  name : String
  depth : Nat
  encoded : Except MarshalError String

/-- The Go visibility rule of `encoding/json`: of the fields with one name,
the one found at the least depth is kept if it is alone at that depth, and
none is kept otherwise; the order of the fields is kept. -/
def dominantFields (cs : List JsonField) : List JsonField :=
  cs.filter (fun c =>
    decide ((cs.filter (fun c' => decide (c'.name = c.name ∧ c'.depth ≤ c.depth))).length = 1))

/-- The texts `key:value` of a JSON object, in order; the first failure of an
encoder is the result. -/
def jsonParts (J : Codec) :
    List (String × Except MarshalError String) → Except MarshalError (List String)
  | [] => .ok []
  | (name, encoded) :: rest =>
    match J.marshalScalar (.str name) with
    | .error e => .error e
    | .ok key =>
      match encoded with
      | .error e => .error e
      | .ok value =>
        match jsonParts J rest with
        | .error e => .error e
        | .ok parts => .ok ((key ++ ":" ++ value) :: parts)

/-- A JSON object from its keys and encoded values. -/
def jsonObject (J : Codec) (members : List (String × Except MarshalError String)) :
    Except MarshalError String :=
  match jsonParts J members with
  | .ok parts => .ok ("\x7b" ++ joinComma parts ++ "\x7d")
  | .error e => .error e

/-- The texts of the elements of a JSON array; the first failure is the
result. -/
def jsonItems : List (Except MarshalError String) → Except MarshalError (List String)
  | [] => .ok []
  | encoded :: rest =>
    match encoded with
    | .error e => .error e
    | .ok value =>
      match jsonItems rest with
      | .error e => .error e
      | .ok items => .ok (value :: items)

/-- The byte held by an element of a `[]byte`. -/
def byteOf : HostValue → Option Int
  | .scalar (.int _ n) => some n
  | _ => none

/-- Whether `encoding/json` accepts a map with keys of this kind (strings and
integers; key types with a text marshaler are not modelled). -/
def jsonKeyKind : Kind → Bool
  | .String | .Int | .Int8 | .Int16 | .Int32 | .Int64
  | .Uint | .Uint8 | .Uint16 | .Uint32 | .Uint64 | .Uintptr => true
  | _ => false

mutual
/-- Model of `json.Marshal(v)` for a Go value `v`: the leaf encoder on a base
type; `null` for a nil pointer, interface, slice or map; the value behind a
pointer or an interface; a record as the object of its dominant fields in
declaration order, embedded records inlined; a slice as an array, a `[]byte`
as one string; an array as an array; a `uintptr` as the unsigned integer it
is; a map as the object of its entries sorted by key, whether its key type is
`string` or a defined type of that kind; an error on the other kinds. -/
def jsonMarshal (J : Codec) : HostValue → Except MarshalError String
  | .scalar s => J.marshalScalar s
  | .nilPtr => .ok "null"
  | .ptr v => jsonMarshal J v
  | .nilIface => .ok "null"
  | .iface v => jsonMarshal J v
  | .struct members =>
    jsonObject J ((dominantFields (jsonFields J 0 members)).map (fun c => (c.name, c.encoded)))
  | .nilSlice _ => .ok "null"
  | .slice elemKind elems =>
    if elemKind = .Uint8 then .ok (J.marshalBytes (elems.filterMap byteOf))
    else
      match jsonItems (jsonElems J elems) with
      | .ok items => .ok ("[" ++ joinComma items ++ "]")
      | .error e => .error e
  | .nilMap _ => .ok "null"
  | .map keyKind entries =>
    if jsonKeyKind keyKind then
      jsonObject J ((jsonEntries J entries).insertionSort (fun a b => keyLE a.1 b.1 = true))
    else .error (.leaf "unsupported type")
  | .other _ => .error (.leaf "unsupported type")
  | .array _ elems =>
    match jsonItems (jsonElems J elems) with
    | .ok items => .ok ("[" ++ joinComma items ++ "]")
    | .error e => .error e
  | .uintptr n => J.marshalScalar (.int .Uint64 n)
  | .namedKeyMap entries =>
    jsonObject J ((jsonEntries J entries).insertionSort (fun a b => keyLE a.1 b.1 = true))
/-- The fields that `encoding/json` considers for the members of a record
found at depth `depth`: an embedded record, or a pointer to one, gives the
fields of its members one level deeper (none when the pointer is nil, an
embedded nil pointer being taken as a pointer to a record), another member
gives one field if it is exported. -/
def jsonFields (J : Codec) (depth : Nat) : List (StructFieldOf HostValue) → List JsonField
  | [] => []
  | ⟨name, exported, anonymous, v⟩ :: rest =>
    let own : List JsonField := if exported then [⟨name, depth, jsonMarshal J v⟩] else []
    (if anonymous then
      match v with
      | .struct members => jsonFields J (depth + 1) members
      | .ptr (.struct members) => jsonFields J (depth + 1) members
      | .nilPtr => []
      | _ => own
    else own) ++ jsonFields J depth rest
/-- The encodings of the elements of a slice. -/
def jsonElems (J : Codec) : List HostValue → List (Except MarshalError String)
  | [] => []
  | v :: rest => jsonMarshal J v :: jsonElems J rest
/-- The keys of a map with the encodings of their values. -/
def jsonEntries (J : Codec) :
    List (String × HostValue) → List (String × Except MarshalError String)
  | [] => []
  | (key, v) :: rest => (key, jsonMarshal J v) :: jsonEntries J rest
end

/-- The receiver after a call of a method that returns `r`: the new state
when the call returned, the state `o` before the call when it panicked. -/
def afterCall (o : JSONObject) (r : Except Panic JSONObject) : JSONObject :=
  match r with
  | .ok o' => o'
  | .error _ => o

/-! ## The result of a conversion in which no name repeats -/

/-- Go `New()` with the given `Options`: what `newChild` returns on an object
with these `Options`. -/
def newWith (opts : Option Options) : JSONObject :=
  { New with Options := opts }

/-- What `SetField` does with a field whose name is not in the cache: the
append and the record in the cache (jsonobj.go lines 277-278). -/
def appendField (o : JSONObject) (f : Field) : JSONObject :=
  { o with fields := o.fields ++ [f], cache := (f.Name, o.fields.length + 1) :: o.cache }

/-- Fields appended one after the other. -/
def appendFields (o : JSONObject) (fs : List Field) : JSONObject :=
  fs.foldl appendField o

/-- The `[]interface{}` that `append` builds from nil with these elements. -/
def sliceOfValues : List Value → Value
  | [] => .nilSlice
  | x :: xs => .slice (x :: xs)

mutual
/-- The fields that `fromStruct` adds for a value, when every member is
supported and no name repeats. -/
def recordFields (S : Strings) (opts : Option Options) : HostValue → List Field
  | .ptr v => recordFields S opts v
  | .iface v => recordFields S opts v
  | .struct members => memberFields S opts members
  | _ => []
/-- The fields that the loop of `fromStruct` adds for these members: none for
a member that is not exported, those of the record for an embedded record,
one for another member. -/
def memberFields (S : Strings) (opts : Option Options) :
    List (StructFieldOf HostValue) → List Field
  | [] => []
  | ⟨fieldName, exported, anonymous, field⟩ :: rest =>
    let inner := recordFields S opts field
    (if !exported then []
    else
      match field with
      | .scalar s => [{ Name := renameField S opts fieldName, Value := .scalar s }]
      | .struct _ | .ptr _ =>
        if anonymous then inner
        else [{ Name := renameField S opts fieldName,
                Value := .object (appendFields (newWith opts) inner) }]
      | .slice _ elems =>
        [{ Name := renameField S opts fieldName,
           Value := sliceOfValues (elemValues S opts elems) }]
      | .nilSlice _ => [{ Name := renameField S opts fieldName, Value := .nilSlice }]
      | .map _ entries =>
        [{ Name := renameField S opts fieldName,
           Value := .object (appendFields (newWith opts) (entryFields S opts entries)) }]
      | .nilMap _ => [{ Name := renameField S opts fieldName, Value := .object (newWith opts) }]
      | _ => []) ++ memberFields S opts rest
/-- The values that the loop of `convertSlice` appends for these
elements. -/
def elemValues (S : Strings) (opts : Option Options) : List HostValue → List Value
  | [] => []
  | v :: rest => valueOf S opts v :: elemValues S opts rest
/-- The value that a sequence element or a map entry becomes. -/
def valueOf (S : Strings) (opts : Option Options) : HostValue → Value
  | .ptr v => valueOf S opts v
  | .iface v => valueOf S opts v
  | .scalar s => .scalar s
  | .struct members => .object (appendFields (newWith opts) (memberFields S opts members))
  | .slice _ elems => sliceOfValues (elemValues S opts elems)
  | .map _ entries => .object (appendFields (newWith opts) (entryFields S opts entries))
  | .nilMap _ => .object (newWith opts)
  | _ => .nilSlice
/-- The fields that the loop of `fromMapValue` adds for these entries. -/
def entryFields (S : Strings) (opts : Option Options) : List (String × HostValue) → List Field
  | [] => []
  | (key, v) :: rest =>
    { Name := renameField S opts key, Value := valueOf S opts v } :: entryFields S opts rest
end

/-- The names of these fields are pairwise distinct. -/
def distinctNames (fs : List Field) : Bool :=
  decide ((fs.map (·.Name)).Nodup)

mutual
/-- A value that `fromStruct` accepts: behind pointers and interfaces, none
of them nil, a record with supported members. -/
def okRecord (S : Strings) (opts : Option Options) : HostValue → Bool
  | .ptr v => okRecord S opts v
  | .iface v => okRecord S opts v
  | .struct members => okMembers S opts members
  | _ => false
/-- Members that the loop of `fromStruct` supports: each exported member is
of a base type, a record or a pointer to one, a slice or a map with the key
type `string`, and in each object made for a member the rewritten names are
distinct. -/
def okMembers (S : Strings) (opts : Option Options) : List (StructFieldOf HostValue) → Bool
  | [] => true
  | ⟨_, exported, anonymous, field⟩ :: rest =>
    let inner := okRecord S opts field
    (!exported ||
      match field with
      | .scalar _ => true
      | .struct _ | .ptr _ =>
        inner && (anonymous || distinctNames (recordFields S opts field))
      | .slice _ elems => okElems S opts elems
      | .nilSlice _ => true
      | .map keyKind entries =>
        decide (keyKind = .String) && okEntries S opts entries &&
          distinctNames (entryFields S opts entries)
      | .nilMap _ => true
      | _ => false) && okMembers S opts rest
/-- Elements that the loop of `convertSlice` supports. -/
def okElems (S : Strings) (opts : Option Options) : List HostValue → Bool
  | [] => true
  | v :: rest => okValue S opts v && okElems S opts rest
/-- A sequence element or a map value that is supported: behind pointers and
interfaces, none of them nil, a value of a base type, a record, a slice or a
map with the key type `string`, with distinct rewritten names in each
object. -/
def okValue (S : Strings) (opts : Option Options) : HostValue → Bool
  | .ptr v => okValue S opts v
  | .iface v => okValue S opts v
  | .scalar _ => true
  | .struct members =>
    okMembers S opts members && distinctNames (memberFields S opts members)
  | .slice _ elems => okElems S opts elems
  | .nilSlice _ => true
  | .map keyKind entries =>
    decide (keyKind = .String) && okEntries S opts entries &&
      distinctNames (entryFields S opts entries)
  | .nilMap _ => true
  | _ => false
/-- Map entries with supported values. -/
def okEntries (S : Strings) (opts : Option Options) : List (String × HostValue) → Bool
  | [] => true
  | (_, v) :: rest => okValue S opts v && okEntries S opts rest
end

/-- A record that `FromStruct` and `FromStructWithOptions` convert without a
panic: supported members everywhere, and pairwise distinct rewritten names
in each object of the result. -/
def convertible (S : Strings) (opts : Option Options) (v : HostValue) : Bool :=
  okRecord S opts v && distinctNames (recordFields S opts v)

/-- The keys of these map entries come in strictly ascending order of
`strings.Compare`. -/
def keysAscending (entries : List (String × HostValue)) : Bool :=
  decide ((entries.map (·.1)).Pairwise (fun a b => keyLE a b = true ∧ a ≠ b))

mutual
/-- Members on which `MarshalJSON` after conversion and `json.Marshal` write
the same text: all exported, each of a base type, a record (named or
embedded), a slice that is nil or has an element and is not a `[]byte`, or a
map that is not nil, has the key type `string` and is iterated by ascending
key. -/
def plainMembers : List (StructFieldOf HostValue) → Bool
  | [] => true
  | ⟨_, exported, _, field⟩ :: rest =>
    exported &&
      (match field with
        | .scalar _ => true
        | .struct members => plainMembers members
        | .slice elemKind elems =>
          decide (elemKind ≠ .Uint8) && !elems.isEmpty && plainElems elems
        | .nilSlice _ => true
        | .map keyKind entries =>
          decide (keyKind = .String) && keysAscending entries && plainEntries entries
        | _ => false) && plainMembers rest
/-- Elements of that sort. -/
def plainElems : List HostValue → Bool
  | [] => true
  | v :: rest => plainValue v && plainElems rest
/-- A sequence element or a map value of that sort, possibly behind pointers
and interfaces that are not nil. -/
def plainValue : HostValue → Bool
  | .ptr v => plainValue v
  | .iface v => plainValue v
  | .scalar _ => true
  | .struct members => plainMembers members
  | .slice elemKind elems =>
    decide (elemKind ≠ .Uint8) && !elems.isEmpty && plainElems elems
  | .nilSlice _ => true
  | .map keyKind entries =>
    decide (keyKind = .String) && keysAscending entries && plainEntries entries
  | _ => false
/-- Map entries with values of that sort. -/
def plainEntries : List (String × HostValue) → Bool
  | [] => true
  | (_, v) :: rest => plainValue v && plainEntries rest
end

/-- A record of that sort, possibly behind pointers and interfaces that are
not nil. -/
def plainRecord : HostValue → Bool
  | .ptr v => plainRecord v
  | .iface v => plainRecord v
  | .struct members => plainMembers members
  | _ => false

/-- Two results of an encoder agree: both fail, or both give the same
text. -/
def SameText {α : Type} (a b : Except MarshalError α) : Prop :=
  a.toOption = b.toOption

/-- Two members of a JSON object agree: the same key, and encodings of the
value that agree. -/
def SameMember (a b : String × Except MarshalError String) : Prop :=
  a.1 = b.1 ∧ SameText a.2 b.2

/-- An object for examples: under `SnakeCase`, `FieldOne` and `FieldTwo` are
inserted and `FieldOne` is set again. -/
def demoObject : JSONObject :=
  afterCall New (setFields asciiStrings { New with Options := some ⟨SnakeCase⟩ }
    [("FieldOne", intValue 1), ("FieldTwo", intValue 2), ("FieldOne", intValue 3)])

/-- A Go `int` as a host value. -/
def hostInt (n : Int) : HostValue := .scalar (.int .Int n)

/-- The value of type `Dummy` of the tests. -/
def demoDummy : HostValue :=
  .struct [⟨"A", true, false, .scalar (.str "Ola")⟩,
    ⟨"B", true, false, .scalar (.int .Int64 4242)⟩]

/-- The members of the `EmbeddedStruct` of the tests (`Field3` as an
integer). -/
def demoEmbedded : List StructField :=
  [⟨"Field3", true, false, hostInt 42⟩,
    ⟨"IntSlice", true, false, .slice .Int [hostInt 42]⟩,
    ⟨"StructSlice", true, false, .slice .Struct [demoDummy]⟩,
    ⟨"M", true, false, .map .String [("test", hostInt 42)]⟩]

/-- The value of type `MyStruct` of `TestNestedObject`. -/
def demoMyStruct : HostValue :=
  .struct [⟨"Field1", true, false, .scalar (.str "test")⟩,
    ⟨"Field2", true, false, hostInt 42⟩,
    ⟨"EmbeddedStruct", true, true, .struct demoEmbedded⟩]

/-- Two direct members `P`, `Q`. -/
def demoPQ : List StructField :=
  [⟨"P", true, false, hostInt 1⟩, ⟨"Q", true, false, hostInt 2⟩]

/-- The members `X`, `Y` of an embedded record. -/
def demoXY : List StructField :=
  [⟨"X", true, false, hostInt 3⟩, ⟨"Y", true, false, hostInt 4⟩]

/-- The insertion rule in the words of the specification (4.1): the
character at `i` is an uppercase letter or a digit, the output is not empty,
and the input character before it or the one after it is a lowercase
letter. -/
def specUnderscoreRule (camel : List Nat) (outputNonEmpty : Bool) (i : Nat) : Bool :=
  let isLower := fun (b : Nat) => decide ('a'.toNat ≤ b ∧ b ≤ 'z'.toNat)
  let cur := camel.getD i 0
  (decide ('A'.toNat ≤ cur ∧ cur ≤ 'Z'.toNat) || decide ('0'.toNat ≤ cur ∧ cur ≤ '9'.toNat)) &&
    outputNonEmpty &&
    ((decide (0 < i) && isLower (camel.getD (i - 1) 0)) ||
      (decide (i + 1 < camel.length) && isLower (camel.getD (i + 1) 0)))

/-- What the code keeps between the field sequence and the cache: names are
pairwise distinct, and the cache holds, for each name of the sequence and
for no other string, the index of its field plus one. -/
def CacheInv (o : JSONObject) : Prop :=
  (fieldNames o).Nodup ∧
    ∀ n : String, o.cache.lookup n =
      if n ∈ fieldNames o then some ((fieldNames o).indexOf n + 1) else none

/-! ## Definitions for the claims on the conversion and on names -/

/-- The receiver after a sequence of `SetField` calls, a call that panics
leaving it as it was. -/
def applyCalls (S : Strings) (o : JSONObject) (calls : List (String × Value)) : JSONObject :=
  calls.foldl (fun o c => afterCall o (SetField S o c.1 c.2)) o

/-- A value of a base type, possibly behind pointers and interfaces that are
not nil. -/
def isScalarValue : HostValue → Bool
  | .scalar _ => true
  | .iface v => isScalarValue v
  | .ptr v => isScalarValue v
  | _ => false

/-- A slice, nil or not, of values of base types, possibly behind pointers
and interfaces that are not nil. -/
def isScalarSeq : HostValue → Bool
  | .slice _ elems => elems.all isScalarValue
  | .nilSlice _ => true
  | .iface v => isScalarSeq v
  | .ptr v => isScalarSeq v
  | _ => false

/-- The map of `TestFromMap`, a `map[string]any`, iterated in the order B, A,
C. -/
def demoMap : List (String × HostValue) :=
  [("B", .iface (.scalar (.str "test"))), ("A", .iface (hostInt 42)),
    ("C", .iface (.slice .Int [hostInt 1, hostInt 2, hostInt 3]))]

/-- The elements of a `[]interface{}`; a nil one has none. -/
def sliceElems : Value → List Value
  | .slice xs => xs
  | _ => []

/-- The character with its letter A-Z replaced by a-z. -/
def lowerAscii (c : Char) : Char :=
  if 'A'.toNat ≤ c.toNat ∧ c.toNat ≤ 'Z'.toNat then Char.ofNat (c.toNat - 'A'.toNat + 'a'.toNat)
  else c

/-- The characters left when every underscore is deleted. -/
def dropUnderscores (cs : List Char) : List Char :=
  cs.filter (fun c => decide (c ≠ '_'))

mutual
/-- The member names and the map keys of a Go value, at any depth, in the
records, the slices and the maps with a key type that is not a defined type:
the values that the converter walks. -/
def hostNames : HostValue → List String
  | .ptr v => hostNames v
  | .iface v => hostNames v
  | .struct members => memberNames members
  | .slice _ elems => elemNames elems
  | .map _ entries => entryNames entries
  | _ => []
/-- The names of these members and the names found in their values. -/
def memberNames : List (StructFieldOf HostValue) → List String
  | [] => []
  | ⟨name, _, _, v⟩ :: rest => name :: (hostNames v ++ memberNames rest)
/-- The names found in these elements. -/
def elemNames : List HostValue → List String
  | [] => []
  | v :: rest => hostNames v ++ elemNames rest
/-- The keys of these entries and the names found in their values. -/
def entryNames : List (String × HostValue) → List String
  | [] => []
  | (key, v) :: rest => key :: (hostNames v ++ entryNames rest)
end

mutual
/-- Every `JSONObject` in a field value, at any depth, has the `Options`
`opts`, and every field name in it is `opts` applied to one of `names`. -/
def sharesOptions (S : Strings) (opts : Option Options) (names : List String) : Value → Bool
  | .scalar _ => true
  | .object ⟨fields, _, o⟩ => decide (o = opts) && fieldsShare S opts names fields
  | .nilSlice => true
  | .slice xs => valuesShare S opts names xs
/-- The same for the fields of an object. -/
def fieldsShare (S : Strings) (opts : Option Options) (names : List String) :
    List (FieldOf Value) → Bool
  | [] => true
  | ⟨name, value⟩ :: rest =>
    names.any (fun m => renameField S opts m == name) &&
      sharesOptions S opts names value && fieldsShare S opts names rest
/-- The same for the elements of a `[]interface{}`. -/
def valuesShare (S : Strings) (opts : Option Options) (names : List String) :
    List Value → Bool
  | [] => true
  | v :: rest => sharesOptions S opts names v && valuesShare S opts names rest
end

/-- The object that `FromStructWithOptions` builds from the value of the
tests under `LowerCase`. -/
def demoLower : JSONObject :=
  afterCall New (FromStructWithOptions asciiStrings demoMyStruct ⟨LowerCase⟩)

/-- The value of a base type that a Go value holds, behind pointers and
interfaces that are not nil. -/
def scalarOf : HostValue → Option Scalar
  | .scalar s => some s
  | .iface v => scalarOf v
  | .ptr v => scalarOf v
  | _ => none

/-- The values of base types that these elements hold, in order; `none` when
an element holds none. -/
def scalarsOf : List HostValue → Option (List Scalar)
  | [] => some []
  | v :: rest =>
    match scalarOf v, scalarsOf rest with
    | some s, some ss => some (s :: ss)
    | _, _ => none

/-- What a map entry holds in the words of the claim on maps: a scalar, or a
sequence of scalars. -/
inductive Content where
  | scalar (s : Scalar)
  | sequence (ss : List Scalar)
deriving DecidableEq, Repr

/-- The scalar or the sequence of scalars that a Go value is, behind pointers
and interfaces that are not nil: a value of a base type, or a slice (nil or
not) of such values. -/
def hostContent : HostValue → Option Content
  | .scalar s => some (.scalar s)
  | .slice _ elems => (scalarsOf elems).map .sequence
  | .nilSlice _ => some (.sequence [])
  | .iface v => hostContent v
  | .ptr v => hostContent v
  | _ => none

/-- The scalars that the elements of a `[]interface{}` are, in order. -/
def valueScalars : List Value → Option (List Scalar)
  | [] => some []
  | .scalar s :: rest => (valueScalars rest).map (s :: ·)
  | _ :: _ => none

/-- The scalar or the sequence of scalars that a field holds; a nil
`[]interface{}` and one without element both hold the sequence without
element. -/
def contentOf : Value → Option Content
  | .scalar s => some (.scalar s)
  | .slice xs => (valueScalars xs).map .sequence
  | .nilSlice => some (.sequence [])
  | .object _ => none

mutual
/-- Embedded-record flattening in the words of the specification (4.3), on
names: the names of the direct fields that a record value gives, behind
pointers and interfaces. -/
def specRecordNames : HostValue → List String
  | .ptr v => specRecordNames v
  | .iface v => specRecordNames v
  | .struct members => specMemberNames members
  | _ => []
/-- The names for these members: declaration order, nothing for a member
that is not exported, the names of its own members for an embedded record
(or reference to one) at the point where it is declared, the name of the
member otherwise. -/
def specMemberNames : List (StructFieldOf HostValue) → List String
  | [] => []
  | ⟨name, exported, anonymous, v⟩ :: rest =>
    let inner := specRecordNames v
    (if !exported then []
    else
      match v with
      | .struct _ | .ptr _ => if anonymous then inner else [name]
      | _ => [name]) ++ specMemberNames rest
end

/-! ## Lemmas on `SetField` -/

theorem setValueAt_names {α : Type} (value : α) :
    ∀ (fs : List (FieldOf α)) (i : Nat) (fs' : List (FieldOf α)),
      setValueAt value fs i = some fs' → fs'.map (·.Name) = fs.map (·.Name)
  | [], _, _, h => by simp [setValueAt] at h
  | f :: fs, 0, fs', h => by
    simp only [setValueAt, Option.some.injEq] at h
    subst h
    simp
  | f :: fs, i + 1, fs', h => by
    simp only [setValueAt, Option.map_eq_some'] at h
    obtain ⟨t, ht, rfl⟩ := h
    simp [setValueAt_names value fs i t ht]

theorem setValueAt_eq_none {α : Type} (value : α) :
    ∀ (fs : List (FieldOf α)) (i : Nat), setValueAt value fs i = none ↔ fs.length ≤ i
  | [], i => by simp [setValueAt]
  | f :: fs, 0 => by simp [setValueAt]
  | f :: fs, i + 1 => by simp [setValueAt, setValueAt_eq_none value fs i]

/-- The two ways a `SetField` call goes, by the cache. -/
theorem SetField_absent (S : Strings) (o : JSONObject) (name : String) (value : Value)
    (h : o.cache.lookup (renameField S o.Options name) = none) :
    SetField S o name value = .ok
      { o with
        fields := o.fields ++ [{ Name := renameField S o.Options name, Value := value }],
        cache := (renameField S o.Options name, o.fields.length + 1) :: o.cache } := by
  simp [SetField, h]

theorem SetField_present (S : Strings) (o : JSONObject) (name : String) (value : Value)
    (i : Nat) (h : o.cache.lookup (renameField S o.Options name) = some i) :
    (∃ fields, setValueAt value o.fields i = some fields ∧
        SetField S o name value = .ok { o with fields := fields }) ∨
      (o.fields.length ≤ i ∧ SetField S o name value = .error .indexOutOfRange) := by
  cases hs : setValueAt value o.fields i with
  | none =>
    right
    exact ⟨(setValueAt_eq_none value o.fields i).1 hs, by simp [SetField, h, hs]⟩
  | some fields =>
    left
    exact ⟨fields, rfl, by simp [SetField, h, hs]⟩

theorem SetField_options (S : Strings) (o o' : JSONObject) (name : String) (value : Value)
    (h : SetField S o name value = .ok o') : o'.Options = o.Options := by
  cases hc : o.cache.lookup (renameField S o.Options name) with
  | none =>
    rw [SetField_absent S o name value hc] at h
    cases h
    rfl
  | some i =>
    rcases SetField_present S o name value i hc with ⟨fields, _, h2⟩ | ⟨_, h2⟩
    · rw [h2] at h
      cases h
      rfl
    · rw [h2] at h
      cases h

theorem CacheInv_new (opts : Option Options) : CacheInv { New with Options := opts } := by
  constructor
  · simp [fieldNames, New]
  · intro n
    simp [fieldNames, New]

theorem CacheInv_mem_iff {o : JSONObject} (h : CacheInv o) (n : String) :
    (o.cache.lookup n).isSome = true ↔ n ∈ fieldNames o := by
  rw [h.2 n]
  by_cases hn : n ∈ fieldNames o <;> simp [hn]

theorem fieldNames_appendField (o : JSONObject) (f : Field) :
    fieldNames (appendField o f) = fieldNames o ++ [f.Name] := by
  simp [fieldNames, appendField]

theorem CacheInv_appendField (o : JSONObject) (f : Field) (hinv : CacheInv o)
    (hnot : f.Name ∉ fieldNames o) : CacheInv (appendField o f) := by
  have hlen : (fieldNames o).length = o.fields.length := by simp [fieldNames]
  constructor
  · rw [fieldNames_appendField]
    exact List.Nodup.append hinv.1 (List.nodup_singleton _) (List.disjoint_singleton.2 hnot)
  · intro n
    rw [fieldNames_appendField]
    simp only [appendField, List.mem_append, List.mem_singleton]
    by_cases hn : n = f.Name
    · subst hn
      rw [List.lookup_cons_self, if_pos (Or.inr rfl), List.indexOf_append_of_not_mem hnot,
        List.indexOf_cons_self, hlen]
    · have hne : (n == f.Name) = false := by simpa using hn
      rw [List.lookup_cons, hne, hinv.2 n]
      by_cases hmem : n ∈ fieldNames o
      · rw [if_pos hmem, if_pos (Or.inl hmem), List.indexOf_append_of_mem hmem]
      · rw [if_neg hmem, if_neg (by simp [hmem, hn])]

theorem CacheInv_SetField (S : Strings) (o o' : JSONObject) (name : String) (value : Value)
    (hinv : CacheInv o) (h : SetField S o name value = .ok o') : CacheInv o' := by
  cases hc : o.cache.lookup (renameField S o.Options name) with
  | some i =>
    rcases SetField_present S o name value i hc with ⟨fields, hf, h2⟩ | ⟨_, h2⟩
    · rw [h2] at h
      cases h
      have hn : fieldNames { o with fields := fields } = fieldNames o :=
        setValueAt_names value o.fields i fields hf
      refine ⟨by rw [hn]; exact hinv.1, fun n => ?_⟩
      rw [hn]
      exact hinv.2 n
    · rw [h2] at h
      cases h
  | none =>
    rw [SetField_absent S o name value hc] at h
    cases h
    have hnot : renameField S o.Options name ∉ fieldNames o := by
      intro hmem
      have := hinv.2 (renameField S o.Options name)
      rw [hc, if_pos hmem] at this
      cases this
    exact CacheInv_appendField o { Name := renameField S o.Options name, Value := value }
      hinv hnot

theorem Reachable.cacheInv {S : Strings} {o : JSONObject} (h : Reachable S o) : CacheInv o := by
  induction h with
  | new opts => exact CacheInv_new opts
  | setField name value _ hset ih => exact CacheInv_SetField S _ _ name value ih hset

theorem reachable_of_setFields (S : Strings) :
    ∀ (calls : List (String × Value)) (o o' : JSONObject),
      Reachable S o → setFields S o calls = .ok o' → Reachable S o'
  | [], o, o', hr, h => by
    simp only [setFields, Except.ok.injEq] at h
    exact h ▸ hr
  | (name, value) :: rest, o, o', hr, h => by
    simp only [setFields] at h
    cases hs : SetField S o name value with
    | error e => simp [hs] at h
    | ok o1 =>
      simp only [hs] at h
      exact reachable_of_setFields S rest o1 o' (Reachable.setField name value hr hs) h

/-- The field names after a `SetField` call that returns. -/
theorem SetField_names (S : Strings) (o o' : JSONObject) (name : String) (value : Value)
    (hinv : CacheInv o) (h : SetField S o name value = .ok o') :
    fieldNames o' =
      if renameField S o.Options name ∈ fieldNames o then fieldNames o
      else fieldNames o ++ [renameField S o.Options name] := by
  cases hc : o.cache.lookup (renameField S o.Options name) with
  | some i =>
    have hmem : renameField S o.Options name ∈ fieldNames o :=
      (CacheInv_mem_iff hinv _).1 (by simp [hc])
    rcases SetField_present S o name value i hc with ⟨fields, hf, h2⟩ | ⟨_, h2⟩
    · rw [h2] at h
      cases h
      rw [if_pos hmem]
      exact setValueAt_names value o.fields i fields hf
    · rw [h2] at h
      cases h
  | none =>
    have hmem : renameField S o.Options name ∉ fieldNames o := fun hm => by
      have := (CacheInv_mem_iff hinv _).2 hm
      simp [hc] at this
    rw [SetField_absent S o name value hc] at h
    cases h
    rw [if_neg hmem]
    simp [fieldNames]

/-- The field names after a sequence of `SetField` calls that return are
the names already there and the rewritten names of the calls. -/
theorem setFields_names (S : Strings) :
    ∀ (calls : List (String × Value)) (o o' : JSONObject),
      CacheInv o → setFields S o calls = .ok o' →
      ∀ s : String, s ∈ fieldNames o' ↔
        (s ∈ fieldNames o ∨ ∃ c ∈ calls, renameField S o.Options c.1 = s)
  | [], o, o', _, h, s => by
    simp only [setFields, Except.ok.injEq] at h
    subst h
    simp
  | (name, value) :: rest, o, o', hinv, h, s => by
    simp only [setFields] at h
    cases hs : SetField S o name value with
    | error e => simp [hs] at h
    | ok o1 =>
      simp only [hs] at h
      have ih := setFields_names S rest o1 o' (CacheInv_SetField S o o1 name value hinv hs) h s
      have hopt := SetField_options S o o1 name value hs
      have hn := SetField_names S o o1 name value hinv hs
      rw [ih, hn, hopt]
      by_cases hm : renameField S o.Options name ∈ fieldNames o
      · rw [if_pos hm]
        constructor
        · rintro (h1 | ⟨c, hc, rfl⟩)
          · exact Or.inl h1
          · exact Or.inr ⟨c, List.mem_cons_of_mem _ hc, rfl⟩
        · rintro (h1 | ⟨c, hc, rfl⟩)
          · exact Or.inl h1
          · rcases List.mem_cons.1 hc with rfl | hc
            · exact Or.inl hm
            · exact Or.inr ⟨c, hc, rfl⟩
      · rw [if_neg hm]
        constructor
        · rintro (h1 | ⟨c, hc, rfl⟩)
          · rcases List.mem_append.1 h1 with h1 | h1
            · exact Or.inl h1
            · exact Or.inr ⟨(name, value), List.mem_cons_self _ _,
                (List.mem_singleton.1 h1).symm⟩
          · exact Or.inr ⟨c, List.mem_cons_of_mem _ hc, rfl⟩
        · rintro (h1 | ⟨c, hc, rfl⟩)
          · exact Or.inl (List.mem_append_left _ h1)
          · rcases List.mem_cons.1 hc with rfl | hc
            · exact Or.inl (List.mem_append_right _ (List.mem_singleton.2 rfl))
            · exact Or.inr ⟨c, hc, rfl⟩

/-- The example object is built by `SetField` calls. -/
theorem demoObject_reachable : Reachable asciiStrings demoObject :=
  reachable_of_setFields asciiStrings
    [("FieldOne", intValue 1), ("FieldTwo", intValue 2), ("FieldOne", intValue 3)]
    { New with Options := some ⟨SnakeCase⟩ } demoObject (Reachable.new _) rfl

/-! ## Lemmas on the conversion -/

theorem newChild_eq (o : JSONObject) : newChild o = newWith o.Options := rfl

theorem options_appendField (o : JSONObject) (f : Field) :
    (appendField o f).Options = o.Options := rfl

theorem appendFields_cons (o : JSONObject) (f : Field) (fs : List Field) :
    appendFields o (f :: fs) = appendFields (appendField o f) fs := rfl

theorem appendFields_append (o : JSONObject) (fs gs : List Field) :
    appendFields o (fs ++ gs) = appendFields (appendFields o fs) gs := by
  simp [appendFields, List.foldl_append]

theorem fieldNames_appendFields (fs : List Field) :
    ∀ o : JSONObject, fieldNames (appendFields o fs) = fieldNames o ++ fs.map (·.Name) := by
  induction fs with
  | nil => intro o; simp [appendFields]
  | cons f fs ih =>
    intro o
    rw [appendFields_cons, ih, fieldNames_appendField]
    simp

theorem fields_appendFields (fs : List Field) :
    ∀ o : JSONObject, (appendFields o fs).fields = o.fields ++ fs := by
  induction fs with
  | nil => intro o; simp [appendFields]
  | cons f fs ih =>
    intro o
    rw [appendFields_cons, ih]
    simp [appendField]

theorem options_appendFields (fs : List Field) :
    ∀ o : JSONObject, (appendFields o fs).Options = o.Options := by
  induction fs with
  | nil => intro o; rfl
  | cons f fs ih =>
    intro o
    rw [appendFields_cons, ih, options_appendField]

theorem CacheInv_appendFields (fs : List Field) :
    ∀ o : JSONObject, CacheInv o → (fieldNames o ++ fs.map (·.Name)).Nodup →
      CacheInv (appendFields o fs) := by
  induction fs with
  | nil => intro o h _; exact h
  | cons f fs ih =>
    intro o hinv hnd
    rw [appendFields_cons]
    have hnot : f.Name ∉ fieldNames o := by
      intro hm
      have := List.disjoint_of_nodup_append hnd hm
      simp at this
    refine ih _ (CacheInv_appendField o f hinv hnot) ?_
    rw [fieldNames_appendField]
    simpa using hnd

/-- `SetField` with a name that no field has appends the field. -/
theorem SetField_fresh (S : Strings) (o : JSONObject) (name : String) (value : Value)
    (hinv : CacheInv o) (hnot : renameField S o.Options name ∉ fieldNames o) :
    SetField S o name value =
      .ok (appendField o { Name := renameField S o.Options name, Value := value }) := by
  have hc : o.cache.lookup (renameField S o.Options name) = none := by
    cases hl : o.cache.lookup (renameField S o.Options name) with
    | none => rfl
    | some i => exact absurd ((CacheInv_mem_iff hinv _).1 (by simp [hl])) hnot
  exact SetField_absent S o name value hc

/-- One `SetField` of a conversion in which no name repeats. -/
theorem SetField_step (S : Strings) (o : JSONObject) (opts : Option Options) (name : String)
    (value : Value) (more : List Field) (hopt : o.Options = opts) (hinv : CacheInv o)
    (hnd : (fieldNames o ++
      (({ Name := renameField S opts name, Value := value } : Field) :: more).map
        (·.Name)).Nodup) :
    SetField S o name value =
        .ok (appendField o { Name := renameField S opts name, Value := value }) ∧
      CacheInv (appendField o { Name := renameField S opts name, Value := value }) ∧
      (appendField o { Name := renameField S opts name, Value := value }).Options = opts ∧
      (fieldNames (appendField o { Name := renameField S opts name, Value := value }) ++
        more.map (·.Name)).Nodup := by
  subst hopt
  have hnot : renameField S o.Options name ∉ fieldNames o := by
    intro hm
    have := List.disjoint_of_nodup_append hnd hm
    simp at this
  refine ⟨SetField_fresh S o name value hinv hnot, CacheInv_appendField o _ hinv hnot, rfl, ?_⟩
  rw [fieldNames_appendField]
  simpa using hnd

theorem Nodup_left_of_append3 {xs ys zs : List String} (h : (xs ++ (ys ++ zs)).Nodup) :
    (xs ++ ys).Nodup := by
  rw [← List.append_assoc] at h
  exact (List.nodup_append.1 h).1

theorem foldl_appendValue_slice (xs : List Value) :
    ∀ acc : List Value, xs.foldl appendValue (.slice acc) = .slice (acc ++ xs) := by
  induction xs with
  | nil => intro acc; simp
  | cons x xs ih => intro acc; simp [List.foldl_cons, appendValue, ih]

theorem foldl_appendValue_nil (xs : List Value) :
    xs.foldl appendValue .nilSlice = sliceOfValues xs := by
  cases xs with
  | nil => rfl
  | cons x xs => simp [List.foldl_cons, appendValue, foldl_appendValue_slice, sliceOfValues]

mutual
theorem fromStruct_eq (S : Strings) (opts : Option Options) :
    ∀ (v : HostValue) (o : JSONObject), o.Options = opts → CacheInv o →
      okRecord S opts v = true →
      (fieldNames o ++ (recordFields S opts v).map (·.Name)).Nodup →
      fromStruct S o v = .ok (appendFields o (recordFields S opts v))
  | .ptr v, o, ho, hinv, hok, hnd => by
    simp only [okRecord] at hok
    simp only [recordFields] at hnd
    simp only [fromStruct, recordFields]
    exact fromStruct_eq S opts v o ho hinv hok hnd
  | .iface v, o, ho, hinv, hok, hnd => by
    simp only [okRecord] at hok
    simp only [recordFields] at hnd
    simp only [fromStruct, recordFields]
    exact fromStruct_eq S opts v o ho hinv hok hnd
  | .struct members, o, ho, hinv, hok, hnd => by
    simp only [okRecord] at hok
    simp only [recordFields] at hnd
    simp only [fromStruct, recordFields]
    exact fromStructFields_eq S opts members o ho hinv hok hnd
  | .scalar _, _, _, _, hok, _ => by simp [okRecord] at hok
  | .nilPtr, _, _, _, hok, _ => by simp [okRecord] at hok
  | .nilIface, _, _, _, hok, _ => by simp [okRecord] at hok
  | .nilSlice _, _, _, _, hok, _ => by simp [okRecord] at hok
  | .slice _ _, _, _, _, hok, _ => by simp [okRecord] at hok
  | .nilMap _, _, _, _, hok, _ => by simp [okRecord] at hok
  | .map _ _, _, _, _, hok, _ => by simp [okRecord] at hok
  | .other _, _, _, _, hok, _ => by simp [okRecord] at hok
  | .array _ _, _, _, _, hok, _ => by simp [okRecord] at hok
  | .uintptr _, _, _, _, hok, _ => by simp [okRecord] at hok
  | .namedKeyMap _, _, _, _, hok, _ => by simp [okRecord] at hok
theorem fromStructFields_eq (S : Strings) (opts : Option Options) :
    ∀ (members : List (StructFieldOf HostValue)) (o : JSONObject), o.Options = opts →
      CacheInv o → okMembers S opts members = true →
      (fieldNames o ++ (memberFields S opts members).map (·.Name)).Nodup →
      fromStructFields S o members = .ok (appendFields o (memberFields S opts members))
  | [], o, _, _, _, _ => by simp [fromStructFields, memberFields, appendFields]
  | ⟨name, false, anon, field⟩ :: rest, o, ho, hinv, hok, hnd => by
    simp only [okMembers, Bool.not_false, Bool.true_or, Bool.true_and] at hok
    simp only [memberFields, Bool.not_false, if_true, List.nil_append] at hnd
    simp only [fromStructFields, memberFields, Bool.not_false, if_true, List.nil_append]
    exact fromStructFields_eq S opts rest o ho hinv hok hnd
  | ⟨name, true, anon, .scalar s⟩ :: rest, o, ho, hinv, hok, hnd => by
    simp only [okMembers, Bool.not_true, Bool.false_or, Bool.true_and] at hok
    simp only [memberFields, Bool.not_true, Bool.false_eq_true, if_false,
      List.singleton_append] at hnd
    simp only [fromStructFields, memberFields, Bool.not_true, Bool.false_eq_true, if_false,
      List.singleton_append]
    obtain ⟨h1, h2, h3, h4⟩ := SetField_step S o opts name (.scalar s) _ ho hinv hnd
    rw [h1]
    simp only
    rw [fromStructFields_eq S opts rest _ h3 h2 hok h4]
    rfl
  | ⟨name, true, anon, .nilPtr⟩ :: rest, o, ho, hinv, hok, hnd => by
    simp [okMembers] at hok
  | ⟨name, true, anon, .nilIface⟩ :: rest, o, ho, hinv, hok, hnd => by
    simp [okMembers] at hok
  | ⟨name, true, anon, .iface _⟩ :: rest, o, ho, hinv, hok, hnd => by
    simp [okMembers] at hok
  | ⟨name, true, anon, .other _⟩ :: rest, o, ho, hinv, hok, hnd => by
    simp [okMembers] at hok
  | ⟨name, true, anon, .array _ _⟩ :: rest, o, ho, hinv, hok, hnd => by
    simp [okMembers] at hok
  | ⟨name, true, anon, .uintptr _⟩ :: rest, o, ho, hinv, hok, hnd => by
    simp [okMembers] at hok
  | ⟨name, true, anon, .namedKeyMap _⟩ :: rest, o, ho, hinv, hok, hnd => by
    simp [okMembers] at hok
  | ⟨name, true, true, .ptr v⟩ :: rest, o, ho, hinv, hok, hnd => by
    simp only [okMembers, Bool.not_true, Bool.false_or, Bool.or_true, Bool.and_true,
      Bool.and_eq_true] at hok
    simp only [memberFields, Bool.not_true, Bool.false_eq_true, if_false, if_true,
      List.map_append] at hnd
    simp only [fromStructFields, memberFields, Bool.not_true, Bool.false_eq_true, if_false,
      if_true]
    have hnd1 := Nodup_left_of_append3 hnd
    rw [fromStruct_eq S opts (.ptr v) o ho hinv hok.1.1 hnd1]
    simp only
    have ho2 : (appendFields o (recordFields S opts (.ptr v))).Options = opts := by
      rw [options_appendFields, ho]
    have hinv2 := CacheInv_appendFields _ o hinv hnd1
    have hnd2 : (fieldNames (appendFields o (recordFields S opts (.ptr v))) ++
        (memberFields S opts rest).map (·.Name)).Nodup := by
      rw [fieldNames_appendFields, List.append_assoc]
      exact hnd
    rw [fromStructFields_eq S opts rest _ ho2 hinv2 hok.2 hnd2, appendFields_append]
  | ⟨name, true, false, .ptr v⟩ :: rest, o, ho, hinv, hok, hnd => by
    simp only [okMembers, Bool.not_true, Bool.false_or, Bool.and_eq_true, distinctNames,
      decide_eq_true_eq] at hok
    simp only [memberFields, Bool.not_true, Bool.false_eq_true, if_false,
      List.singleton_append] at hnd
    simp only [fromStructFields, memberFields, Bool.not_true, Bool.false_eq_true, if_false,
      List.singleton_append]
    have hc := fromStruct_eq S opts (.ptr v) (newChild o) ho (CacheInv_new _) hok.1.1
      (by simpa [fieldNames, newChild, New] using hok.1.2)
    rw [hc]
    simp only
    rw [newChild_eq, ho]
    obtain ⟨h1, h2, h3, h4⟩ := SetField_step S o opts name
      (.object (appendFields (newWith opts) (recordFields S opts (.ptr v)))) _ ho hinv hnd
    rw [h1]
    simp only
    rw [fromStructFields_eq S opts rest _ h3 h2 hok.2 h4]
    rfl
  | ⟨name, true, true, .struct ms⟩ :: rest, o, ho, hinv, hok, hnd => by
    simp only [okMembers, Bool.not_true, Bool.false_or, Bool.or_true, Bool.and_true,
      Bool.and_eq_true] at hok
    simp only [memberFields, Bool.not_true, Bool.false_eq_true, if_false, if_true,
      List.map_append] at hnd
    simp only [fromStructFields, memberFields, Bool.not_true, Bool.false_eq_true, if_false,
      if_true]
    have hnd1 := Nodup_left_of_append3 hnd
    rw [fromStruct_eq S opts (.struct ms) o ho hinv hok.1.1 hnd1]
    simp only
    have ho2 : (appendFields o (recordFields S opts (.struct ms))).Options = opts := by
      rw [options_appendFields, ho]
    have hinv2 := CacheInv_appendFields _ o hinv hnd1
    have hnd2 : (fieldNames (appendFields o (recordFields S opts (.struct ms))) ++
        (memberFields S opts rest).map (·.Name)).Nodup := by
      rw [fieldNames_appendFields, List.append_assoc]
      exact hnd
    rw [fromStructFields_eq S opts rest _ ho2 hinv2 hok.2 hnd2, appendFields_append]
  | ⟨name, true, false, .struct ms⟩ :: rest, o, ho, hinv, hok, hnd => by
    simp only [okMembers, Bool.not_true, Bool.false_or, Bool.and_eq_true, distinctNames,
      decide_eq_true_eq] at hok
    simp only [memberFields, Bool.not_true, Bool.false_eq_true, if_false,
      List.singleton_append] at hnd
    simp only [fromStructFields, memberFields, Bool.not_true, Bool.false_eq_true, if_false,
      List.singleton_append]
    have hc := fromStruct_eq S opts (.struct ms) (newChild o) ho (CacheInv_new _) hok.1.1
      (by simpa [fieldNames, newChild, New] using hok.1.2)
    rw [hc]
    simp only
    rw [newChild_eq, ho]
    obtain ⟨h1, h2, h3, h4⟩ := SetField_step S o opts name
      (.object (appendFields (newWith opts) (recordFields S opts (.struct ms)))) _ ho hinv hnd
    rw [h1]
    simp only
    rw [fromStructFields_eq S opts rest _ h3 h2 hok.2 h4]
    rfl
  | ⟨name, true, anon, .nilSlice k⟩ :: rest, o, ho, hinv, hok, hnd => by
    simp only [okMembers, Bool.not_true, Bool.false_or, Bool.true_and] at hok
    simp only [memberFields, Bool.not_true, Bool.false_eq_true, if_false,
      List.singleton_append] at hnd
    simp only [fromStructFields, memberFields, Bool.not_true, Bool.false_eq_true, if_false,
      List.singleton_append, convertSlice]
    obtain ⟨h1, h2, h3, h4⟩ := SetField_step S o opts name .nilSlice _ ho hinv hnd
    rw [h1]
    simp only
    rw [fromStructFields_eq S opts rest _ h3 h2 hok h4]
    rfl
  | ⟨name, true, anon, .slice k xs⟩ :: rest, o, ho, hinv, hok, hnd => by
    simp only [okMembers, Bool.not_true, Bool.false_or, Bool.and_eq_true] at hok
    simp only [memberFields, Bool.not_true, Bool.false_eq_true, if_false,
      List.singleton_append] at hnd
    simp only [fromStructFields, memberFields, Bool.not_true, Bool.false_eq_true, if_false,
      List.singleton_append, convertSlice]
    rw [convertElems_eq S opts xs o .nilSlice ho hok.1, foldl_appendValue_nil]
    simp only
    obtain ⟨h1, h2, h3, h4⟩ := SetField_step S o opts name
      (sliceOfValues (elemValues S opts xs)) _ ho hinv hnd
    rw [h1]
    simp only
    rw [fromStructFields_eq S opts rest _ h3 h2 hok.2 h4]
    rfl
  | ⟨name, true, anon, .nilMap k⟩ :: rest, o, ho, hinv, hok, hnd => by
    simp only [okMembers, Bool.not_true, Bool.false_or, Bool.true_and] at hok
    simp only [memberFields, Bool.not_true, Bool.false_eq_true, if_false,
      List.singleton_append] at hnd
    simp only [fromStructFields, memberFields, Bool.not_true, Bool.false_eq_true, if_false,
      List.singleton_append, fromMapValue]
    rw [newChild_eq, ho]
    obtain ⟨h1, h2, h3, h4⟩ := SetField_step S o opts name (.object (newWith opts)) _ ho hinv hnd
    rw [h1]
    simp only
    rw [fromStructFields_eq S opts rest _ h3 h2 hok h4]
    rfl
  | ⟨name, true, anon, .map k es⟩ :: rest, o, ho, hinv, hok, hnd => by
    simp only [okMembers, Bool.not_true, Bool.false_or, Bool.and_eq_true, distinctNames,
      decide_eq_true_eq] at hok
    simp only [memberFields, Bool.not_true, Bool.false_eq_true, if_false,
      List.singleton_append] at hnd
    simp only [fromStructFields, memberFields, Bool.not_true, Bool.false_eq_true, if_false,
      List.singleton_append, fromMapValue]
    obtain ⟨⟨⟨hk, hes⟩, hdist⟩, hrest⟩ := hok
    subst hk
    have hc := fromMapEntries_eq S opts es (newChild o) ho (CacheInv_new _) hes
      (by simpa [fieldNames, newChild, New] using hdist)
    rw [hc]
    simp only
    rw [newChild_eq, ho]
    obtain ⟨h1, h2, h3, h4⟩ := SetField_step S o opts name
      (.object (appendFields (newWith opts) (entryFields S opts es))) _ ho hinv hnd
    rw [h1]
    simp only
    rw [fromStructFields_eq S opts rest _ h3 h2 hrest h4]
    rfl
theorem convertElems_eq (S : Strings) (opts : Option Options) :
    ∀ (elems : List HostValue) (o : JSONObject) (s : Value), o.Options = opts →
      okElems S opts elems = true →
      convertElems S o elems s = .ok ((elemValues S opts elems).foldl appendValue s)
  | [], o, s, _, _ => by simp [convertElems, elemValues]
  | v :: rest, o, s, ho, hok => by
    simp only [okElems, Bool.and_eq_true] at hok
    simp only [convertElems, elemValues, List.foldl_cons]
    rw [convertValue_eq S opts v o ho hok.1]
    simp only
    exact convertElems_eq S opts rest o _ ho hok.2
theorem convertValue_eq (S : Strings) (opts : Option Options) :
    ∀ (v : HostValue) (o : JSONObject), o.Options = opts → okValue S opts v = true →
      convertValue S o v = .ok (valueOf S opts v)
  | .ptr v, o, ho, hok => by
    simp only [okValue] at hok
    simp only [convertValue, valueOf]
    exact convertValue_eq S opts v o ho hok
  | .iface v, o, ho, hok => by
    simp only [okValue] at hok
    simp only [convertValue, valueOf]
    exact convertValue_eq S opts v o ho hok
  | .scalar s, o, ho, hok => by simp [convertValue, valueOf]
  | .struct ms, o, ho, hok => by
    simp only [okValue, Bool.and_eq_true, distinctNames, decide_eq_true_eq] at hok
    simp only [convertValue, valueOf]
    rw [fromStructFields_eq S opts ms (newChild o) ho (CacheInv_new _) hok.1
      (by simpa [fieldNames, newChild, New] using hok.2)]
    simp only
    rw [newChild_eq, ho]
  | .nilSlice k, o, ho, hok => by simp [convertValue, valueOf]
  | .slice k xs, o, ho, hok => by
    simp only [okValue] at hok
    simp only [convertValue, valueOf]
    rw [convertElems_eq S opts xs o .nilSlice ho hok, foldl_appendValue_nil]
  | .nilMap k, o, ho, hok => by
    simp only [convertValue, valueOf]
    rw [newChild_eq, ho]
  | .map k es, o, ho, hok => by
    simp only [okValue, Bool.and_eq_true, distinctNames, decide_eq_true_eq] at hok
    simp only [convertValue, valueOf]
    obtain ⟨⟨hk, hes⟩, hdist⟩ := hok
    subst hk
    rw [fromMapEntries_eq S opts es (newChild o) ho (CacheInv_new _) hes
      (by simpa [fieldNames, newChild, New] using hdist)]
    simp only
    rw [newChild_eq, ho]
  | .nilPtr, _, _, hok => by simp [okValue] at hok
  | .nilIface, _, _, hok => by simp [okValue] at hok
  | .other _, _, _, hok => by simp [okValue] at hok
  | .array _ _, _, _, hok => by simp [okValue] at hok
  | .uintptr _, _, _, hok => by simp [okValue] at hok
  | .namedKeyMap _, _, _, hok => by simp [okValue] at hok
theorem fromMapEntries_eq (S : Strings) (opts : Option Options) :
    ∀ (entries : List (String × HostValue)) (o : JSONObject), o.Options = opts →
      CacheInv o → okEntries S opts entries = true →
      (fieldNames o ++ (entryFields S opts entries).map (·.Name)).Nodup →
      fromMapEntries S o .String entries = .ok (appendFields o (entryFields S opts entries))
  | [], o, _, _, _, _ => by simp [fromMapEntries, entryFields, appendFields]
  | (key, v) :: rest, o, ho, hinv, hok, hnd => by
    simp only [okEntries, Bool.and_eq_true] at hok
    simp only [entryFields] at hnd
    simp only [fromMapEntries, entryFields, ne_eq, not_true_eq_false, if_false]
    rw [convertValue_eq S opts v o ho hok.1]
    simp only
    obtain ⟨h1, h2, h3, h4⟩ := SetField_step S o opts key (valueOf S opts v) _ ho hinv hnd
    rw [h1]
    simp only
    rw [fromMapEntries_eq S opts rest _ h3 h2 hok.2 h4]
    rfl
end

/-! ## Lemmas on the two encoders -/

theorem SameText.refl {α : Type} (a : Except MarshalError α) : SameText a a := rfl

theorem sameText_ok_iff {α : Type} {a b : Except MarshalError α} (h : SameText a b) (t : α) :
    a = .ok t ↔ b = .ok t := by
  unfold SameText at h
  cases a <;> cases b <;> simp_all [Except.toOption]

theorem jsonParts_congr (J : Codec) :
    ∀ (as bs : List (String × Except MarshalError String)), List.Forall₂ SameMember as bs →
      SameText (jsonParts J as) (jsonParts J bs)
  | _, _, .nil => rfl
  | (n1, e1) :: as, (n2, e2) :: bs, .cons h hrest => by
    have ih := jsonParts_congr J as bs hrest
    obtain ⟨hn, he⟩ := h
    simp only at hn he
    subst hn
    unfold SameText at *
    simp only [jsonParts]
    generalize jsonParts J as = ra at ih ⊢
    generalize jsonParts J bs = rb at ih ⊢
    cases J.marshalScalar (.str n1) with
    | error e => rfl
    | ok key =>
      cases e1 <;> cases e2 <;> cases ra <;> cases rb <;> simp_all [Except.toOption]

theorem jsonObject_congr (J : Codec) (as bs : List (String × Except MarshalError String))
    (h : List.Forall₂ SameMember as bs) : SameText (jsonObject J as) (jsonObject J bs) := by
  have := jsonParts_congr J as bs h
  unfold SameText at *
  simp only [jsonObject]
  generalize jsonParts J as = ra at this ⊢
  generalize jsonParts J bs = rb at this ⊢
  cases ra <;> cases rb <;> simp_all [Except.toOption]

theorem jsonItems_congr :
    ∀ (as bs : List (Except MarshalError String)), List.Forall₂ SameText as bs →
      SameText (jsonItems as) (jsonItems bs)
  | _, _, .nil => rfl
  | e1 :: as, e2 :: bs, .cons h hrest => by
    have ih := jsonItems_congr as bs hrest
    unfold SameText at *
    simp only [jsonItems]
    generalize jsonItems as = ra at ih ⊢
    generalize jsonItems bs = rb at ih ⊢
    cases e1 <;> cases e2 <;> cases ra <;> cases rb <;> simp_all [Except.toOption]

theorem marshalItems_eq (J : Codec) :
    ∀ vs : List Value, marshalItems J vs = jsonItems (vs.map (marshalValue J))
  | [] => by simp [marshalItems, jsonItems]
  | v :: vs => by
    simp only [marshalItems, jsonItems, List.map_cons, marshalItems_eq J vs]

theorem jsonParts_length (J : Codec) :
    ∀ (ms : List (String × Except MarshalError String)) (ps : List String),
      jsonParts J ms = .ok ps → ps.length = ms.length
  | [], ps, h => by
    simp only [jsonParts, Except.ok.injEq] at h
    subst h
    rfl
  | (n, e) :: ms, ps, h => by
    simp only [jsonParts] at h
    cases hk : J.marshalScalar (.str n) with
    | error e' => simp [hk] at h
    | ok key =>
      cases e with
      | error e' => simp [hk] at h
      | ok value =>
        cases hr : jsonParts J ms with
        | error e' => simp [hk, hr] at h
        | ok parts =>
          simp only [hk, hr, Except.ok.injEq] at h
          subst h
          simp [jsonParts_length J ms parts hr]

theorem marshalFields_eq (J : Codec) (n : Nat) :
    ∀ (fs : List (FieldOf Value)) (i : Nat) (out : String), n = i + fs.length →
      marshalFields J n i fs out =
        match jsonParts J (fs.map (fun f => (f.Name, marshalValue J f.Value))) with
        | .ok parts => .ok (out ++ joinComma parts)
        | .error e => .error e
  | [], i, out, _ => by simp [marshalFields, jsonParts, joinComma]
  | ⟨name, value⟩ :: rest, i, out, hn => by
    simp only [marshalFields, List.map_cons, jsonParts]
    cases hk : J.marshalScalar (.str name) with
    | error e => rfl
    | ok key =>
      cases hv : marshalValue J value with
      | error e => rfl
      | ok text =>
        simp only
        rw [marshalFields_eq J n rest (i + 1) _ (by simp at hn; omega)]
        cases hr : jsonParts J (rest.map (fun f => (f.Name, marshalValue J f.Value))) with
        | error e => rfl
        | ok parts =>
          have hlen := jsonParts_length J _ parts hr
          simp only [List.length_map] at hlen
          cases parts with
          | nil =>
            have h0 : rest.length = 0 := by simpa using hlen.symm
            have : ¬ (i ≠ n - 1) := by simp at hn; omega
            simp [this, joinComma, String.append_assoc]
          | cons p ps =>
            have h0 : rest.length = ps.length + 1 := by simpa using hlen.symm
            have : i ≠ n - 1 := by simp at hn; omega
            simp [this, joinComma, String.append_assoc]

theorem marshalValue_object (J : Codec) (o : JSONObject) :
    marshalValue J (.object o) =
      match jsonParts J (o.fields.map (fun f => (f.Name, marshalValue J f.Value))) with
      | .ok parts => .ok ("\x7b" ++ joinComma parts ++ "\x7d")
      | .error e => .error (.marshaler e) := by
  obtain ⟨fields, cache, opts⟩ := o
  simp only [marshalValue]
  rw [marshalFields_eq J _ fields 0 "\x7b" (by simp)]
  cases jsonParts J (fields.map (fun f => (f.Name, marshalValue J f.Value))) <;> rfl

theorem MarshalJSON_eq (J : Codec) (o : JSONObject) :
    MarshalJSON J o = jsonObject J (o.fields.map (fun f => (f.Name, marshalValue J f.Value))) := by
  simp only [MarshalJSON, jsonObject]
  rw [marshalFields_eq J _ o.fields 0 "\x7b" (by simp)]
  cases jsonParts J (o.fields.map (fun f => (f.Name, marshalValue J f.Value))) <;> rfl

theorem marshalValue_object_sameText (J : Codec) (o : JSONObject) :
    SameText (marshalValue J (.object o)) (MarshalJSON J o) := by
  rw [marshalValue_object, MarshalJSON_eq]
  unfold SameText
  simp only [jsonObject]
  cases jsonParts J (o.fields.map (fun f => (f.Name, marshalValue J f.Value))) <;> rfl

theorem SameText.trans {α : Type} {a b c : Except MarshalError α} (h1 : SameText a b)
    (h2 : SameText b c) : SameText a c := by
  unfold SameText at *
  rw [h1, h2]

theorem dominant_count (c : JsonField) :
    ∀ l : List JsonField, (l.map (·.name)).Nodup → c ∈ l →
      (l.filter (fun c' => decide (c'.name = c.name ∧ c'.depth ≤ c.depth))).length = 1
  | [], _, hc => by simp at hc
  | x :: xs, hnd, hc => by
    simp only [List.map_cons, List.nodup_cons, List.mem_map, not_exists, not_and] at hnd
    rcases List.mem_cons.1 hc with rfl | hc
    · have hxs : xs.filter (fun c' => decide (c'.name = c.name ∧ c'.depth ≤ c.depth)) = [] := by
        rw [List.filter_eq_nil_iff]
        intro y hy
        have := hnd.1 y hy
        simp [this]
      rw [List.filter_cons_of_pos (by simp), hxs]
      rfl
    · have hne : ¬ (x.name = c.name) := fun h => hnd.1 c hc h.symm
      simp only [List.filter_cons, hne, false_and, decide_False, Bool.false_eq_true, if_false]
      exact dominant_count c xs hnd.2 hc

theorem dominantFields_eq_self (cs : List JsonField) (h : (cs.map (·.name)).Nodup) :
    dominantFields cs = cs := by
  unfold dominantFields
  rw [List.filter_eq_self]
  intro c hc
  exact decide_eq_true (dominant_count c cs h hc)

theorem forall₂_sameMember_names {as bs : List (String × Except MarshalError String)}
    (h : List.Forall₂ SameMember as bs) : as.map (·.1) = bs.map (·.1) := by
  induction h with
  | nil => rfl
  | cons h _ ih => simp [h.1, ih]

/-- A record value: the object of its converted fields and the object that
`encoding/json` writes agree when the members agree and no name repeats. -/
theorem struct_sameText (J : Codec) (opts : Option Options) (fs : List Field)
    (cs : List JsonField) (hnd : (fs.map (·.Name)).Nodup)
    (h : List.Forall₂ SameMember (fs.map (fun f => (f.Name, marshalValue J f.Value)))
      (cs.map (fun c => (c.name, c.encoded)))) :
    SameText (MarshalJSON J (appendFields (newWith opts) fs))
      (jsonObject J ((dominantFields cs).map (fun c => (c.name, c.encoded)))) := by
  have hnames := forall₂_sameMember_names h
  simp only [List.map_map, Function.comp_def] at hnames
  rw [dominantFields_eq_self cs (by rw [← hnames]; exact hnd), MarshalJSON_eq,
    fields_appendFields]
  exact jsonObject_congr J _ _ (by simpa [newWith, New] using h)

theorem jsonEntries_keys (J : Codec) :
    ∀ es : List (String × HostValue), (jsonEntries J es).map (·.1) = es.map (·.1)
  | [] => by simp [jsonEntries]
  | (k, v) :: rest => by simp [jsonEntries, jsonEntries_keys J rest]

theorem jsonEntries_sorted (J : Codec) (es : List (String × HostValue))
    (h : keysAscending es = true) :
    (jsonEntries J es).insertionSort (fun a b => keyLE a.1 b.1 = true) = jsonEntries J es := by
  apply List.Sorted.insertionSort_eq
  simp only [keysAscending, decide_eq_true_eq] at h
  rw [← jsonEntries_keys J es, List.pairwise_map] at h
  exact h.imp (fun hab => hab.1)

theorem elemValues_ne_nil (S : Strings) (opts : Option Options) (xs : List HostValue)
    (h : xs.isEmpty = false) : ∃ v vs, elemValues S opts xs = v :: vs := by
  cases xs with
  | nil => simp at h
  | cons x xs => exact ⟨valueOf S opts x, elemValues S opts xs, by simp only [elemValues]⟩

/-- A slice value: the converted `[]interface{}` and the slice itself are
written alike when the elements are. -/
theorem slice_sameText (J : Codec) (k : Kind) (xs : List HostValue) (v : Value)
    (vs : List Value) (hk : k ≠ .Uint8)
    (h : List.Forall₂ SameText ((v :: vs).map (marshalValue J)) (jsonElems J xs)) :
    SameText (marshalValue J (sliceOfValues (v :: vs))) (jsonMarshal J (.slice k xs)) := by
  have := jsonItems_congr _ _ h
  unfold SameText at *
  simp only [sliceOfValues, marshalValue, jsonMarshal, hk, if_false, marshalItems_eq]
  generalize jsonItems ((v :: vs).map (marshalValue J)) = ra at this ⊢
  generalize jsonItems (jsonElems J xs) = rb at this ⊢
  cases ra <;> cases rb <;> simp_all [Except.toOption]

/-- A map value iterated by ascending key: the converted object and the map
itself are written alike when the entries are. -/
theorem map_sameText (J : Codec) (opts : Option Options) (es : List (String × HostValue))
    (fs : List Field) (hs : keysAscending es = true)
    (h : List.Forall₂ SameMember (fs.map (fun f => (f.Name, marshalValue J f.Value)))
      (jsonEntries J es)) :
    SameText (marshalValue J (.object (appendFields (newWith opts) fs)))
      (jsonMarshal J (.map .String es)) := by
  refine (marshalValue_object_sameText J _).trans ?_
  simp only [jsonMarshal, jsonKeyKind, if_true, jsonEntries_sorted J es hs]
  rw [MarshalJSON_eq, fields_appendFields]
  exact jsonObject_congr J _ _ (by simpa [newWith, New] using h)

mutual
theorem memberFields_sameMember (S : Strings) (J : Codec) (opts : Option Options)
    (hid : ∀ n : String, renameField S opts n = n) :
    ∀ (members : List (StructFieldOf HostValue)) (d : Nat),
      okMembers S opts members = true → plainMembers members = true →
      List.Forall₂ SameMember
        ((memberFields S opts members).map (fun f => (f.Name, marshalValue J f.Value)))
        ((jsonFields J d members).map (fun c => (c.name, c.encoded)))
  | [], d, _, _ => by simp [memberFields, jsonFields]
  | ⟨name, false, anon, field⟩ :: rest, d, hok, hp => by
    cases field <;> simp [plainMembers] at hp
  | ⟨name, true, anon, .scalar s⟩ :: rest, d, hok, hp => by
    simp only [okMembers, Bool.not_true, Bool.false_or, Bool.true_and] at hok
    simp only [plainMembers, Bool.true_and] at hp
    have ih := memberFields_sameMember S J opts hid rest d hok hp
    cases anon <;>
      simp only [memberFields, jsonFields, Bool.not_true, Bool.false_eq_true, if_false, if_true,
        List.singleton_append, List.map_cons, hid] <;>
      exact List.Forall₂.cons ⟨rfl, by simp only [marshalValue, jsonMarshal]; rfl⟩ ih
  | ⟨name, true, true, .struct ms⟩ :: rest, d, hok, hp => by
    simp only [okMembers, okRecord, Bool.not_true, Bool.false_or, Bool.or_true, Bool.and_true,
      Bool.and_eq_true] at hok
    simp only [plainMembers, Bool.true_and, Bool.and_eq_true] at hp
    have ih := memberFields_sameMember S J opts hid rest d hok.2 hp.2
    have ih1 := memberFields_sameMember S J opts hid ms (d + 1) hok.1.1 hp.1
    simp only [memberFields, recordFields, jsonFields, Bool.not_true, Bool.false_eq_true,
      if_false, if_true, List.map_append]
    exact List.rel_append ih1 ih
  | ⟨name, true, false, .struct ms⟩ :: rest, d, hok, hp => by
    simp only [okMembers, okRecord, recordFields, Bool.not_true, Bool.false_or,
      Bool.and_eq_true, distinctNames, decide_eq_true_eq] at hok
    simp only [plainMembers, Bool.true_and, Bool.and_eq_true] at hp
    have ih := memberFields_sameMember S J opts hid rest d hok.2 hp.2
    have ih1 := memberFields_sameMember S J opts hid ms 0 hok.1.1 hp.1
    simp only [memberFields, recordFields, jsonFields, Bool.not_true, Bool.false_eq_true,
      if_false, if_true, List.singleton_append, List.map_cons, hid]
    refine List.Forall₂.cons ⟨rfl, ?_⟩ ih
    simp only [jsonMarshal]
    exact (marshalValue_object_sameText J _).trans
      (struct_sameText J opts _ _ (by simpa using hok.1.2) ih1)
  | ⟨name, true, anon, .nilSlice k⟩ :: rest, d, hok, hp => by
    simp only [okMembers, Bool.not_true, Bool.false_or, Bool.true_and] at hok
    simp only [plainMembers, Bool.true_and] at hp
    have ih := memberFields_sameMember S J opts hid rest d hok hp
    cases anon <;>
      simp only [memberFields, jsonFields, Bool.not_true, Bool.false_eq_true, if_false, if_true,
        List.singleton_append, List.map_cons, hid] <;>
      exact List.Forall₂.cons ⟨rfl, by simp only [marshalValue, jsonMarshal]; rfl⟩ ih
  | ⟨name, true, anon, .slice k xs⟩ :: rest, d, hok, hp => by
    simp only [okMembers, Bool.not_true, Bool.false_or, Bool.and_eq_true] at hok
    simp only [plainMembers, Bool.true_and, Bool.and_eq_true, decide_eq_true_eq,
      Bool.not_eq_true'] at hp
    have ih := memberFields_sameMember S J opts hid rest d hok.2 hp.2
    have ih1 := elemValues_sameText S J opts hid xs hok.1 hp.1.2
    obtain ⟨v, vs, hv⟩ := elemValues_ne_nil S opts xs hp.1.1.2
    rw [hv] at ih1
    have hs := slice_sameText J k xs v vs hp.1.1.1 ih1
    rw [← hv] at hs
    cases anon <;>
      simp only [memberFields, jsonFields, Bool.not_true, Bool.false_eq_true, if_false, if_true,
        List.singleton_append, List.map_cons, hid] <;>
      exact List.Forall₂.cons ⟨rfl, hs⟩ ih
  | ⟨name, true, anon, .map k es⟩ :: rest, d, hok, hp => by
    simp only [okMembers, Bool.not_true, Bool.false_or, Bool.and_eq_true, distinctNames,
      decide_eq_true_eq] at hok
    simp only [plainMembers, Bool.true_and, Bool.and_eq_true, decide_eq_true_eq] at hp
    have ih := memberFields_sameMember S J opts hid rest d hok.2 hp.2
    have ih1 := entryFields_sameMember S J opts hid es hok.1.1.2 hp.1.2
    obtain ⟨⟨hk, hs⟩, _⟩ := hp.1
    subst hk
    have hm := map_sameText J opts es _ hs ih1
    cases anon <;>
      simp only [memberFields, jsonFields, Bool.not_true, Bool.false_eq_true, if_false, if_true,
        List.singleton_append, List.map_cons, hid] <;>
      exact List.Forall₂.cons ⟨rfl, hm⟩ ih
  | ⟨name, true, anon, .ptr _⟩ :: rest, d, hok, hp => by simp [plainMembers] at hp
  | ⟨name, true, anon, .nilPtr⟩ :: rest, d, hok, hp => by simp [plainMembers] at hp
  | ⟨name, true, anon, .iface _⟩ :: rest, d, hok, hp => by simp [plainMembers] at hp
  | ⟨name, true, anon, .nilIface⟩ :: rest, d, hok, hp => by simp [plainMembers] at hp
  | ⟨name, true, anon, .nilMap _⟩ :: rest, d, hok, hp => by simp [plainMembers] at hp
  | ⟨name, true, anon, .other _⟩ :: rest, d, hok, hp => by simp [plainMembers] at hp
  | ⟨name, true, anon, .array _ _⟩ :: rest, d, hok, hp => by simp [plainMembers] at hp
  | ⟨name, true, anon, .uintptr _⟩ :: rest, d, hok, hp => by simp [plainMembers] at hp
  | ⟨name, true, anon, .namedKeyMap _⟩ :: rest, d, hok, hp => by simp [plainMembers] at hp
theorem elemValues_sameText (S : Strings) (J : Codec) (opts : Option Options)
    (hid : ∀ n : String, renameField S opts n = n) :
    ∀ xs : List HostValue, okElems S opts xs = true → plainElems xs = true →
      List.Forall₂ SameText ((elemValues S opts xs).map (marshalValue J)) (jsonElems J xs)
  | [], _, _ => by simp [elemValues, jsonElems]
  | v :: rest, hok, hp => by
    simp only [okElems, Bool.and_eq_true] at hok
    simp only [plainElems, Bool.and_eq_true] at hp
    simp only [elemValues, jsonElems, List.map_cons]
    exact List.Forall₂.cons (valueOf_sameText S J opts hid v hok.1 hp.1)
      (elemValues_sameText S J opts hid rest hok.2 hp.2)
theorem valueOf_sameText (S : Strings) (J : Codec) (opts : Option Options)
    (hid : ∀ n : String, renameField S opts n = n) :
    ∀ v : HostValue, okValue S opts v = true → plainValue v = true →
      SameText (marshalValue J (valueOf S opts v)) (jsonMarshal J v)
  | .ptr v, hok, hp => by
    simp only [okValue] at hok
    simp only [plainValue] at hp
    simp only [valueOf, jsonMarshal]
    exact valueOf_sameText S J opts hid v hok hp
  | .iface v, hok, hp => by
    simp only [okValue] at hok
    simp only [plainValue] at hp
    simp only [valueOf, jsonMarshal]
    exact valueOf_sameText S J opts hid v hok hp
  | .scalar s, _, _ => by
    simp only [valueOf, jsonMarshal, marshalValue]
    rfl
  | .nilSlice k, _, _ => by
    simp only [valueOf, jsonMarshal, marshalValue]
    rfl
  | .struct ms, hok, hp => by
    simp only [okValue, Bool.and_eq_true, distinctNames, decide_eq_true_eq] at hok
    simp only [plainValue] at hp
    simp only [valueOf, jsonMarshal]
    exact (marshalValue_object_sameText J _).trans
      (struct_sameText J opts _ _ hok.2 (memberFields_sameMember S J opts hid ms 0 hok.1 hp))
  | .slice k xs, hok, hp => by
    simp only [okValue] at hok
    simp only [plainValue, Bool.and_eq_true, decide_eq_true_eq, Bool.not_eq_true'] at hp
    have ih1 := elemValues_sameText S J opts hid xs hok hp.2
    obtain ⟨v, vs, hv⟩ := elemValues_ne_nil S opts xs hp.1.2
    rw [hv] at ih1
    have hs := slice_sameText J k xs v vs hp.1.1 ih1
    rw [← hv] at hs
    simp only [valueOf]
    exact hs
  | .map k es, hok, hp => by
    simp only [okValue, Bool.and_eq_true, distinctNames, decide_eq_true_eq] at hok
    simp only [plainValue, Bool.and_eq_true, decide_eq_true_eq] at hp
    obtain ⟨⟨hk, hs⟩, hpe⟩ := hp
    subst hk
    simp only [valueOf]
    exact map_sameText J opts es _ hs (entryFields_sameMember S J opts hid es hok.1.2 hpe)
  | .nilPtr, _, hp => by simp [plainValue] at hp
  | .nilIface, _, hp => by simp [plainValue] at hp
  | .nilMap _, _, hp => by simp [plainValue] at hp
  | .other _, _, hp => by simp [plainValue] at hp
  | .array _ _, _, hp => by simp [plainValue] at hp
  | .uintptr _, _, hp => by simp [plainValue] at hp
  | .namedKeyMap _, _, hp => by simp [plainValue] at hp
theorem entryFields_sameMember (S : Strings) (J : Codec) (opts : Option Options)
    (hid : ∀ n : String, renameField S opts n = n) :
    ∀ es : List (String × HostValue), okEntries S opts es = true → plainEntries es = true →
      List.Forall₂ SameMember
        ((entryFields S opts es).map (fun f => (f.Name, marshalValue J f.Value)))
        (jsonEntries J es)
  | [], _, _ => by simp [entryFields, jsonEntries]
  | (key, v) :: rest, hok, hp => by
    simp only [okEntries, Bool.and_eq_true] at hok
    simp only [plainEntries, Bool.and_eq_true] at hp
    simp only [entryFields, jsonEntries, List.map_cons, hid]
    exact List.Forall₂.cons ⟨rfl, valueOf_sameText S J opts hid v hok.1 hp.1⟩
      (entryFields_sameMember S J opts hid rest hok.2 hp.2)
end

theorem renameField_default (S : Strings) (n : String) :
    renameField S (some ⟨CamelCase⟩) n = n := by
  simp [renameField, CamelCase, SnakeCase, LowerCase, UpperCase]

theorem FromStructWithOptions_eq (S : Strings) (v : HostValue) (opt : Options)
    (h : convertible S (some opt) v = true) :
    FromStructWithOptions S v opt =
      .ok (appendFields (newWith (some opt)) (recordFields S (some opt) v)) := by
  simp only [convertible, Bool.and_eq_true, distinctNames, decide_eq_true_eq] at h
  exact fromStruct_eq S (some opt) v (newWith (some opt)) rfl (CacheInv_new _) h.1
    (by simpa [fieldNames, newWith, New] using h.2)

theorem FromStruct_eq_withOptions (S : Strings) (v : HostValue) :
    FromStruct S v = FromStructWithOptions S v ⟨CamelCase⟩ := rfl

theorem memberFields_append (S : Strings) (opts : Option Options) :
    ∀ a b : List (StructFieldOf HostValue),
      memberFields S opts (a ++ b) = memberFields S opts a ++ memberFields S opts b
  | [], b => by simp [memberFields]
  | ⟨n, e, an, f⟩ :: a, b => by
    have ih := memberFields_append S opts a b
    cases f <;> simp [memberFields, ih]

theorem okMembers_append (S : Strings) (opts : Option Options) :
    ∀ a b : List (StructFieldOf HostValue),
      okMembers S opts (a ++ b) = (okMembers S opts a && okMembers S opts b)
  | [], b => by simp [okMembers]
  | ⟨n, e, an, f⟩ :: a, b => by
    have ih := okMembers_append S opts a b
    cases f <;> simp [okMembers, ih, Bool.and_assoc]

theorem record_sameText (S : Strings) (J : Codec) (opts : Option Options)
    (hid : ∀ n : String, renameField S opts n = n) :
    ∀ v : HostValue, okRecord S opts v = true →
      ((recordFields S opts v).map (·.Name)).Nodup → plainRecord v = true →
      SameText (MarshalJSON J (appendFields (newWith opts) (recordFields S opts v)))
        (jsonMarshal J v)
  | .ptr v, hok, hnd, hp => by
    simp only [okRecord] at hok
    simp only [recordFields] at hnd
    simp only [plainRecord] at hp
    simp only [recordFields, jsonMarshal]
    exact record_sameText S J opts hid v hok hnd hp
  | .iface v, hok, hnd, hp => by
    simp only [okRecord] at hok
    simp only [recordFields] at hnd
    simp only [plainRecord] at hp
    simp only [recordFields, jsonMarshal]
    exact record_sameText S J opts hid v hok hnd hp
  | .struct ms, hok, hnd, hp => by
    simp only [okRecord] at hok
    simp only [recordFields] at hnd
    simp only [plainRecord] at hp
    simp only [recordFields, jsonMarshal]
    exact struct_sameText J opts _ _ hnd (memberFields_sameMember S J opts hid ms 0 hok hp)
  | .scalar _, _, _, hp => by simp [plainRecord] at hp
  | .nilPtr, _, _, hp => by simp [plainRecord] at hp
  | .nilIface, _, _, hp => by simp [plainRecord] at hp
  | .nilSlice _, _, _, hp => by simp [plainRecord] at hp
  | .slice _ _, _, _, hp => by simp [plainRecord] at hp
  | .nilMap _, _, _, hp => by simp [plainRecord] at hp
  | .map _ _, _, _, hp => by simp [plainRecord] at hp
  | .other _, _, _, hp => by simp [plainRecord] at hp
  | .array _ _, _, _, hp => by simp [plainRecord] at hp
  | .uintptr _, _, _, hp => by simp [plainRecord] at hp
  | .namedKeyMap _, _, _, hp => by simp [plainRecord] at hp


/-! ## More lemmas: calls, maps, slices, names -/

theorem setValueAt_length {α : Type} (value : α) :
    ∀ (fs : List (FieldOf α)) (i : Nat) (fs' : List (FieldOf α)),
      setValueAt value fs i = some fs' → fs'.length = fs.length := by
  intro fs i fs' h
  have := congrArg List.length (setValueAt_names value fs i fs' h)
  simpa using this

theorem SetField_length (S : Strings) (o o' : JSONObject) (name : String) (value : Value)
    (h : SetField S o name value = .ok o') : o.fields.length ≤ o'.fields.length := by
  cases hc : o.cache.lookup (renameField S o.Options name) with
  | none =>
    rw [SetField_absent S o name value hc] at h
    cases h
    simp
  | some i =>
    rcases SetField_present S o name value i hc with ⟨fields, hf, h2⟩ | ⟨_, h2⟩
    · rw [h2] at h
      cases h
      exact le_of_eq (setValueAt_length value o.fields i fields hf).symm
    · rw [h2] at h
      cases h

theorem afterCall_length (S : Strings) (o : JSONObject) (name : String) (value : Value) :
    o.fields.length ≤ (afterCall o (SetField S o name value)).fields.length := by
  cases h : SetField S o name value with
  | error e => exact le_refl _
  | ok o' => exact SetField_length S o o' name value h

theorem applyCalls_length (S : Strings) :
    ∀ (calls : List (String × Value)) (o : JSONObject),
      o.fields.length ≤ (applyCalls S o calls).fields.length
  | [], o => le_refl _
  | c :: rest, o => by
    simp only [applyCalls, List.foldl_cons]
    exact le_trans (afterCall_length S o c.1 c.2) (applyCalls_length S rest _)

theorem setFields_length (S : Strings) :
    ∀ (calls : List (String × Value)) (a b : JSONObject),
      setFields S a calls = .ok b → a.fields.length ≤ b.fields.length
  | [], a, b, hab => by
    simp only [setFields, Except.ok.injEq] at hab
    subst hab
    exact le_refl _
  | (n, v) :: rest, a, b, hab => by
    simp only [setFields] at hab
    cases hs : SetField S a n v with
    | error e => simp [hs] at hab
    | ok a' =>
      simp only [hs] at hab
      exact le_trans (SetField_length S a a' n v hs) (setFields_length S rest a' b hab)

theorem okValue_of_isScalarValue (S : Strings) (opts : Option Options) :
    ∀ v : HostValue, isScalarValue v = true → okValue S opts v = true
  | .scalar _, _ => by simp [okValue]
  | .iface v, h => by
    simp only [isScalarValue] at h
    simp only [okValue]
    exact okValue_of_isScalarValue S opts v h
  | .ptr v, h => by
    simp only [isScalarValue] at h
    simp only [okValue]
    exact okValue_of_isScalarValue S opts v h
  | .nilPtr, h => by simp [isScalarValue] at h
  | .nilIface, h => by simp [isScalarValue] at h
  | .struct _, h => by simp [isScalarValue] at h
  | .nilSlice _, h => by simp [isScalarValue] at h
  | .slice _ _, h => by simp [isScalarValue] at h
  | .nilMap _, h => by simp [isScalarValue] at h
  | .map _ _, h => by simp [isScalarValue] at h
  | .other _, h => by simp [isScalarValue] at h
  | .array _ _, h => by simp [isScalarValue] at h
  | .uintptr _, h => by simp [isScalarValue] at h
  | .namedKeyMap _, h => by simp [isScalarValue] at h

theorem okElems_of_all_scalar (S : Strings) (opts : Option Options) :
    ∀ xs : List HostValue, xs.all isScalarValue = true → okElems S opts xs = true
  | [], _ => by simp [okElems]
  | x :: xs, h => by
    simp only [List.all_cons, Bool.and_eq_true] at h
    simp only [okElems, Bool.and_eq_true]
    exact ⟨okValue_of_isScalarValue S opts x h.1, okElems_of_all_scalar S opts xs h.2⟩

theorem okValue_of_isScalarSeq (S : Strings) (opts : Option Options) :
    ∀ v : HostValue, isScalarSeq v = true → okValue S opts v = true
  | .slice _ xs, h => by
    simp only [isScalarSeq] at h
    simp only [okValue]
    exact okElems_of_all_scalar S opts xs h
  | .nilSlice _, _ => by simp [okValue]
  | .iface v, h => by
    simp only [isScalarSeq] at h
    simp only [okValue]
    exact okValue_of_isScalarSeq S opts v h
  | .ptr v, h => by
    simp only [isScalarSeq] at h
    simp only [okValue]
    exact okValue_of_isScalarSeq S opts v h
  | .nilPtr, h => by simp [isScalarSeq] at h
  | .nilIface, h => by simp [isScalarSeq] at h
  | .struct _, h => by simp [isScalarSeq] at h
  | .scalar _, h => by simp [isScalarSeq] at h
  | .nilMap _, h => by simp [isScalarSeq] at h
  | .map _ _, h => by simp [isScalarSeq] at h
  | .other _, h => by simp [isScalarSeq] at h
  | .array _ _, h => by simp [isScalarSeq] at h
  | .uintptr _, h => by simp [isScalarSeq] at h
  | .namedKeyMap _, h => by simp [isScalarSeq] at h

theorem okEntries_of_forall (S : Strings) (opts : Option Options) :
    ∀ es : List (String × HostValue), (∀ e ∈ es, okValue S opts e.2 = true) →
      okEntries S opts es = true
  | [], _ => by simp [okEntries]
  | (k, v) :: rest, h => by
    simp only [okEntries, Bool.and_eq_true]
    exact ⟨h (k, v) (List.mem_cons_self _ _),
      okEntries_of_forall S opts rest (fun e he => h e (List.mem_cons_of_mem _ he))⟩

theorem entryFields_eq_map (S : Strings) (opts : Option Options) :
    ∀ es : List (String × HostValue),
      entryFields S opts es =
        es.map (fun e => { Name := renameField S opts e.1, Value := valueOf S opts e.2 })
  | [] => by simp [entryFields]
  | (k, v) :: rest => by simp [entryFields, entryFields_eq_map S opts rest]

/-- The loop of `fromStruct` does the first member, then the others. -/
theorem fromStructFields_cons (S : Strings) (o : JSONObject) (f : StructFieldOf HostValue)
    (rest : List (StructFieldOf HostValue)) :
    fromStructFields S o (f :: rest) =
      match fromStructFields S o [f] with
      | .ok o' => fromStructFields S o' rest
      | .error e => .error e := by
  obtain ⟨n, e, an, v⟩ := f
  cases e <;> cases an <;> cases v <;> simp only [fromStructFields, Bool.not_true,
    Bool.not_false, Bool.false_eq_true, if_true, if_false] <;>
    (repeat' split) <;> simp_all

theorem fromStructFields_append (S : Strings) :
    ∀ (a b : List (StructFieldOf HostValue)) (o : JSONObject),
      fromStructFields S o (a ++ b) =
        match fromStructFields S o a with
        | .ok o' => fromStructFields S o' b
        | .error e => .error e
  | [], b, o => by simp [fromStructFields]
  | f :: a, b, o => by
    rw [List.cons_append, fromStructFields_cons S o f (a ++ b), fromStructFields_cons S o f a]
    cases fromStructFields S o [f] with
    | error e => rfl
    | ok o' => exact fromStructFields_append S a b o'

theorem convertElems_append (S : Strings) (o : JSONObject) :
    ∀ (a b : List HostValue) (s : Value),
      convertElems S o (a ++ b) s =
        match convertElems S o a s with
        | .ok s' => convertElems S o b s'
        | .error e => .error e
  | [], b, s => by simp [convertElems]
  | v :: a, b, s => by
    simp only [List.cons_append, convertElems]
    cases convertValue S o v with
    | error e => rfl
    | ok x => exact convertElems_append S o a b _

theorem fromMapEntries_append (S : Strings) (k : Kind) :
    ∀ (a b : List (String × HostValue)) (o : JSONObject),
      fromMapEntries S o k (a ++ b) =
        match fromMapEntries S o k a with
        | .ok o' => fromMapEntries S o' k b
        | .error e => .error e
  | [], b, o => by simp [fromMapEntries]
  | (key, v) :: a, b, o => by
    simp only [List.cons_append, fromMapEntries]
    split
    · rfl
    · cases convertValue S o v with
      | error e => rfl
      | ok x =>
        simp only
        cases SetField S o key x with
        | error e => rfl
        | ok o' => exact fromMapEntries_append S k a b o'

/-- The body shared by the loops of `convertSlice` and `fromMapValue` starts
with `resolve`. -/
theorem convertValue_resolve (S : Strings) (o : JSONObject) :
    ∀ v : HostValue, convertValue S o v =
      match resolve v with
      | .ok r => convertValue S o r
      | .error e => .error e
  | .ptr v => by
    simp only [convertValue, resolve]
    rw [convertValue_resolve S o v]
  | .iface v => by
    simp only [convertValue, resolve]
    rw [convertValue_resolve S o v]
  | .nilPtr => by simp [convertValue, resolve]
  | .nilIface => by simp [convertValue, resolve]
  | .scalar _ => by simp [resolve]
  | .struct _ => by simp [resolve]
  | .nilSlice _ => by simp [resolve]
  | .slice _ _ => by simp [resolve]
  | .nilMap _ => by simp [resolve]
  | .map _ _ => by simp [resolve]
  | .other _ => by simp [resolve]
  | .array _ _ => by simp [resolve]
  | .uintptr _ => by simp [resolve]
  | .namedKeyMap _ => by simp [resolve]

theorem convertValue_nonStringMap (S : Strings) (o : JSONObject) (k : Kind) (hk : k ≠ .String)
    (e : String × HostValue) (es : List (String × HostValue)) (v : HostValue)
    (hv : resolve v = .ok (.map k (e :: es))) :
    convertValue S o v = .error .onlyStringKey := by
  obtain ⟨key, x⟩ := e
  rw [convertValue_resolve, hv]
  simp [convertValue, fromMapEntries, hk]

theorem jsonParts_ok (J : Codec) :
    ∀ (fs : List Field) (encs : List (String × String)),
      List.Forall₂ (fun f p => J.marshalScalar (.str f.Name) = .ok p.1 ∧
        marshalValue J f.Value = .ok p.2) fs encs →
      jsonParts J (fs.map (fun f => (f.Name, marshalValue J f.Value))) =
        .ok (encs.map (fun p => p.1 ++ ":" ++ p.2))
  | _, _, .nil => rfl
  | f :: fs, p :: encs, .cons h hrest => by
    simp only [List.map_cons, jsonParts, h.1, h.2, jsonParts_ok J fs encs hrest]

theorem jsonParts_error (J : Codec) (f : Field) (post : List Field) (e : MarshalError)
    (he : J.marshalScalar (.str f.Name) = .error e ∨
      ∃ n, J.marshalScalar (.str f.Name) = .ok n ∧ marshalValue J f.Value = .error e) :
    ∀ (pre : List Field) (encs : List (String × String)),
      List.Forall₂ (fun f p => J.marshalScalar (.str f.Name) = .ok p.1 ∧
        marshalValue J f.Value = .ok p.2) pre encs →
      jsonParts J ((pre ++ f :: post).map (fun f => (f.Name, marshalValue J f.Value))) =
        .error e
  | _, _, .nil => by
    rcases he with h | ⟨n, h1, h2⟩
    · simp [jsonParts, h]
    · simp [jsonParts, h1, h2]
  | g :: pre, p :: encs, .cons h hrest => by
    have ih := jsonParts_error J f post e he pre encs hrest
    rw [List.cons_append, List.map_cons]
    simp only [jsonParts, h.1, h.2, ih]

theorem convertElems_scalars (S : Strings) (o : JSONObject) :
    ∀ (scalars : List Scalar) (s : Value),
      convertElems S o (scalars.map HostValue.scalar) s =
        .ok ((scalars.map Value.scalar).foldl appendValue s)
  | [], s => by simp [convertElems]
  | x :: xs, s => by
    simp only [List.map_cons, convertElems, convertValue, List.foldl_cons]
    exact convertElems_scalars S o xs _

theorem jsonElems_scalars (J : Codec) :
    ∀ scalars : List Scalar,
      jsonElems J (scalars.map HostValue.scalar) = scalars.map J.marshalScalar
  | [] => by simp [jsonElems]
  | x :: xs => by simp [jsonElems, jsonMarshal, jsonElems_scalars J xs]

theorem marshalValue_scalars (J : Codec) :
    ∀ scalars : List Scalar,
      (scalars.map Value.scalar).map (marshalValue J) = scalars.map J.marshalScalar
  | [] => by simp
  | x :: xs => by simp [marshalValue, marshalValue_scalars J xs]

theorem utf8Encode_ascii (c : Char) (h : c.toNat < 128) :
    (String.utf8EncodeChar c).map UInt8.toNat = [c.toNat] := by
  have hv : c.val ≤ 0x7f := by
    show c.val.toNat ≤ 127
    have : c.toNat = c.val.toNat := rfl
    omega
  simp only [String.utf8EncodeChar, hv, if_true, List.map_cons, List.map_nil]
  congr 1
  show c.val.toNat % 256 = c.val.toNat
  have : c.toNat = c.val.toNat := rfl
  omega

theorem utf8Encode_ascii_length (c : Char) (h : c.toNat < 128) :
    (String.utf8EncodeChar c).length = 1 := by
  have := congrArg List.length (utf8Encode_ascii c h)
  simpa using this

theorem utf8Bytes_ascii :
    ∀ cs : List Char, (∀ c ∈ cs, c.toNat < 128) →
      cs.flatMap (fun c => (String.utf8EncodeChar c).map UInt8.toNat) = cs.map Char.toNat
  | [], _ => rfl
  | c :: cs, h => by
    simp only [List.flatMap_cons, List.map_cons,
      utf8Encode_ascii c (h c (List.mem_cons_self _ _)),
      utf8Bytes_ascii cs (fun x hx => h x (List.mem_cons_of_mem _ hx))]
    rfl

theorem lowerAscii_not_upper (c : Char) :
    ¬ ('A'.toNat ≤ (lowerAscii c).toNat ∧ (lowerAscii c).toNat ≤ 'Z'.toNat) := by
  have hA : 'A'.toNat = 65 := rfl
  have hZ : 'Z'.toNat = 90 := rfl
  have ha : 'a'.toNat = 97 := rfl
  unfold lowerAscii
  split
  · rename_i h
    rw [hA, hZ] at h
    rw [hA, hZ, ha]
    have hv : (c.toNat - 65 + 97).isValidChar := by
      left
      omega
    have : (Char.ofNat (c.toNat - 65 + 97)).toNat = c.toNat - 65 + 97 := by
      unfold Char.ofNat
      rw [dif_pos hv]
      rfl
    omega
  · rename_i h
    exact h

/-- One iteration at the offset of an ASCII character `c`: the buffer gets
an underscore or not, then `c` with A-Z replaced by a-z. -/
theorem camelToSnakeStep_ascii (camel : List Nat) (st : SnakeState) (i : Nat) (c : Char)
    (hc : camel.getD i 0 = c.toNat) :
    (camelToSnakeStep camel st i).snake =
      st.snake ++ (if emitsUnderscore camel st i then ['_'] else []) ++ [lowerAscii c] := by
  have hA : 'A'.toNat = 65 := rfl
  have hZ : 'Z'.toNat = 90 := rfl
  have h0 : '0'.toNat = 48 := rfl
  have h9 : '9'.toNat = 57 := rfl
  unfold camelToSnakeStep
  simp only [hc]
  by_cases hu : 'A'.toNat ≤ c.toNat ∧ c.toNat ≤ 'Z'.toNat
  · have hd : ¬ ('0'.toNat ≤ c.toNat ∧ c.toNat ≤ '9'.toNat) := by
      rw [hA, hZ] at hu
      rw [h0, h9]
      omega
    simp only [hu, hd, and_self, decide_True, decide_False, Bool.true_or, if_true,
      Bool.false_eq_true, if_false, lowerAscii]
    split <;> simp
  · by_cases hd : '0'.toNat ≤ c.toNat ∧ c.toNat ≤ '9'.toNat
    · simp only [hu, hd, and_self, decide_True, decide_False, Bool.false_or, if_true,
        lowerAscii, if_false, Char.ofNat_toNat]
      split <;> simp
    · have he : emitsUnderscore camel st i = false := by
        unfold emitsUnderscore
        simp only [hc, hu, hd, decide_False, Bool.or_self, Bool.false_and]
      simp only [hu, hd, decide_False, Bool.or_self, Bool.false_eq_true, if_false, he,
        lowerAscii, Char.ofNat_toNat, List.append_nil]

theorem dropUnderscores_append (a b : List Char) :
    dropUnderscores (a ++ b) = dropUnderscores a ++ dropUnderscores b := by
  simp [dropUnderscores]

/-- The loop of `camelToSnake` over ASCII characters `cs` that follow the
bytes `pre`: what it adds to the buffer is, underscores apart, `cs` with A-Z
replaced by a-z, and holds no letter A-Z. -/
theorem getD_append_length (x : Nat) (rest : List Nat) :
    ∀ pre : List Nat, (pre ++ x :: rest).getD pre.length 0 = x
  | [] => rfl
  | _ :: pre => by simpa using getD_append_length x rest pre

theorem camelToSnakeLoop_ascii :
    ∀ (cs : List Char) (pre : List Nat) (st : SnakeState), (∀ c ∈ cs, c.toNat < 128) →
      ∃ out : List Char,
        (camelToSnakeLoop (pre ++ cs.map Char.toNat) st (runeStartsFrom pre.length cs)).snake
            = st.snake ++ out ∧
          dropUnderscores out = dropUnderscores (cs.map lowerAscii) ∧
          ∀ c ∈ out, ¬ ('A'.toNat ≤ c.toNat ∧ c.toNat ≤ 'Z'.toNat)
  | [], pre, st, _ => ⟨[], by simp [camelToSnakeLoop, runeStartsFrom], rfl, by simp⟩
  | c :: cs, pre, st, h => by
    have hc := h c (List.mem_cons_self _ _)
    have hget : (pre ++ (c :: cs).map Char.toNat).getD pre.length 0 = c.toNat :=
      getD_append_length c.toNat (cs.map Char.toNat) pre
    have hstep : ∃ u : List Char, (u = [] ∨ u = ['_']) ∧
        (camelToSnakeStep (pre ++ (c :: cs).map Char.toNat) st pre.length).snake =
          st.snake ++ u ++ [lowerAscii c] := by
      rw [camelToSnakeStep_ascii (pre ++ (c :: cs).map Char.toNat) st pre.length c hget]
      split
      · exact ⟨['_'], Or.inr rfl, rfl⟩
      · exact ⟨[], Or.inl rfl, rfl⟩
    obtain ⟨u, hu, hstep⟩ := hstep
    obtain ⟨out, h1, h2, h3⟩ := camelToSnakeLoop_ascii cs (pre ++ [c.toNat])
      (camelToSnakeStep (pre ++ (c :: cs).map Char.toNat) st pre.length)
      (fun x hx => h x (List.mem_cons_of_mem _ hx))
    have hbytes : pre ++ [c.toNat] ++ cs.map Char.toNat = pre ++ (c :: cs).map Char.toNat := by
      simp
    have hlen : (pre ++ [c.toNat]).length = pre.length + (String.utf8EncodeChar c).length := by
      rw [utf8Encode_ascii_length c hc]
      simp
    rw [hbytes, hlen] at h1
    refine ⟨u ++ [lowerAscii c] ++ out, ?_, ?_, ?_⟩
    · simp only [camelToSnakeLoop, runeStartsFrom, List.foldl_cons] at h1 ⊢
      rw [h1, hstep]
      simp only [List.append_assoc]
    · have hdu : dropUnderscores u = [] := by
        rcases hu with rfl | rfl <;> rfl
      rw [dropUnderscores_append, dropUnderscores_append, h2, hdu, List.nil_append,
        ← dropUnderscores_append]
      rfl
    · intro x hx
      simp only [List.mem_append, List.mem_singleton] at hx
      rcases hx with (hx | rfl) | hx
      · rcases hu with rfl | rfl
        · simp at hx
        · simp only [List.mem_singleton] at hx
          subst hx
          decide
      · exact lowerAscii_not_upper c
      · exact h3 x hx

theorem camelToSnakeLoop_ascii_verbatim :
    ∀ (cs : List Char) (pre : List Nat) (st : SnakeState),
      (∀ c ∈ cs, c.toNat < 128 ∧ ¬ ('A'.toNat ≤ c.toNat ∧ c.toNat ≤ 'Z'.toNat) ∧
        ¬ ('0'.toNat ≤ c.toNat ∧ c.toNat ≤ '9'.toNat)) →
      (camelToSnakeLoop (pre ++ cs.map Char.toNat) st (runeStartsFrom pre.length cs)).snake
        = st.snake ++ cs
  | [], pre, st, _ => by simp [camelToSnakeLoop, runeStartsFrom]
  | c :: cs, pre, st, h => by
    obtain ⟨hc, hu, hd⟩ := h c (List.mem_cons_self _ _)
    have hget : (pre ++ (c :: cs).map Char.toNat).getD pre.length 0 = c.toNat :=
      getD_append_length c.toNat (cs.map Char.toNat) pre
    have hstep := camelToSnakeStep_ascii (pre ++ (c :: cs).map Char.toNat) st pre.length c hget
    have he : emitsUnderscore (pre ++ (c :: cs).map Char.toNat) st pre.length = false := by
      unfold emitsUnderscore
      simp only [hget, hu, hd, decide_False, Bool.or_self, Bool.false_and]
    have hl : lowerAscii c = c := by
      unfold lowerAscii
      rw [if_neg hu]
    rw [he, hl] at hstep
    have ih := camelToSnakeLoop_ascii_verbatim cs (pre ++ [c.toNat])
      (camelToSnakeStep (pre ++ (c :: cs).map Char.toNat) st pre.length)
      (fun x hx => h x (List.mem_cons_of_mem _ hx))
    have hbytes : pre ++ [c.toNat] ++ cs.map Char.toNat = pre ++ (c :: cs).map Char.toNat := by
      simp
    have hlen : (pre ++ [c.toNat]).length = pre.length + (String.utf8EncodeChar c).length := by
      rw [utf8Encode_ascii_length c hc]
      simp
    rw [hbytes, hlen] at ih
    simp only [camelToSnakeLoop, runeStartsFrom, List.foldl_cons] at ih ⊢
    rw [ih, hstep]
    simp

/-- On an ASCII string without a letter A-Z and without a digit,
`camelToSnake` returns the string. -/
theorem camelToSnake_ascii_verbatim (s : String)
    (h : ∀ c ∈ s.data, c.toNat < 128 ∧ ¬ ('A'.toNat ≤ c.toNat ∧ c.toNat ≤ 'Z'.toNat) ∧
      ¬ ('0'.toNat ≤ c.toNat ∧ c.toNat ≤ '9'.toNat)) :
    camelToSnake s = s := by
  have h1 := camelToSnakeLoop_ascii_verbatim s.data [] ⟨[], false⟩ h
  have hb : utf8Bytes s = s.data.map Char.toNat := utf8Bytes_ascii s.data (fun c hc => (h c hc).1)
  simp only [List.nil_append, List.length_nil] at h1
  simp only [camelToSnake, runeStarts, hb, h1]

theorem fieldsShare_append (S : Strings) (opts : Option Options) (A : List String) :
    ∀ a b : List (FieldOf Value),
      fieldsShare S opts A (a ++ b) = (fieldsShare S opts A a && fieldsShare S opts A b)
  | [], b => by simp [fieldsShare]
  | ⟨n, v⟩ :: a, b => by
    have ih := fieldsShare_append S opts A a b
    rw [List.cons_append]
    simp only [fieldsShare, ih, Bool.and_assoc]

theorem valuesShare_append (S : Strings) (opts : Option Options) (A : List String) :
    ∀ a b : List Value,
      valuesShare S opts A (a ++ b) = (valuesShare S opts A a && valuesShare S opts A b)
  | [], b => by simp [valuesShare]
  | v :: a, b => by
    have ih := valuesShare_append S opts A a b
    rw [List.cons_append]
    simp only [valuesShare, ih, Bool.and_assoc]

theorem fieldsShare_setValueAt (S : Strings) (opts : Option Options) (A : List String) (value : Value) (hv : sharesOptions S opts A value = true) :
    ∀ (fs : List (FieldOf Value)) (i : Nat) (fs' : List (FieldOf Value)),
      fieldsShare S opts A fs = true → setValueAt value fs i = some fs' →
      fieldsShare S opts A fs' = true
  | [], _, _, _, h => by simp [setValueAt] at h
  | ⟨n, v⟩ :: fs, 0, fs', hf, h => by
    simp only [setValueAt, Option.some.injEq] at h
    subst h
    simp only [fieldsShare, Bool.and_eq_true] at hf ⊢
    exact ⟨⟨hf.1.1, hv⟩, hf.2⟩
  | ⟨n, v⟩ :: fs, i + 1, fs', hf, h => by
    simp only [setValueAt, Option.map_eq_some'] at h
    obtain ⟨t, ht, rfl⟩ := h
    simp only [fieldsShare, Bool.and_eq_true] at hf ⊢
    exact ⟨hf.1, fieldsShare_setValueAt S opts A value hv fs i t hf.2 ht⟩

/-- `SetField` keeps the `Options` and the property of the fields. -/
theorem SetField_shares (S : Strings) (opts : Option Options) (A : List String) (o o' : JSONObject) (name : String) (value : Value)
    (ho : o.Options = opts) (hf : fieldsShare S opts A o.fields = true) (hn : name ∈ A)
    (hv : sharesOptions S opts A value = true) (h : SetField S o name value = .ok o') :
    o'.Options = opts ∧ fieldsShare S opts A o'.fields = true := by
  refine ⟨(SetField_options S o o' name value h).trans ho, ?_⟩
  cases hc : o.cache.lookup (renameField S o.Options name) with
  | none =>
    rw [SetField_absent S o name value hc] at h
    cases h
    simp only [fieldsShare_append, fieldsShare, hf, hv, Bool.and_true, Bool.true_and,
      List.any_eq_true, beq_iff_eq]
    exact ⟨name, hn, by rw [ho]⟩
  | some i =>
    rcases SetField_present S o name value i hc with ⟨fields, hfs, h2⟩ | ⟨_, h2⟩
    · rw [h2] at h
      cases h
      exact fieldsShare_setValueAt S opts A value hv o.fields i fields hf hfs
    · rw [h2] at h
      cases h

theorem appendValue_shares (S : Strings) (opts : Option Options) (A : List String) (s x : Value) (hs : sharesOptions S opts A s = true)
    (hx : sharesOptions S opts A x = true) :
    sharesOptions S opts A (appendValue s x) = true := by
  cases s with
  | slice xs =>
    simp only [sharesOptions] at hs
    simp [appendValue, sharesOptions, valuesShare_append, valuesShare, hs, hx]
  | scalar _ => simp [appendValue, sharesOptions, valuesShare, hx]
  | object _ => simp [appendValue, sharesOptions, valuesShare, hx]
  | nilSlice => simp [appendValue, sharesOptions, valuesShare, hx]

theorem object_shares (S : Strings) (opts : Option Options) (A : List String) (o : JSONObject) (ho : o.Options = opts)
    (hf : fieldsShare S opts A o.fields = true) :
    sharesOptions S opts A (.object o) = true := by
  obtain ⟨fields, cache, op⟩ := o
  simp only at ho hf
  simp [sharesOptions, ho, hf]

theorem memberNames_cons_sub (A : List String) (name : String) (e an : Bool) (v : HostValue)
    (rest : List (StructFieldOf HostValue))
    (hA : ∀ n ∈ memberNames (⟨name, e, an, v⟩ :: rest), n ∈ A) :
    name ∈ A ∧ (∀ n ∈ hostNames v, n ∈ A) ∧ ∀ n ∈ memberNames rest, n ∈ A := by
  simp only [memberNames, List.mem_cons, List.mem_append] at hA
  exact ⟨hA name (Or.inl rfl), fun n hn => hA n (Or.inr (Or.inl hn)),
    fun n hn => hA n (Or.inr (Or.inr hn))⟩

theorem entryNames_cons_sub (A : List String) (key : String) (v : HostValue)
    (rest : List (String × HostValue)) (hA : ∀ n ∈ entryNames ((key, v) :: rest), n ∈ A) :
    key ∈ A ∧ (∀ n ∈ hostNames v, n ∈ A) ∧ ∀ n ∈ entryNames rest, n ∈ A := by
  simp only [entryNames, List.mem_cons, List.mem_append] at hA
  exact ⟨hA key (Or.inl rfl), fun n hn => hA n (Or.inr (Or.inl hn)),
    fun n hn => hA n (Or.inr (Or.inr hn))⟩

mutual
theorem fromStruct_shares (S : Strings) (opts : Option Options) (A : List String) :
    ∀ (v : HostValue) (o o' : JSONObject), (∀ n ∈ hostNames v, n ∈ A) → o.Options = opts →
      fieldsShare S opts A o.fields = true → fromStruct S o v = .ok o' →
      o'.Options = opts ∧ fieldsShare S opts A o'.fields = true
  | .ptr v, o, o', hA, ho, hf, h => by
    simp only [hostNames] at hA
    simp only [fromStruct] at h
    exact fromStruct_shares S opts A v o o' hA ho hf h
  | .iface v, o, o', hA, ho, hf, h => by
    simp only [hostNames] at hA
    simp only [fromStruct] at h
    exact fromStruct_shares S opts A v o o' hA ho hf h
  | .struct members, o, o', hA, ho, hf, h => by
    simp only [hostNames] at hA
    simp only [fromStruct] at h
    exact fromStructFields_shares S opts A members o o' hA ho hf h
  | .scalar _, _, _, _, _, _, h => by simp [fromStruct] at h
  | .nilPtr, _, _, _, _, _, h => by simp [fromStruct] at h
  | .nilIface, _, _, _, _, _, h => by simp [fromStruct] at h
  | .nilSlice _, _, _, _, _, _, h => by simp [fromStruct] at h
  | .slice _ _, _, _, _, _, _, h => by simp [fromStruct] at h
  | .nilMap _, _, _, _, _, _, h => by simp [fromStruct] at h
  | .map _ _, _, _, _, _, _, h => by simp [fromStruct] at h
  | .other _, _, _, _, _, _, h => by simp [fromStruct] at h
  | .array _ _, _, _, _, _, _, h => by simp [fromStruct] at h
  | .uintptr _, _, _, _, _, _, h => by simp [fromStruct] at h
  | .namedKeyMap _, _, _, _, _, _, h => by simp [fromStruct] at h
theorem fromStructFields_shares (S : Strings) (opts : Option Options) (A : List String) :
    ∀ (members : List (StructFieldOf HostValue)) (o o' : JSONObject),
      (∀ n ∈ memberNames members, n ∈ A) → o.Options = opts →
      fieldsShare S opts A o.fields = true → fromStructFields S o members = .ok o' →
      o'.Options = opts ∧ fieldsShare S opts A o'.fields = true
  | [], o, o', _, ho, hf, h => by
    simp only [fromStructFields, Except.ok.injEq] at h
    subst h
    exact ⟨ho, hf⟩
  | ⟨name, false, an, v⟩ :: rest, o, o', hA, ho, hf, h => by
    obtain ⟨_, _, hrest⟩ := memberNames_cons_sub A name false an v rest hA
    have h' : fromStructFields S o rest = .ok o' := by
      cases v <;> simpa [fromStructFields] using h
    exact fromStructFields_shares S opts A rest o o' hrest ho hf h'
  | ⟨name, true, an, .scalar s⟩ :: rest, o, o', hA, ho, hf, h => by
    obtain ⟨hname, _, hrest⟩ := memberNames_cons_sub A name true an (.scalar s) rest hA
    simp only [fromStructFields, Bool.not_true, Bool.false_eq_true, if_false] at h
    cases hs : SetField S o name (.scalar s) with
    | error e => simp [hs] at h
    | ok o1 =>
      simp only [hs] at h
      obtain ⟨ho1, hf1⟩ := SetField_shares S opts A o o1 name (.scalar s) ho hf hname
        (by simp [sharesOptions]) hs
      exact fromStructFields_shares S opts A rest o1 o' hrest ho1 hf1 h
  | ⟨name, true, true, .struct ms⟩ :: rest, o, o', hA, ho, hf, h => by
    obtain ⟨hname, hval, hrest⟩ := memberNames_cons_sub A name true true (.struct ms) rest hA
    simp only [fromStructFields, Bool.not_true, Bool.false_eq_true, if_false, if_true] at h
    cases hs : fromStruct S o (.struct ms) with
    | error e => simp [hs] at h
    | ok o1 =>
      simp only [hs] at h
      obtain ⟨ho1, hf1⟩ := fromStruct_shares S opts A (.struct ms) o o1 hval ho hf hs
      exact fromStructFields_shares S opts A rest o1 o' hrest ho1 hf1 h
  | ⟨name, true, false, .struct ms⟩ :: rest, o, o', hA, ho, hf, h => by
    obtain ⟨hname, hval, hrest⟩ := memberNames_cons_sub A name true false (.struct ms) rest hA
    simp only [fromStructFields, Bool.not_true, Bool.false_eq_true, if_false] at h
    cases hs : fromStruct S (newChild o) (.struct ms) with
    | error e => simp [hs] at h
    | ok child =>
      simp only [hs] at h
      obtain ⟨hoc, hfc⟩ := fromStruct_shares S opts A (.struct ms) (newChild o) child hval ho rfl hs
      cases hs2 : SetField S o name (.object child) with
      | error e => simp [hs2] at h
      | ok o1 =>
        simp only [hs2] at h
        obtain ⟨ho1, hf1⟩ := SetField_shares S opts A o o1 name (.object child) ho hf hname
          (object_shares S opts A child hoc hfc) hs2
        exact fromStructFields_shares S opts A rest o1 o' hrest ho1 hf1 h
  | ⟨name, true, true, .ptr p⟩ :: rest, o, o', hA, ho, hf, h => by
    obtain ⟨hname, hval, hrest⟩ := memberNames_cons_sub A name true true (.ptr p) rest hA
    simp only [fromStructFields, Bool.not_true, Bool.false_eq_true, if_false, if_true] at h
    cases hs : fromStruct S o (.ptr p) with
    | error e => simp [hs] at h
    | ok o1 =>
      simp only [hs] at h
      obtain ⟨ho1, hf1⟩ := fromStruct_shares S opts A (.ptr p) o o1 hval ho hf hs
      exact fromStructFields_shares S opts A rest o1 o' hrest ho1 hf1 h
  | ⟨name, true, false, .ptr p⟩ :: rest, o, o', hA, ho, hf, h => by
    obtain ⟨hname, hval, hrest⟩ := memberNames_cons_sub A name true false (.ptr p) rest hA
    simp only [fromStructFields, Bool.not_true, Bool.false_eq_true, if_false] at h
    cases hs : fromStruct S (newChild o) (.ptr p) with
    | error e => simp [hs] at h
    | ok child =>
      simp only [hs] at h
      obtain ⟨hoc, hfc⟩ := fromStruct_shares S opts A (.ptr p) (newChild o) child hval ho rfl hs
      cases hs2 : SetField S o name (.object child) with
      | error e => simp [hs2] at h
      | ok o1 =>
        simp only [hs2] at h
        obtain ⟨ho1, hf1⟩ := SetField_shares S opts A o o1 name (.object child) ho hf hname
          (object_shares S opts A child hoc hfc) hs2
        exact fromStructFields_shares S opts A rest o1 o' hrest ho1 hf1 h
  | ⟨name, true, an, .nilPtr⟩ :: rest, o, o', hA, ho, hf, h => by
    cases an <;> simp [fromStructFields, fromStruct] at h
  | ⟨name, true, an, .nilIface⟩ :: rest, o, o', hA, ho, hf, h => by
    simp [fromStructFields] at h
  | ⟨name, true, an, .iface _⟩ :: rest, o, o', hA, ho, hf, h => by
    simp [fromStructFields] at h
  | ⟨name, true, an, .other _⟩ :: rest, o, o', hA, ho, hf, h => by
    simp [fromStructFields] at h
  | ⟨name, true, an, .array _ _⟩ :: rest, o, o', hA, ho, hf, h => by
    simp [fromStructFields] at h
  | ⟨name, true, an, .uintptr _⟩ :: rest, o, o', hA, ho, hf, h => by
    simp [fromStructFields] at h
  | ⟨name, true, an, .namedKeyMap (_ :: _)⟩ :: rest, o, o', hA, ho, hf, h => by
    simp [fromStructFields, fromMapValue] at h
  | ⟨name, true, an, .namedKeyMap []⟩ :: rest, o, o', hA, ho, hf, h => by
    obtain ⟨hname, _, hrest⟩ := memberNames_cons_sub A name true an (.namedKeyMap []) rest hA
    simp only [fromStructFields, Bool.not_true, Bool.false_eq_true, if_false,
      fromMapValue] at h
    cases hs : SetField S o name (.object (newChild o)) with
    | error e => simp [hs] at h
    | ok o1 =>
      simp only [hs] at h
      obtain ⟨ho1, hf1⟩ := SetField_shares S opts A o o1 name (.object (newChild o)) ho hf
        hname (object_shares S opts A (newChild o) ho rfl) hs
      exact fromStructFields_shares S opts A rest o1 o' hrest ho1 hf1 h
  | ⟨name, true, an, .nilSlice k⟩ :: rest, o, o', hA, ho, hf, h => by
    obtain ⟨hname, _, hrest⟩ := memberNames_cons_sub A name true an (.nilSlice k) rest hA
    simp only [fromStructFields, Bool.not_true, Bool.false_eq_true, if_false,
      convertSlice] at h
    cases hs : SetField S o name .nilSlice with
    | error e => simp [hs] at h
    | ok o1 =>
      simp only [hs] at h
      obtain ⟨ho1, hf1⟩ := SetField_shares S opts A o o1 name .nilSlice ho hf hname
        (by simp [sharesOptions]) hs
      exact fromStructFields_shares S opts A rest o1 o' hrest ho1 hf1 h
  | ⟨name, true, an, .slice k xs⟩ :: rest, o, o', hA, ho, hf, h => by
    obtain ⟨hname, hval, hrest⟩ := memberNames_cons_sub A name true an (.slice k xs) rest hA
    simp only [hostNames] at hval
    simp only [fromStructFields, Bool.not_true, Bool.false_eq_true, if_false,
      convertSlice] at h
    cases hc : convertElems S o xs .nilSlice with
    | error e => simp [hc] at h
    | ok x =>
      simp only [hc] at h
      have hx := convertElems_shares S opts A xs o .nilSlice x hval ho
        (by simp [sharesOptions]) hc
      cases hs : SetField S o name x with
      | error e => simp [hs] at h
      | ok o1 =>
        simp only [hs] at h
        obtain ⟨ho1, hf1⟩ := SetField_shares S opts A o o1 name x ho hf hname hx hs
        exact fromStructFields_shares S opts A rest o1 o' hrest ho1 hf1 h
  | ⟨name, true, an, .nilMap k⟩ :: rest, o, o', hA, ho, hf, h => by
    obtain ⟨hname, _, hrest⟩ := memberNames_cons_sub A name true an (.nilMap k) rest hA
    simp only [fromStructFields, Bool.not_true, Bool.false_eq_true, if_false,
      fromMapValue] at h
    cases hs : SetField S o name (.object (newChild o)) with
    | error e => simp [hs] at h
    | ok o1 =>
      simp only [hs] at h
      obtain ⟨ho1, hf1⟩ := SetField_shares S opts A o o1 name (.object (newChild o)) ho hf
        hname (object_shares S opts A (newChild o) ho rfl) hs
      exact fromStructFields_shares S opts A rest o1 o' hrest ho1 hf1 h
  | ⟨name, true, an, .map k es⟩ :: rest, o, o', hA, ho, hf, h => by
    obtain ⟨hname, hval, hrest⟩ := memberNames_cons_sub A name true an (.map k es) rest hA
    simp only [hostNames] at hval
    simp only [fromStructFields, Bool.not_true, Bool.false_eq_true, if_false,
      fromMapValue] at h
    cases hc : fromMapEntries S (newChild o) k es with
    | error e => simp [hc] at h
    | ok child =>
      simp only [hc] at h
      obtain ⟨hoc, hfc⟩ := fromMapEntries_shares S opts A es (newChild o) child k hval ho rfl hc
      cases hs : SetField S o name (.object child) with
      | error e => simp [hs] at h
      | ok o1 =>
        simp only [hs] at h
        obtain ⟨ho1, hf1⟩ := SetField_shares S opts A o o1 name (.object child) ho hf hname
          (object_shares S opts A child hoc hfc) hs
        exact fromStructFields_shares S opts A rest o1 o' hrest ho1 hf1 h
theorem convertElems_shares (S : Strings) (opts : Option Options) (A : List String) :
    ∀ (elems : List HostValue) (o : JSONObject) (s s' : Value),
      (∀ n ∈ elemNames elems, n ∈ A) → o.Options = opts →
      sharesOptions S opts A s = true → convertElems S o elems s = .ok s' →
      sharesOptions S opts A s' = true
  | [], o, s, s', _, _, hs, h => by
    simp only [convertElems, Except.ok.injEq] at h
    subst h
    exact hs
  | v :: rest, o, s, s', hA, ho, hs, h => by
    simp only [elemNames, List.mem_append] at hA
    simp only [convertElems] at h
    cases hc : convertValue S o v with
    | error e => simp [hc] at h
    | ok x =>
      simp only [hc] at h
      have hx := convertValue_shares S opts A v o x (fun n hn => hA n (Or.inl hn)) ho hc
      exact convertElems_shares S opts A rest o _ s' (fun n hn => hA n (Or.inr hn)) ho
        (appendValue_shares S opts A s x hs hx) h
theorem convertValue_shares (S : Strings) (opts : Option Options) (A : List String) :
    ∀ (v : HostValue) (o : JSONObject) (x : Value), (∀ n ∈ hostNames v, n ∈ A) →
      o.Options = opts → convertValue S o v = .ok x → sharesOptions S opts A x = true
  | .ptr v, o, x, hA, ho, h => by
    simp only [hostNames] at hA
    simp only [convertValue] at h
    exact convertValue_shares S opts A v o x hA ho h
  | .iface v, o, x, hA, ho, h => by
    simp only [hostNames] at hA
    simp only [convertValue] at h
    exact convertValue_shares S opts A v o x hA ho h
  | .nilPtr, _, _, _, _, h => by simp [convertValue] at h
  | .nilIface, _, _, _, _, h => by simp [convertValue] at h
  | .other _, _, _, _, _, h => by simp [convertValue] at h
  | .array _ _, _, _, _, _, h => by simp [convertValue] at h
  | .uintptr _, _, _, _, _, h => by simp [convertValue] at h
  | .namedKeyMap (_ :: _), _, _, _, _, h => by simp [convertValue] at h
  | .namedKeyMap [], o, x, _, ho, h => by
    simp only [convertValue, Except.ok.injEq] at h
    subst h
    exact object_shares S opts A (newChild o) ho rfl
  | .scalar s, o, x, _, _, h => by
    simp only [convertValue, Except.ok.injEq] at h
    subst h
    simp [sharesOptions]
  | .nilSlice _, o, x, _, _, h => by
    simp only [convertValue, Except.ok.injEq] at h
    subst h
    simp [sharesOptions]
  | .struct ms, o, x, hA, ho, h => by
    simp only [hostNames] at hA
    simp only [convertValue] at h
    cases hc : fromStructFields S (newChild o) ms with
    | error e => simp [hc] at h
    | ok child =>
      simp only [hc, Except.ok.injEq] at h
      subst h
      obtain ⟨hoc, hfc⟩ := fromStructFields_shares S opts A ms (newChild o) child hA ho rfl hc
      exact object_shares S opts A child hoc hfc
  | .slice _ xs, o, x, hA, ho, h => by
    simp only [hostNames] at hA
    simp only [convertValue] at h
    exact convertElems_shares S opts A xs o .nilSlice x hA ho (by simp [sharesOptions]) h
  | .nilMap _, o, x, _, ho, h => by
    simp only [convertValue, Except.ok.injEq] at h
    subst h
    exact object_shares S opts A (newChild o) ho rfl
  | .map k es, o, x, hA, ho, h => by
    simp only [hostNames] at hA
    simp only [convertValue] at h
    cases hc : fromMapEntries S (newChild o) k es with
    | error e => simp [hc] at h
    | ok child =>
      simp only [hc, Except.ok.injEq] at h
      subst h
      obtain ⟨hoc, hfc⟩ := fromMapEntries_shares S opts A es (newChild o) child k hA ho rfl hc
      exact object_shares S opts A child hoc hfc
theorem fromMapEntries_shares (S : Strings) (opts : Option Options) (A : List String) :
    ∀ (entries : List (String × HostValue)) (o o' : JSONObject) (k : Kind),
      (∀ n ∈ entryNames entries, n ∈ A) → o.Options = opts →
      fieldsShare S opts A o.fields = true → fromMapEntries S o k entries = .ok o' →
      o'.Options = opts ∧ fieldsShare S opts A o'.fields = true
  | [], o, o', k, _, ho, hf, h => by
    simp only [fromMapEntries, Except.ok.injEq] at h
    subst h
    exact ⟨ho, hf⟩
  | (key, v) :: rest, o, o', k, hA, ho, hf, h => by
    obtain ⟨hkey, hval, hrest⟩ := entryNames_cons_sub A key v rest hA
    simp only [fromMapEntries] at h
    split at h
    · cases h
    · cases hc : convertValue S o v with
      | error e => simp [hc] at h
      | ok x =>
        simp only [hc] at h
        have hx := convertValue_shares S opts A v o x hval ho hc
        cases hs : SetField S o key x with
        | error e => simp [hs] at h
        | ok o1 =>
          simp only [hs] at h
          obtain ⟨ho1, hf1⟩ := SetField_shares S opts A o o1 key x ho hf hkey hx hs
          exact fromMapEntries_shares S opts A rest o1 o' k hrest ho1 hf1 h
end

theorem valueOf_of_isScalarValue (S : Strings) (opts : Option Options) :
    ∀ v : HostValue, isScalarValue v = true →
      ∃ s, scalarOf v = some s ∧ valueOf S opts v = .scalar s
  | .scalar s, _ => ⟨s, by simp [scalarOf], by simp [valueOf]⟩
  | .iface v, h => by
    simp only [isScalarValue] at h
    simp only [scalarOf, valueOf]
    exact valueOf_of_isScalarValue S opts v h
  | .ptr v, h => by
    simp only [isScalarValue] at h
    simp only [scalarOf, valueOf]
    exact valueOf_of_isScalarValue S opts v h
  | .nilPtr, h => by simp [isScalarValue] at h
  | .nilIface, h => by simp [isScalarValue] at h
  | .struct _, h => by simp [isScalarValue] at h
  | .nilSlice _, h => by simp [isScalarValue] at h
  | .slice _ _, h => by simp [isScalarValue] at h
  | .nilMap _, h => by simp [isScalarValue] at h
  | .map _ _, h => by simp [isScalarValue] at h
  | .other _, h => by simp [isScalarValue] at h
  | .array _ _, h => by simp [isScalarValue] at h
  | .uintptr _, h => by simp [isScalarValue] at h
  | .namedKeyMap _, h => by simp [isScalarValue] at h

theorem elemValues_of_all_scalar (S : Strings) (opts : Option Options) :
    ∀ xs : List HostValue, xs.all isScalarValue = true →
      ∃ ss, scalarsOf xs = some ss ∧ elemValues S opts xs = ss.map Value.scalar
  | [], _ => ⟨[], by simp [scalarsOf], by simp [elemValues]⟩
  | x :: xs, h => by
    simp only [List.all_cons, Bool.and_eq_true] at h
    obtain ⟨s, hs, hv⟩ := valueOf_of_isScalarValue S opts x h.1
    obtain ⟨ss, hss, hvs⟩ := elemValues_of_all_scalar S opts xs h.2
    exact ⟨s :: ss, by simp [scalarsOf, hs, hss], by simp [elemValues, hv, hvs]⟩

theorem valueScalars_map_scalar :
    ∀ ss : List Scalar, valueScalars (ss.map Value.scalar) = some ss
  | [] => by simp [valueScalars]
  | s :: ss => by simp [valueScalars, valueScalars_map_scalar ss]

theorem contentOf_sliceOfValues (ss : List Scalar) :
    contentOf (sliceOfValues (ss.map Value.scalar)) = some (.sequence ss) := by
  cases ss with
  | nil => simp [sliceOfValues, contentOf]
  | cons s ss =>
    simp only [List.map_cons, sliceOfValues, contentOf]
    rw [← List.map_cons, valueScalars_map_scalar]
    rfl

theorem contentOf_valueOf_scalar (S : Strings) (opts : Option Options) :
    ∀ v : HostValue, isScalarValue v = true →
      contentOf (valueOf S opts v) = hostContent v ∧ hostContent v ≠ none
  | .scalar s, _ => by simp [valueOf, contentOf, hostContent]
  | .iface v, h => by
    simp only [isScalarValue] at h
    simp only [hostContent, valueOf]
    exact contentOf_valueOf_scalar S opts v h
  | .ptr v, h => by
    simp only [isScalarValue] at h
    simp only [hostContent, valueOf]
    exact contentOf_valueOf_scalar S opts v h
  | .nilPtr, h => by simp [isScalarValue] at h
  | .nilIface, h => by simp [isScalarValue] at h
  | .struct _, h => by simp [isScalarValue] at h
  | .nilSlice _, h => by simp [isScalarValue] at h
  | .slice _ _, h => by simp [isScalarValue] at h
  | .nilMap _, h => by simp [isScalarValue] at h
  | .map _ _, h => by simp [isScalarValue] at h
  | .other _, h => by simp [isScalarValue] at h
  | .array _ _, h => by simp [isScalarValue] at h
  | .uintptr _, h => by simp [isScalarValue] at h
  | .namedKeyMap _, h => by simp [isScalarValue] at h

theorem contentOf_valueOf_seq (S : Strings) (opts : Option Options) :
    ∀ v : HostValue, isScalarSeq v = true →
      contentOf (valueOf S opts v) = hostContent v ∧ hostContent v ≠ none
  | .slice _ xs, h => by
    simp only [isScalarSeq] at h
    obtain ⟨ss, hss, hvs⟩ := elemValues_of_all_scalar S opts xs h
    simp only [valueOf, hostContent, hvs, hss, contentOf_sliceOfValues]
    simp
  | .nilSlice _, _ => by simp [valueOf, contentOf, hostContent]
  | .iface v, h => by
    simp only [isScalarSeq] at h
    simp only [hostContent, valueOf]
    exact contentOf_valueOf_seq S opts v h
  | .ptr v, h => by
    simp only [isScalarSeq] at h
    simp only [hostContent, valueOf]
    exact contentOf_valueOf_seq S opts v h
  | .nilPtr, h => by simp [isScalarSeq] at h
  | .nilIface, h => by simp [isScalarSeq] at h
  | .struct _, h => by simp [isScalarSeq] at h
  | .scalar _, h => by simp [isScalarSeq] at h
  | .nilMap _, h => by simp [isScalarSeq] at h
  | .map _ _, h => by simp [isScalarSeq] at h
  | .other _, h => by simp [isScalarSeq] at h
  | .array _ _, h => by simp [isScalarSeq] at h
  | .uintptr _, h => by simp [isScalarSeq] at h
  | .namedKeyMap _, h => by simp [isScalarSeq] at h

theorem contentOf_valueOf (S : Strings) (opts : Option Options) (v : HostValue)
    (h : isScalarValue v = true ∨ isScalarSeq v = true) :
    contentOf (valueOf S opts v) = hostContent v ∧ hostContent v ≠ none :=
  h.elim (contentOf_valueOf_scalar S opts v) (contentOf_valueOf_seq S opts v)

mutual
theorem recordFields_names (S : Strings) (opts : Option Options) :
    ∀ v : HostValue, okRecord S opts v = true →
      (recordFields S opts v).map (·.Name) = (specRecordNames v).map (renameField S opts)
  | .ptr v, hok => by
    simp only [okRecord] at hok
    simp only [recordFields, specRecordNames]
    exact recordFields_names S opts v hok
  | .iface v, hok => by
    simp only [okRecord] at hok
    simp only [recordFields, specRecordNames]
    exact recordFields_names S opts v hok
  | .struct members, hok => by
    simp only [okRecord] at hok
    simp only [recordFields, specRecordNames]
    exact memberFields_names S opts members hok
  | .scalar _, hok => by simp [okRecord] at hok
  | .nilPtr, hok => by simp [okRecord] at hok
  | .nilIface, hok => by simp [okRecord] at hok
  | .nilSlice _, hok => by simp [okRecord] at hok
  | .slice _ _, hok => by simp [okRecord] at hok
  | .nilMap _, hok => by simp [okRecord] at hok
  | .map _ _, hok => by simp [okRecord] at hok
  | .other _, hok => by simp [okRecord] at hok
  | .array _ _, hok => by simp [okRecord] at hok
  | .uintptr _, hok => by simp [okRecord] at hok
  | .namedKeyMap _, hok => by simp [okRecord] at hok
theorem memberFields_names (S : Strings) (opts : Option Options) :
    ∀ members : List (StructFieldOf HostValue), okMembers S opts members = true →
      (memberFields S opts members).map (·.Name) =
        (specMemberNames members).map (renameField S opts)
  | [], _ => by simp [memberFields, specMemberNames]
  | ⟨name, false, anon, field⟩ :: rest, hok => by
    simp only [okMembers, Bool.not_false, Bool.true_or, Bool.true_and] at hok
    simp only [memberFields, specMemberNames, Bool.not_false, if_true, List.nil_append]
    exact memberFields_names S opts rest hok
  | ⟨name, true, anon, .scalar s⟩ :: rest, hok => by
    simp only [okMembers, Bool.not_true, Bool.false_or, Bool.true_and] at hok
    have ih := memberFields_names S opts rest hok
    simp only [memberFields, specMemberNames, Bool.not_true, Bool.false_eq_true, if_false,
      List.singleton_append, List.map_cons, ih]
  | ⟨name, true, true, .struct ms⟩ :: rest, hok => by
    simp only [okMembers, Bool.not_true, Bool.false_or, Bool.or_true, Bool.and_true,
      Bool.and_eq_true] at hok
    have ih := memberFields_names S opts rest hok.2
    have ih1 := recordFields_names S opts (.struct ms) hok.1.1
    simp only [memberFields, specMemberNames, Bool.not_true, Bool.false_eq_true, if_false,
      if_true, List.map_append, ih, ih1]
  | ⟨name, true, false, .struct ms⟩ :: rest, hok => by
    simp only [okMembers, Bool.not_true, Bool.false_or, Bool.and_eq_true] at hok
    have ih := memberFields_names S opts rest hok.2
    simp only [memberFields, specMemberNames, Bool.not_true, Bool.false_eq_true, if_false,
      List.singleton_append, List.map_cons, ih]
  | ⟨name, true, true, .ptr p⟩ :: rest, hok => by
    simp only [okMembers, Bool.not_true, Bool.false_or, Bool.or_true, Bool.and_true,
      Bool.and_eq_true] at hok
    have ih := memberFields_names S opts rest hok.2
    have ih1 := recordFields_names S opts (.ptr p) hok.1.1
    simp only [memberFields, specMemberNames, Bool.not_true, Bool.false_eq_true, if_false,
      if_true, List.map_append, ih, ih1]
  | ⟨name, true, false, .ptr p⟩ :: rest, hok => by
    simp only [okMembers, Bool.not_true, Bool.false_or, Bool.and_eq_true] at hok
    have ih := memberFields_names S opts rest hok.2
    simp only [memberFields, specMemberNames, Bool.not_true, Bool.false_eq_true, if_false,
      List.singleton_append, List.map_cons, ih]
  | ⟨name, true, anon, .nilSlice k⟩ :: rest, hok => by
    simp only [okMembers, Bool.not_true, Bool.false_or, Bool.true_and] at hok
    have ih := memberFields_names S opts rest hok
    simp only [memberFields, specMemberNames, Bool.not_true, Bool.false_eq_true, if_false,
      List.singleton_append, List.map_cons, ih]
  | ⟨name, true, anon, .slice k xs⟩ :: rest, hok => by
    simp only [okMembers, Bool.not_true, Bool.false_or, Bool.and_eq_true] at hok
    have ih := memberFields_names S opts rest hok.2
    simp only [memberFields, specMemberNames, Bool.not_true, Bool.false_eq_true, if_false,
      List.singleton_append, List.map_cons, ih]
  | ⟨name, true, anon, .nilMap k⟩ :: rest, hok => by
    simp only [okMembers, Bool.not_true, Bool.false_or, Bool.true_and] at hok
    have ih := memberFields_names S opts rest hok
    simp only [memberFields, specMemberNames, Bool.not_true, Bool.false_eq_true, if_false,
      List.singleton_append, List.map_cons, ih]
  | ⟨name, true, anon, .map k es⟩ :: rest, hok => by
    simp only [okMembers, Bool.not_true, Bool.false_or, Bool.and_eq_true] at hok
    have ih := memberFields_names S opts rest hok.2
    simp only [memberFields, specMemberNames, Bool.not_true, Bool.false_eq_true, if_false,
      List.singleton_append, List.map_cons, ih]
  | ⟨name, true, anon, .nilPtr⟩ :: rest, hok => by simp [okMembers] at hok
  | ⟨name, true, anon, .nilIface⟩ :: rest, hok => by simp [okMembers] at hok
  | ⟨name, true, anon, .iface _⟩ :: rest, hok => by simp [okMembers] at hok
  | ⟨name, true, anon, .other _⟩ :: rest, hok => by simp [okMembers] at hok
  | ⟨name, true, anon, .array _ _⟩ :: rest, hok => by simp [okMembers] at hok
  | ⟨name, true, anon, .uintptr _⟩ :: rest, hok => by simp [okMembers] at hok
  | ⟨name, true, anon, .namedKeyMap _⟩ :: rest, hok => by simp [okMembers] at hok
end

theorem specMemberNames_direct :
    ∀ ms : List (StructFieldOf HostValue), (∀ m ∈ ms, m.Anonymous = false) →
      specMemberNames ms = (ms.filter (·.Exported)).map (·.Name)
  | [], _ => by simp [specMemberNames]
  | ⟨name, e, an, v⟩ :: rest, h => by
    have ih := specMemberNames_direct rest (fun m hm => h m (List.mem_cons_of_mem _ hm))
    have han : an = false := h ⟨name, e, an, v⟩ (List.mem_cons_self _ _)
    subst han
    cases e <;> cases v <;> simp [specMemberNames, ih]

theorem memberFields_scalar_mem (S : Strings) (opts : Option Options) (n : String) (s : Scalar) :
    ∀ members : List (StructFieldOf HostValue),
      (⟨n, true, false, .scalar s⟩ : StructFieldOf HostValue) ∈ members →
      ({ Name := renameField S opts n, Value := .scalar s } : Field) ∈ memberFields S opts members
  | [], h => by simp at h
  | m :: rest, h => by
    have happ := memberFields_append S opts [m] rest
    rw [List.singleton_append] at happ
    rw [happ, List.mem_append]
    rcases List.mem_cons.1 h with rfl | h
    · left
      simp [memberFields]
    · right
      exact memberFields_scalar_mem S opts n s rest h

theorem sameText_error_iff {α : Type} {a b : Except MarshalError α} (h : SameText a b) :
    (∃ e, a = .error e) ↔ ∃ e, b = .error e := by
  unfold SameText at h
  cases a <;> cases b <;> simp_all [Except.toOption]

/-- `ConvertSlice` on a slice of values of base types returns the
`[]interface{}` that `append` builds from nil with these values, in order;
when the slice has an element and is not a `[]byte`, the result and the slice
are written as the same JSON text; and a nil slice gives a nil result, written
`null` as the slice is. -/
theorem ConvertSlice_scalars (S : Strings) (J : Codec) (o : JSONObject) (k : Kind)
    (scalars : List Scalar) :
    (∃ r, ConvertSlice S o (.slice k (scalars.map .scalar)) = .ok r ∧
        sliceElems r = scalars.map .scalar) ∧
      (k ≠ .Uint8 → scalars ≠ [] →
        ∃ r, ConvertSlice S o (.slice k (scalars.map .scalar)) = .ok r ∧
          marshalValue J r = jsonMarshal J (.slice k (scalars.map .scalar))) ∧
      ∃ r, ConvertSlice S o (.nilSlice k) = .ok r ∧ sliceElems r = [] ∧
        marshalValue J r = jsonMarshal J (.nilSlice k) := by
  have hconv : ConvertSlice S o (.slice k (scalars.map .scalar)) =
      .ok (sliceOfValues (scalars.map .scalar)) := by
    simp only [ConvertSlice, convertSlice]
    rw [convertElems_scalars, foldl_appendValue_nil]
  refine ⟨⟨_, hconv, ?_⟩, fun hk hne => ⟨_, hconv, ?_⟩, ⟨.nilSlice, rfl, rfl, ?_⟩⟩
  · cases scalars <;> simp [sliceOfValues, sliceElems]
  · cases scalars with
    | nil => exact absurd rfl hne
    | cons x xs =>
      simp only [List.map_cons, sliceOfValues, marshalValue, jsonMarshal, hk, if_false,
        marshalItems_eq]
      rw [marshalValue_scalars]
      simp only [jsonElems, jsonMarshal, jsonElems_scalars]
  · simp [marshalValue, jsonMarshal]

/-! ## The claims -/

/-- C1 (defect of the code): `SetField` records `len(o.fields)` read after
the append, which is the index of the new field plus one: on `New()`, with
any `Options`, `SetField(name, value)` stores the field at index 0 and
records position 1 for its name. -/
theorem C1_new_field_recorded_one_past_index (S : Strings) (opts : Option Options)
    (name : String) (value : Value) :
    ∃ o, SetField S { New with Options := opts } name value = .ok o ∧
      o.fields = [{ Name := renameField S opts name, Value := value }] ∧
      o.cache.lookup (renameField S opts name) = some 1 := by
  refine ⟨_, SetField_absent S _ name value (by simp [New]), ?_, ?_⟩
  · simp [New]
  · simp [New]

/-- C2 (defect of the code): in the calls of `TestObject`, test=42, toast=42,
toast=44, test=43, the first two return and the third panics with an index
out of range (the cache holds 2 for `toast`, one past its index), so the four
calls do not complete; and after a=1, b=2, `GetField(a)` returns 2, the value
of `b`, while `GetField(b)` panics. -/
theorem C2_get_after_set_reads_next_field (S : Strings) :
    (∃ o, setFields S New [("test", intValue 42), ("toast", intValue 42)] = .ok o ∧
        o.cache.lookup "toast" = some 2 ∧ o.fields.length = 2 ∧
        SetField S o "toast" (intValue 44) = .error .indexOutOfRange) ∧
      setFields S New [("test", intValue 42), ("toast", intValue 42), ("toast", intValue 44),
        ("test", intValue 43)] = .error .indexOutOfRange ∧
      ∃ o, setFields S New [("a", intValue 1), ("b", intValue 2)] = .ok o ∧
        GetField o "a" = .ok (intValue 2) ∧ GetField o "b" = .error .indexOutOfRange :=
  ⟨⟨_, rfl, rfl, rfl, rfl⟩, rfl, _, rfl, rfl, rfl⟩

/-- C3 (defect of the code): on `New()`, with any `Options`, `SetField(n, v1)`
returns and the `SetField(n, v2)` that follows panics with an index out of
range, so the update is not made. -/
theorem C3_update_after_insert_panics (S : Strings) (opts : Option Options) (n : String)
    (v1 v2 : Value) :
    ∃ o, SetField S { New with Options := opts } n v1 = .ok o ∧
      SetField S o n v2 = .error .indexOutOfRange := by
  refine ⟨_, SetField_absent S _ n v1 (by simp [New]), ?_⟩
  simp [SetField, New, setValueAt]

/-- C4 (as amended): for a record whose members are all exported and are of
a base type, records (named or embedded), slices that are nil or have an
element and are not `[]byte`, and maps that are not nil, have the key type
`string` and are iterated by ascending key (elements and map values of the
same sorts, possibly behind pointers and interfaces that are not nil), with
pairwise distinct field names in each object: `FromStruct` returns, and
`MarshalJSON` of its result returns a text exactly when `json.Marshal`
returns that text for the record, and fails exactly when `json.Marshal`
fails; so the two give the same text, or both fail. -/
theorem C4_byte_identity_on_plain_records (S : Strings) (J : Codec) (v : HostValue)
    (hc : convertible S (some ⟨CamelCase⟩) v = true) (hp : plainRecord v = true) :
    ∃ o, FromStruct S v = .ok o ∧
      (∀ text : String, MarshalJSON J o = .ok text ↔ jsonMarshal J v = .ok text) ∧
      ((∃ e, MarshalJSON J o = .error e) ↔ ∃ e, jsonMarshal J v = .error e) := by
  have hconv := FromStructWithOptions_eq S v ⟨CamelCase⟩ hc
  simp only [convertible, Bool.and_eq_true, distinctNames, decide_eq_true_eq] at hc
  have hs := record_sameText S J _ (renameField_default S) v hc.1 hc.2 hp
  exact ⟨_, hconv, fun text => sameText_ok_iff hs text, sameText_error_iff hs⟩

/-- Witness of C4: the value of `TestNestedObject`. -/
theorem C4_byte_identity_on_plain_records_witness :
    convertible asciiStrings (some ⟨CamelCase⟩) demoMyStruct = true ∧
      plainRecord demoMyStruct = true ∧
      jsonMarshal demoCodec demoMyStruct = .ok
        "\x7b\"Field1\":\"test\",\"Field2\":42,\"Field3\":42,\"IntSlice\":[42],\"StructSlice\":[\x7b\"A\":\"Ola\",\"B\":4242\x7d],\"M\":\x7b\"test\":42\x7d\x7d" ∧
      ∃ o, FromStruct asciiStrings demoMyStruct = .ok o ∧
        (∀ text : String, MarshalJSON demoCodec o = .ok text ↔
          jsonMarshal demoCodec demoMyStruct = .ok text) ∧
        ((∃ e, MarshalJSON demoCodec o = .error e) ↔
          ∃ e, jsonMarshal demoCodec demoMyStruct = .error e) :=
  ⟨by decide, by decide, rfl,
    C4_byte_identity_on_plain_records asciiStrings demoCodec demoMyStruct (by decide)
      (by decide)⟩

/-- Counterexample to C4 as stated: records of exported members for which
`MarshalJSON(FromStruct(v))` is not the text of `json.Marshal(v)`. A slice
that is not nil and has no element is written `null` after conversion and
`[]` directly; a map iterated in the order b, a keeps that order after
conversion and is sorted directly; a nil map is written as an empty object
after conversion and `null` directly; a `[]byte` is written as an array of
numbers after conversion and as a base64 string directly. For four other
records `json.Marshal` gives a text and `FromStruct` panics: a member that is
an array, a member that is a `uintptr`, a map whose key type is a defined
type of kind `String`, and a member `X` followed by an embedded record that
has a member `X` too. -/
theorem C4_texts_differ :
    (∃ o, FromStruct asciiStrings (.struct [⟨"P", true, false, .slice .Int []⟩]) = .ok o ∧
        MarshalJSON demoCodec o = .ok "\x7b\"P\":null\x7d" ∧
        jsonMarshal demoCodec (.struct [⟨"P", true, false, .slice .Int []⟩]) =
          .ok "\x7b\"P\":[]\x7d" ∧
        MarshalJSON demoCodec o ≠
          jsonMarshal demoCodec (.struct [⟨"P", true, false, .slice .Int []⟩])) ∧
      (∃ o, FromStruct asciiStrings
          (.struct [⟨"M", true, false, .map .String [("b", hostInt 1), ("a", hostInt 2)]⟩])
            = .ok o ∧
        MarshalJSON demoCodec o = .ok "\x7b\"M\":\x7b\"b\":1,\"a\":2\x7d\x7d" ∧
        jsonMarshal demoCodec
          (.struct [⟨"M", true, false, .map .String [("b", hostInt 1), ("a", hostInt 2)]⟩]) =
          .ok "\x7b\"M\":\x7b\"a\":2,\"b\":1\x7d\x7d") ∧
      (∃ o, FromStruct asciiStrings (.struct [⟨"M", true, false, .nilMap .String⟩]) = .ok o ∧
        MarshalJSON demoCodec o = .ok "\x7b\"M\":\x7b\x7d\x7d" ∧
        jsonMarshal demoCodec (.struct [⟨"M", true, false, .nilMap .String⟩]) =
          .ok "\x7b\"M\":null\x7d") ∧
      (∃ o, FromStruct asciiStrings
          (.struct [⟨"B", true, false, .slice .Uint8 [.scalar (.int .Uint8 1)]⟩]) = .ok o ∧
        MarshalJSON demoCodec o = .ok "\x7b\"B\":[1]\x7d" ∧
        jsonMarshal demoCodec
          (.struct [⟨"B", true, false, .slice .Uint8 [.scalar (.int .Uint8 1)]⟩]) =
          .ok "\x7b\"B\":\"AQ==\"\x7d") ∧
      (FromStruct asciiStrings (.struct [⟨"A", true, false, .array .Int [hostInt 1]⟩])
          = .error .notHandled ∧
        jsonMarshal demoCodec (.struct [⟨"A", true, false, .array .Int [hostInt 1]⟩]) =
          .ok "\x7b\"A\":[1]\x7d") ∧
      (FromStruct asciiStrings (.struct [⟨"U", true, false, .uintptr 7⟩])
          = .error .notHandled ∧
        jsonMarshal demoCodec (.struct [⟨"U", true, false, .uintptr 7⟩]) =
          .ok "\x7b\"U\":7\x7d") ∧
      (FromStruct asciiStrings
          (.struct [⟨"M", true, false, .namedKeyMap [("k", hostInt 1)]⟩])
          = .error .typeAssertion ∧
        jsonMarshal demoCodec
          (.struct [⟨"M", true, false, .namedKeyMap [("k", hostInt 1)]⟩]) =
          .ok "\x7b\"M\":\x7b\"k\":1\x7d\x7d") ∧
      (FromStruct asciiStrings
          (.struct [⟨"X", true, false, hostInt 1⟩, ⟨"E", true, true, .struct demoXY⟩])
          = .error .indexOutOfRange ∧
        jsonMarshal demoCodec
          (.struct [⟨"X", true, false, hostInt 1⟩, ⟨"E", true, true, .struct demoXY⟩]) =
          .ok "\x7b\"X\":1,\"Y\":4\x7d") :=
  ⟨⟨_, rfl, rfl, rfl, fun h => absurd (Except.ok.inj h) (by decide)⟩, ⟨_, rfl, rfl, rfl⟩,
    ⟨_, rfl, rfl, rfl⟩, ⟨_, rfl, rfl, rfl⟩, ⟨rfl, rfl⟩, ⟨rfl, rfl⟩, ⟨rfl, rfl⟩, ⟨rfl, rfl⟩⟩

/-- C5: `camelToSnake` on the seven names of the table of the specification
(the assertions of `TestSnakeCase`). -/
theorem C5_naming_table :
    camelToSnake "TestTest" = "test_test" ∧
      camelToSnake "TestTEST" = "test_test" ∧
      camelToSnake "OneTWOThree" = "one_two_three" ∧
      camelToSnake "One2Three" = "one_2_three" ∧
      camelToSnake "One23" = "one_23" ∧
      camelToSnake "1Step2Step" = "1_step_2_step" ∧
      camelToSnake "123" = "123" := by
  decide

/-- C6 (defect of the code): on `_A` the code writes an underscore before
`A` (the result is `__a`), because `prevLower` is set after every character
that is neither an uppercase letter nor a digit; the rule of the
specification writes none there, the character before `A` not being a
lowercase letter. -/
theorem C6_underscore_after_underscore :
    camelToSnake "_A" = "__a" ∧
      emitsUnderscore (utf8Bytes "_A")
        (camelToSnakeLoop (utf8Bytes "_A") ⟨[], false⟩ [0]) 1 = true ∧
      specUnderscoreRule (utf8Bytes "_A") true 1 = false ∧
      camelToSnake "My_Field" = "my__field" := by
  decide

/-- C7 (as amended): for a record that the converter supports, with pairwise
distinct rewritten names in each object, whose member `name` is an embedded
record with an exported type name and the members `es`, declared after the
members `pre` and before the members `post`: the conversion returns one
object whose fields come in three runs. The first has the names that `pre`
gives, the second the names of the exported members of the embedded record,
in their declaration order, the third the names that `post` gives; no field
stands for the embedded member itself. The names are those of
`specMemberNames`, and when no member of `es` is itself embedded, the names
of the second run are, in plain terms, the rewritten names of the exported
members of `es` in order. Each exported member of `es` of a base type is a
field of the second run with its value, and the second run is what the
embedded record gives when it is converted alone. `FromStruct`
is `FromStructWithOptions` with the default options
(`FromStruct_eq_withOptions`). -/
theorem C7_embedded_record_flattened (S : Strings) (opt : Options)
    (pre es post : List StructField) (name : String)
    (h : convertible S (some opt)
      (.struct (pre ++ ⟨name, true, true, .struct es⟩ :: post)) = true) :
    ∃ (o : JSONObject) (fpre fes fpost : List Field),
      FromStructWithOptions S (.struct (pre ++ ⟨name, true, true, .struct es⟩ :: post)) opt
          = .ok o ∧
        o.fields = fpre ++ fes ++ fpost ∧
        fpre.map (·.Name) = (specMemberNames pre).map (renameField S (some opt)) ∧
        fes.map (·.Name) = (specMemberNames es).map (renameField S (some opt)) ∧
        fpost.map (·.Name) = (specMemberNames post).map (renameField S (some opt)) ∧
        ((∀ m ∈ es, m.Anonymous = false) →
          fes.map (·.Name) =
            (es.filter (·.Exported)).map (fun m => renameField S (some opt) m.Name)) ∧
        (∀ (n : String) (s : Scalar),
          (⟨n, true, false, .scalar s⟩ : StructField) ∈ es →
          ({ Name := renameField S (some opt) n, Value := .scalar s } : Field) ∈ fes) ∧
        ∃ oEmb, FromStructWithOptions S (.struct es) opt = .ok oEmb ∧ oEmb.fields = fes := by
  have h0 := h
  simp only [convertible, okRecord, recordFields, okMembers_append, memberFields_append,
    okMembers, memberFields, Bool.not_true, Bool.false_or, Bool.or_true, Bool.and_true,
    Bool.false_eq_true, if_false, if_true, Bool.and_eq_true, distinctNames,
    decide_eq_true_eq, List.map_append] at h
  obtain ⟨⟨hpre, hes, hpost⟩, hnd⟩ := h
  have hnd2 := (List.nodup_append.1 (List.nodup_append.1 hnd).2.1)
  have ces : convertible S (some opt) (.struct es) = true := by
    simp only [convertible, okRecord, recordFields, Bool.and_eq_true, distinctNames,
      decide_eq_true_eq]
    exact ⟨hes.1, hnd2.1⟩
  refine ⟨_, memberFields S (some opt) pre, memberFields S (some opt) es,
    memberFields S (some opt) post, FromStructWithOptions_eq S _ opt h0, ?_,
    memberFields_names S _ pre hpre, memberFields_names S _ es hes.1,
    memberFields_names S _ post hpost, fun hd => ?_,
    fun n s hm => memberFields_scalar_mem S _ n s es hm,
    _, FromStructWithOptions_eq S _ opt ces, ?_⟩
  · simp [fields_appendFields, recordFields, memberFields_append, memberFields, newWith, New]
  · rw [memberFields_names S _ es hes.1, specMemberNames_direct es hd, List.map_map]
    rfl
  · simp [fields_appendFields, recordFields, newWith, New]

/-- Witness of C7: the direct members P, Q followed by an embedded record
with members X, Y give the fields P, Q, X, Y with their values. -/
theorem C7_embedded_record_flattened_witness :
    convertible asciiStrings (some ⟨CamelCase⟩)
        (.struct (demoPQ ++ ⟨"EmbeddedStruct", true, true, .struct demoXY⟩ :: [])) = true ∧
      (∃ o, FromStruct asciiStrings
          (.struct (demoPQ ++ ⟨"EmbeddedStruct", true, true, .struct demoXY⟩ :: [])) = .ok o ∧
        o.fields = [{ Name := "P", Value := intValue 1 }, { Name := "Q", Value := intValue 2 },
          { Name := "X", Value := intValue 3 }, { Name := "Y", Value := intValue 4 }]) ∧
      specMemberNames demoPQ = ["P", "Q"] ∧ specMemberNames demoXY = ["X", "Y"] ∧
      ∃ (o : JSONObject) (fpre fes fpost : List Field),
        FromStructWithOptions asciiStrings
            (.struct (demoPQ ++ ⟨"EmbeddedStruct", true, true, .struct demoXY⟩ :: []))
            ⟨CamelCase⟩ = .ok o ∧
          o.fields = fpre ++ fes ++ fpost ∧
          fpre.map (·.Name) =
            (specMemberNames demoPQ).map (renameField asciiStrings (some ⟨CamelCase⟩)) ∧
          fes.map (·.Name) =
            (specMemberNames demoXY).map (renameField asciiStrings (some ⟨CamelCase⟩)) ∧
          fpost.map (·.Name) =
            (specMemberNames []).map (renameField asciiStrings (some ⟨CamelCase⟩)) ∧
          ((∀ m ∈ demoXY, m.Anonymous = false) →
            fes.map (·.Name) =
              (demoXY.filter (·.Exported)).map
                (fun m => renameField asciiStrings (some ⟨CamelCase⟩) m.Name)) ∧
          (∀ (n : String) (s : Scalar),
            (⟨n, true, false, .scalar s⟩ : StructField) ∈ demoXY →
            ({ Name := renameField asciiStrings (some ⟨CamelCase⟩) n, Value := .scalar s } :
              Field) ∈ fes) ∧
          ∃ oEmb, FromStructWithOptions asciiStrings (.struct demoXY) ⟨CamelCase⟩ = .ok oEmb ∧
            oEmb.fields = fes :=
  ⟨by decide, ⟨_, rfl, rfl⟩, by decide, by decide,
    C7_embedded_record_flattened asciiStrings ⟨CamelCase⟩ demoPQ demoXY [] "EmbeddedStruct"
      (by decide)⟩

/-- Counterexample to C7 as stated: four records with pairwise distinct
member names and an embedded record. In the first the embedded record has a
type name that is not exported (`inner`, with the exported members X, Y): it
is skipped with its members, and the result has the fields P, Q only. In the
second a member declared after the embedded record is a function value: the
conversion panics with `not handled`. In the third the direct member `X` is
followed by an embedded record that has a member `X` too, and in the fourth
the members `Ab` and `AB` get one name under `LowerCase`: the second
`SetField` of the name panics with an index out of range. -/
theorem C7_unexported_embedded_skipped :
    (∃ o, FromStruct asciiStrings
        (.struct (demoPQ ++ [⟨"inner", false, true, .struct demoXY⟩])) = .ok o ∧
      fieldNames o = ["P", "Q"] ∧ HasField o "X" = false ∧ HasField o "Y" = false) ∧
      FromStruct asciiStrings
        (.struct (demoPQ ++ [⟨"EmbeddedStruct", true, true, .struct demoXY⟩,
          ⟨"F", true, false, .other .Func⟩])) = .error .notHandled ∧
      FromStruct asciiStrings
        (.struct [⟨"X", true, false, hostInt 1⟩,
          ⟨"EmbeddedStruct", true, true, .struct demoXY⟩]) = .error .indexOutOfRange ∧
      FromStructWithOptions asciiStrings
        (.struct [⟨"Ab", true, false, hostInt 1⟩, ⟨"AB", true, false, hostInt 2⟩,
          ⟨"EmbeddedStruct", true, true, .struct demoXY⟩]) ⟨LowerCase⟩
        = .error .indexOutOfRange :=
  ⟨⟨_, rfl, rfl, rfl, rfl⟩, rfl, rfl, rfl⟩

/-- C8: on an object obtained from `New()` by `SetField` calls, a `SetField`
whose rewritten name is present leaves the sequence of field names as it
was (whether the call returns or panics), and a `SetField` whose rewritten
name is new returns and appends that name at the end; a, b, c inserted in
that order and b updated then serialize with keys in the order a, b, c. -/
theorem C8_order_preservation (S : Strings) (o : JSONObject) (h : Reachable S o)
    (name : String) (value : Value) :
    (renameField S o.Options name ∈ fieldNames o →
        fieldNames (afterCall o (SetField S o name value)) = fieldNames o) ∧
      (renameField S o.Options name ∉ fieldNames o →
        ∃ o', SetField S o name value = .ok o' ∧
          fieldNames o' = fieldNames o ++ [renameField S o.Options name]) ∧
      (∃ o3 o4, setFields S New [("a", intValue 1), ("b", intValue 2), ("c", intValue 3)]
            = .ok o3 ∧
          SetField S o3 "b" (intValue 9) = .ok o4 ∧ fieldNames o4 = ["a", "b", "c"] ∧
          MarshalJSON demoCodec o4 = .ok "\x7b\"a\":1,\"b\":2,\"c\":9\x7d") := by
  have hinv := h.cacheInv
  refine ⟨fun hm => ?_, fun hm => ?_, _, _, rfl, rfl, rfl, rfl⟩
  · cases hs : SetField S o name value with
    | error e => rfl
    | ok o' =>
      have := SetField_names S o o' name value hinv hs
      rw [if_pos hm] at this
      exact this
  · have hc : o.cache.lookup (renameField S o.Options name) = none := by
      cases hl : o.cache.lookup (renameField S o.Options name) with
      | none => rfl
      | some i => exact absurd ((CacheInv_mem_iff hinv _).1 (by simp [hl])) hm
    refine ⟨_, SetField_absent S o name value hc, ?_⟩
    simp [fieldNames]

/-- Witness of C8: on the example object, whose names are `field_one` and
`field_two`, setting `FieldOne` keeps the names. -/
theorem C8_order_preservation_witness :
    Reachable asciiStrings demoObject ∧
      fieldNames demoObject = ["field_one", "field_two"] ∧
      fieldNames (afterCall demoObject (SetField asciiStrings demoObject "FieldOne"
        (intValue 7))) = fieldNames demoObject :=
  ⟨demoObject_reachable, rfl,
    (C8_order_preservation asciiStrings demoObject demoObject_reachable "FieldOne"
      (intValue 7)).1 (by decide)⟩

/-- C9: on an object obtained from `New()`, with any `Options`, by `SetField`
calls, no two fields have the same name. -/
theorem C9_names_unique (S : Strings) (o : JSONObject) (h : Reachable S o) :
    (fieldNames o).Nodup :=
  h.cacheInv.1

/-- Witness of C9 on the example object. -/
theorem C9_names_unique_witness :
    Reachable asciiStrings demoObject ∧ (fieldNames demoObject).Nodup :=
  ⟨demoObject_reachable, C9_names_unique asciiStrings demoObject demoObject_reachable⟩

/-- C10: on the object `o` that the calls `calls` of `SetField` build from
`New()` with options `opts`, `HasField(s)` is true exactly when a stored field
has name `s`, and exactly when `s` is the rewritten name of one of the
calls. -/
theorem C10_hasField_characterisation (S : Strings) (opts : Option Options)
    (calls : List (String × Value)) (o : JSONObject)
    (h : setFields S { New with Options := opts } calls = .ok o) (s : String) :
    (HasField o s = true ↔ ∃ f ∈ o.fields, f.Name = s) ∧
      (HasField o s = true ↔ ∃ c ∈ calls, renameField S opts c.1 = s) := by
  have hr : Reachable S o := reachable_of_setFields S calls _ o (Reachable.new opts) h
  have h1 : HasField o s = true ↔ s ∈ fieldNames o := CacheInv_mem_iff hr.cacheInv s
  have h2 := setFields_names S calls _ o (CacheInv_new opts) h s
  refine ⟨?_, ?_⟩
  · rw [h1]
    simp [fieldNames]
  · rw [h1, h2]
    simp [fieldNames, New]

/-- Witness of C10: on the example object, `HasField` is true of `field_one`,
the rewritten name of a call. -/
theorem C10_hasField_characterisation_witness :
    setFields asciiStrings { New with Options := some ⟨SnakeCase⟩ }
        [("FieldOne", intValue 1), ("FieldTwo", intValue 2), ("FieldOne", intValue 3)]
        = .ok demoObject ∧
      (HasField demoObject "field_one" = true ↔
        ∃ c ∈ [("FieldOne", intValue 1), ("FieldTwo", intValue 2), ("FieldOne", intValue 3)],
          renameField asciiStrings (some ⟨SnakeCase⟩) c.1 = "field_one") :=
  ⟨rfl, (C10_hasField_characterisation asciiStrings (some ⟨SnakeCase⟩)
    [("FieldOne", intValue 1), ("FieldTwo", intValue 2), ("FieldOne", intValue 3)]
    demoObject rfl "field_one").2⟩

/-- C11: `IsEmpty()` is true on `New()`; on the object that a sequence of
`SetField` calls leaves, from `New()` with any `Options`, `IsEmpty()` is true
exactly when the sequence is empty, both when a call that panics leaves the
receiver as it was (`applyCalls`) and when every call returns
(`setFields`). -/
theorem C11_isEmpty_characterisation (S : Strings) (opts : Option Options)
    (calls : List (String × Value)) :
    IsEmpty New = true ∧
      (IsEmpty (applyCalls S { New with Options := opts } calls) = true ↔ calls = []) ∧
      ∀ o, setFields S { New with Options := opts } calls = .ok o →
        (IsEmpty o = true ↔ calls = []) := by
  refine ⟨rfl, ?_, ?_⟩
  · cases calls with
    | nil => simp [applyCalls, IsEmpty, New]
    | cons c rest =>
      have h1 := SetField_absent S { New with Options := opts } c.1 c.2 (by simp [New])
      have h3 := applyCalls_length S rest
        (afterCall { New with Options := opts } (SetField S { New with Options := opts } c.1 c.2))
      have h4 : 1 ≤ (applyCalls S { New with Options := opts } (c :: rest)).fields.length := by
        refine le_trans ?_ h3
        rw [h1]
        simp [afterCall, New]
      have h5 : (applyCalls S { New with Options := opts } (c :: rest)).fields.length ≠ 0 := by
        omega
      simpa [IsEmpty] using h5
  · intro o h
    cases calls with
    | nil =>
      simp only [setFields, Except.ok.injEq] at h
      subst h
      simp [IsEmpty, New]
    | cons c rest =>
      obtain ⟨name, value⟩ := c
      simp only [setFields] at h
      have h1 : SetField S { New with Options := opts } name value = _ :=
        SetField_absent S _ name value (by simp [New])
      rw [h1] at h
      simp only at h
      have hl := setFields_length S rest _ o h
      simp only [List.length_append, List.length_singleton] at hl
      simp only [IsEmpty, beq_iff_eq, reduceCtorEq, iff_false]
      omega

/-- Witness of C11: the example object, left by three calls that return, is
not empty. -/
theorem C11_isEmpty_characterisation_witness :
    setFields asciiStrings { New with Options := some ⟨SnakeCase⟩ }
        [("FieldOne", intValue 1), ("FieldTwo", intValue 2), ("FieldOne", intValue 3)]
        = .ok demoObject ∧
      (IsEmpty demoObject = true ↔
        [("FieldOne", intValue 1), ("FieldTwo", intValue 2), ("FieldOne", intValue 3)] = []) :=
  ⟨rfl, (C11_isEmpty_characterisation asciiStrings (some ⟨SnakeCase⟩)
    [("FieldOne", intValue 1), ("FieldTwo", intValue 2), ("FieldOne", intValue 3)]).2.2
    demoObject rfl⟩

/-- C12: on every object, for a name of which `HasField` is false, `GetField`
panics with `unknown field` and returns no value. `GetField` only reads the
object: it is a function of the object and gives no new state. -/
theorem C12_unknown_field (o : JSONObject) (name : String) (h : HasField o name = false) :
    GetField o name = .error .unknownField := by
  unfold HasField at h
  unfold GetField
  cases hl : o.cache.lookup name with
  | none => rfl
  | some i => simp [hl] at h

/-- Witness of C12 on the example object. -/
theorem C12_unknown_field_witness :
    HasField demoObject "unknown" = false ∧
      GetField demoObject "unknown" = .error .unknownField :=
  ⟨rfl, C12_unknown_field demoObject "unknown" rfl⟩

/-- C13 (as amended): for a map with the key type `string`, pairwise distinct
keys and entries `es`, whose values are of base types or slices of values of
base types, iterated in any order `es'`: under the default options `FromMap`
returns an object whose field names are the keys, each once, and whose
fields, each taken as its name with the scalar or the sequence of scalars
that it holds, are exactly the entries, each taken as its key with the
scalar or the sequence of scalars that its value is; they come in the order
of the iteration. A sequence is compared by its elements. The nil map gives
the object without field. -/
theorem C13_map_conversion (S : Strings) (es es' : List (String × HostValue))
    (hperm : es'.Perm es) (hkeys : (es.map (·.1)).Nodup)
    (hvals : ∀ e ∈ es, isScalarValue e.2 = true ∨ isScalarSeq e.2 = true) :
    ∃ o, FromMap S (.map .String es') = .ok o ∧
      (fieldNames o).Perm (es.map (·.1)) ∧
      (o.fields.map (fun f => (f.Name, contentOf f.Value))).Perm
        (es.map (fun e => (e.1, hostContent e.2))) ∧
      o.fields.map (fun f => (f.Name, contentOf f.Value)) =
        es'.map (fun e => (e.1, hostContent e.2)) ∧
      (∀ e ∈ es, hostContent e.2 ≠ none) ∧
      ∃ o', FromMap S (.nilMap .String) = .ok o' ∧ o'.fields = [] := by
  have hok : ∀ e ∈ es, okValue S (some ⟨CamelCase⟩) e.2 = true := fun e he =>
    (hvals e he).elim (okValue_of_isScalarValue S _ e.2) (okValue_of_isScalarSeq S _ e.2)
  have hok' : ∀ e ∈ es', okValue S (some ⟨CamelCase⟩) e.2 = true := fun e he =>
    hok e (hperm.mem_iff.1 he)
  have hnames : (entryFields S (some ⟨CamelCase⟩) es').map (·.Name) = es'.map (·.1) := by
    rw [entryFields_eq_map]
    simp [renameField_default, Function.comp_def]
  have hnd : (es'.map (·.1)).Nodup := (hperm.map _).nodup_iff.2 hkeys
  have hconv := fromMapEntries_eq S (some ⟨CamelCase⟩) es' New rfl (CacheInv_new _)
    (okEntries_of_forall S _ es' hok') (by simpa [fieldNames, New, hnames] using hnd)
  have hnil : New.fields = [] := rfl
  have hfields : (appendFields New (entryFields S (some ⟨CamelCase⟩) es')).fields.map
      (fun f => (f.Name, contentOf f.Value)) = es'.map (fun e => (e.1, hostContent e.2)) := by
    rw [fields_appendFields, entryFields_eq_map, hnil, List.nil_append, List.map_map]
    apply List.map_congr_left
    intro e he
    simp only [Function.comp_apply, renameField_default]
    rw [(contentOf_valueOf S _ e.2 (hvals e (hperm.mem_iff.1 he))).1]
  refine ⟨_, hconv, ?_, ?_, hfields, fun e he => (contentOf_valueOf S none e.2 (hvals e he)).2,
    _, rfl, rfl⟩
  · rw [fieldNames_appendFields, hnames]
    simpa [fieldNames, New] using hperm.map _
  · rw [hfields]
    exact hperm.map _

/-- Witness of C13: the map of `TestFromMap`, with the entries listed as C, A,
B and iterated as B, A, C. -/
theorem C13_map_conversion_witness :
    demoMap.Perm demoMap.reverse ∧ (demoMap.reverse.map (·.1)).Nodup ∧
      (∀ e ∈ demoMap.reverse, isScalarValue e.2 = true ∨ isScalarSeq e.2 = true) ∧
      (∃ o, FromMap asciiStrings (.map .String demoMap) = .ok o ∧
        o.fields = [{ Name := "B", Value := .scalar (.str "test") },
          { Name := "A", Value := intValue 42 },
          { Name := "C", Value := .slice [intValue 1, intValue 2, intValue 3] }]) ∧
      demoMap.map (fun e => (e.1, hostContent e.2)) =
        [("B", some (.scalar (.str "test"))), ("A", some (.scalar (.int .Int 42))),
          ("C", some (.sequence [.int .Int 1, .int .Int 2, .int .Int 3]))] ∧
      ∃ o, FromMap asciiStrings (.map .String demoMap) = .ok o ∧
        (fieldNames o).Perm (demoMap.reverse.map (·.1)) ∧
        (o.fields.map (fun f => (f.Name, contentOf f.Value))).Perm
          (demoMap.reverse.map (fun e => (e.1, hostContent e.2))) ∧
        o.fields.map (fun f => (f.Name, contentOf f.Value)) =
          demoMap.map (fun e => (e.1, hostContent e.2)) ∧
        (∀ e ∈ demoMap.reverse, hostContent e.2 ≠ none) ∧
        ∃ o', FromMap asciiStrings (.nilMap .String) = .ok o' ∧ o'.fields = [] :=
  ⟨(List.reverse_perm _).symm, by decide, by decide, ⟨_, rfl, rfl⟩, rfl,
    C13_map_conversion asciiStrings demoMap.reverse demoMap (List.reverse_perm _).symm
      (by decide) (by decide)⟩

/-- Counterexample to C13 as stated: a `map[string]any` whose one value is
the array of the integers 1, 2, 3, a sequence of scalars, and a
`map[string]any` with the values 42 and a `uintptr`, both scalars: `FromMap`
panics with `not handled` on each, an array and a `uintptr` being none of
the kinds that the loop of `fromMapValue` handles; `json.Marshal` writes the
first map with the array `[1,2,3]`. -/
theorem C13_array_and_uintptr_not_handled :
    FromMap asciiStrings
        (.map .String [("C", .iface (.array .Int [hostInt 1, hostInt 2, hostInt 3]))])
        = .error .notHandled ∧
      FromMap asciiStrings
        (.map .String [("A", .iface (hostInt 42)), ("U", .iface (.uintptr 7))])
        = .error .notHandled ∧
      jsonMarshal demoCodec
        (.map .String [("C", .iface (.array .Int [hostInt 1, hostInt 2, hostInt 3]))])
        = .ok "\x7b\"C\":[1,2,3]\x7d" :=
  ⟨rfl, rfl, rfl⟩

/-- C14 (as amended): for a map whose key type is not string and which has an
entry, `fromMapValue` panics with `only map with string key are supported`,
and so does the conversion that reaches the map as a record member, as a
sequence element or as the value of a map entry, after members, elements or
entries that convert; a map without entry, nil or not, becomes an empty
object whatever its key type. -/
theorem C14_non_string_key_with_an_entry (S : Strings) (o : JSONObject) (k : Kind)
    (hk : k ≠ .String) (e : String × HostValue) (es : List (String × HostValue)) :
    fromMapValue S o (.map k (e :: es)) = .error .onlyStringKey ∧
      (∀ (pre post : List StructField) (name : String) (anon : Bool) (o' : JSONObject),
        fromStructFields S o pre = .ok o' →
        fromStructFields S o (pre ++ ⟨name, true, anon, .map k (e :: es)⟩ :: post)
          = .error .onlyStringKey) ∧
      (∀ (pre post : List HostValue) (s s' : Value) (v : HostValue),
        resolve v = .ok (.map k (e :: es)) → convertElems S o pre s = .ok s' →
        convertElems S o (pre ++ v :: post) s = .error .onlyStringKey) ∧
      (∀ (pre post : List (String × HostValue)) (key : String) (o' : JSONObject)
          (v : HostValue),
        resolve v = .ok (.map k (e :: es)) → fromMapEntries S o .String pre = .ok o' →
        fromMapEntries S o .String (pre ++ (key, v) :: post) = .error .onlyStringKey) ∧
      convertValue S o (.map k []) = .ok (.object (newChild o)) ∧
      convertValue S o (.nilMap k) = .ok (.object (newChild o)) := by
  obtain ⟨key0, x0⟩ := e
  refine ⟨?_, ?_, ?_, ?_, ?_, ?_⟩
  · simp [fromMapValue, fromMapEntries, hk]
  · intro pre post name anon o' hpre
    rw [fromStructFields_append, hpre]
    cases anon <;> simp [fromStructFields, fromMapValue, fromMapEntries, hk]
  · intro pre post s s' v hv hpre
    rw [convertElems_append, hpre]
    simp [convertElems, convertValue_nonStringMap S o k hk (key0, x0) es v hv]
  · intro pre post key o' v hv hpre
    rw [fromMapEntries_append, hpre]
    simp [fromMapEntries, convertValue_nonStringMap S o' k hk (key0, x0) es v hv]
  · simp [convertValue, fromMapEntries]
  · simp [convertValue]

/-- Witness of C14: a `map[int]int` with one entry, alone and as the member
`M` of a record after the members P, Q. -/
theorem C14_non_string_key_with_an_entry_witness :
    Kind.Int ≠ Kind.String ∧
      fromMapValue asciiStrings New (.map .Int [("1", hostInt 1)]) = .error .onlyStringKey ∧
      fromStructFields asciiStrings New
        (demoPQ ++ ⟨"M", true, false, .map .Int [("1", hostInt 1)]⟩ :: demoXY)
        = .error .onlyStringKey ∧
      FromStruct asciiStrings
        (.struct (demoPQ ++ ⟨"M", true, false, .map .Int [("1", hostInt 1)]⟩ :: demoXY))
        = .error .onlyStringKey :=
  ⟨by decide,
    (C14_non_string_key_with_an_entry asciiStrings New .Int (by decide) ("1", hostInt 1) []).1,
    (C14_non_string_key_with_an_entry asciiStrings New .Int (by decide) ("1", hostInt 1)
      []).2.1 demoPQ demoXY "M" false _ rfl,
    rfl⟩

/-- Counterexample to C14 as stated: a record whose member `M` is a
`map[int]string` without entry is converted without a panic; `M` becomes an
empty object. -/
theorem C14_empty_map_converts :
    ∃ o, FromStruct asciiStrings (.struct [⟨"M", true, false, .map .Int []⟩]) = .ok o ∧
      o.fields = [{ Name := "M", Value := .object New }] ∧
      MarshalJSON demoCodec o = .ok "\x7b\"M\":\x7b\x7d\x7d" :=
  ⟨_, rfl, rfl, rfl⟩

/-- C15 (defect of the code): the loop of `fromStruct` resolves the record `v`
again (line 169) and not the member `field`, so a member is not unwrapped.
A pointer to an integer, to a slice or to a map panics with `not a
structure`, and an interface that holds an integer or a record panics with
`not handled`, while the same values stored directly convert. The loop of
`convertSlice` does unwrap its elements, and a pointer to a record is the one
wrapped member that converts as the record does. -/
theorem C15_members_not_unwrapped (S : Strings) :
    FromStruct S (.struct [⟨"P", true, false, .ptr (hostInt 1)⟩]) = .error .notAStructure ∧
      FromStruct S (.struct [⟨"A", true, false, .iface (hostInt 1)⟩]) = .error .notHandled ∧
      FromStruct S (.struct [⟨"A", true, false, .iface (.struct demoXY)⟩])
        = .error .notHandled ∧
      FromStruct S (.struct [⟨"L", true, false, .ptr (.slice .Int [hostInt 1])⟩])
        = .error .notAStructure ∧
      FromStruct S (.struct [⟨"M", true, false, .ptr (.map .String [("k", hostInt 1)])⟩])
        = .error .notAStructure ∧
      (∃ o, FromStruct S (.struct [⟨"P", true, false, hostInt 1⟩]) = .ok o ∧
        o.fields = [{ Name := "P", Value := intValue 1 }]) ∧
      ConvertSlice S New (.slice .Interface [.iface (hostInt 1), .iface (.ptr (hostInt 2))])
        = .ok (.slice [intValue 1, intValue 2]) ∧
      FromStruct S (.struct [⟨"R", true, false, .ptr (.struct demoXY)⟩])
        = FromStruct S (.struct [⟨"R", true, false, .struct demoXY⟩]) :=
  ⟨rfl, rfl, rfl, rfl, rfl, ⟨_, rfl, rfl⟩, rfl, rfl⟩

/-- C16: when the codec encodes the names and the values of the fields, to
the texts `encs` in stored order, `MarshalJSON` returns an opening brace, the
texts `name:value` joined by single commas, and a closing brace; the two
braces alone for an object without field; and when the name or the value of
a field is the first that the codec refuses, with error `e`, `MarshalJSON`
returns `e`. -/
theorem C16_serializer_format (J : Codec) (o : JSONObject) :
    (∀ encs : List (String × String),
        List.Forall₂ (fun f p => J.marshalScalar (.str f.Name) = .ok p.1 ∧
          marshalValue J f.Value = .ok p.2) o.fields encs →
        MarshalJSON J o =
          .ok ("\x7b" ++ joinComma (encs.map (fun p => p.1 ++ ":" ++ p.2)) ++ "\x7d")) ∧
      (o.fields = [] → MarshalJSON J o = .ok "\x7b\x7d") ∧
      (∀ (pre post : List Field) (f : Field) (encs : List (String × String))
          (e : MarshalError),
        o.fields = pre ++ f :: post →
        List.Forall₂ (fun f p => J.marshalScalar (.str f.Name) = .ok p.1 ∧
          marshalValue J f.Value = .ok p.2) pre encs →
        (J.marshalScalar (.str f.Name) = .error e ∨
          ∃ n, J.marshalScalar (.str f.Name) = .ok n ∧ marshalValue J f.Value = .error e) →
        MarshalJSON J o = .error e) := by
  refine ⟨fun encs h => ?_, fun h => ?_, fun pre post f encs e hf hpre he => ?_⟩
  · rw [MarshalJSON_eq, jsonObject, jsonParts_ok J o.fields encs h]
  · rw [MarshalJSON_eq, h]
    rfl
  · rw [MarshalJSON_eq, jsonObject, hf, jsonParts_error J f post e he pre encs hpre]

/-- Witness of C16: the example object, the object without field, and an
object whose second field holds a float, which the example codec
refuses. -/
theorem C16_serializer_format_witness :
    List.Forall₂ (fun (f : Field) (p : String × String) =>
        demoCodec.marshalScalar (.str f.Name) = .ok p.1 ∧
          marshalValue demoCodec f.Value = .ok p.2)
        demoObject.fields [("\"field_one\"", "1"), ("\"field_two\"", "3")] ∧
      MarshalJSON demoCodec demoObject =
        .ok ("\x7b" ++ joinComma ([("\"field_one\"", "1"), ("\"field_two\"", "3")].map
          (fun p => p.1 ++ ":" ++ p.2)) ++ "\x7d") ∧
      "\x7b" ++ joinComma ([("\"field_one\"", "1"), ("\"field_two\"", "3")].map
          (fun p => p.1 ++ ":" ++ p.2)) ++ "\x7d" = "\x7b\"field_one\":1,\"field_two\":3\x7d" ∧
      MarshalJSON demoCodec New = .ok "\x7b\x7d" ∧
      MarshalJSON demoCodec
        { New with fields := [{ Name := "a", Value := intValue 1 },
          { Name := "x", Value := .scalar (.float .Float64 0) }] } = .error (.leaf "float") :=
  ⟨List.Forall₂.cons ⟨rfl, rfl⟩ (List.Forall₂.cons ⟨rfl, rfl⟩ List.Forall₂.nil),
    (C16_serializer_format demoCodec demoObject).1 _
      (List.Forall₂.cons ⟨rfl, rfl⟩ (List.Forall₂.cons ⟨rfl, rfl⟩ List.Forall₂.nil)),
    by decide,
    (C16_serializer_format demoCodec New).2.1 rfl,
    (C16_serializer_format demoCodec
      { New with fields := [{ Name := "a", Value := intValue 1 },
        { Name := "x", Value := .scalar (.float .Float64 0) }] }).2.2
      [{ Name := "a", Value := intValue 1 }] [] { Name := "x", Value := .scalar (.float .Float64 0) }
      [("\"a\"", "1")] (.leaf "float") rfl
      (List.Forall₂.cons ⟨rfl, rfl⟩ List.Forall₂.nil) (Or.inr ⟨"\"x\"", rfl, rfl⟩)⟩

/-- C17 (defect of the code): `ConvertSlice` has an effect on two slices of
base types. For the slice of integers that is not nil and has no element it
returns its named result `s`, to which nothing was appended: a nil
`[]interface{}`, written `null`, where the slice is written `[]`. For a
`[]byte` it returns a `[]interface{}` of the bytes, written as an array of
numbers, where the `[]byte` is written as a base64 string. -/
theorem C17_empty_slice_becomes_nil :
    ConvertSlice asciiStrings New (.slice .Int []) = .ok .nilSlice ∧
      marshalValue demoCodec .nilSlice = .ok "null" ∧
      jsonMarshal demoCodec (.slice .Int []) = .ok "[]" ∧
      ConvertSlice asciiStrings New (.slice .Uint8 [.scalar (.int .Uint8 1)])
        = .ok (.slice [.scalar (.int .Uint8 1)]) ∧
      marshalValue demoCodec (.slice [.scalar (.int .Uint8 1)]) = .ok "[1]" ∧
      jsonMarshal demoCodec (.slice .Uint8 [.scalar (.int .Uint8 1)]) = .ok "\"AQ==\"" :=
  ⟨rfl, rfl, rfl, rfl, rfl, rfl⟩

/-- C18: in the object that `FromStructWithOptions(r, opt)` returns, the root
has the options `opt`, every object stored in a field, in a sequence or in
another object, at any depth, has the same options, and every field name at
every depth is the convention of `opt` applied to a member name or a map key
of `r`; and the call returns for every record whose members are supported
and whose rewritten names are distinct in each object. -/
theorem C18_options_shared_by_the_tree (S : Strings) (r : HostValue) (opt : Options) :
    (∀ o : JSONObject, FromStructWithOptions S r opt = .ok o →
        o.Options = some opt ∧
          sharesOptions S (some opt) (hostNames r) (.object o) = true) ∧
      (convertible S (some opt) r = true →
        ∃ o, FromStructWithOptions S r opt = .ok o) := by
  refine ⟨fun o h => ?_, fun hc => ⟨_, FromStructWithOptions_eq S r opt hc⟩⟩
  obtain ⟨ho, hf⟩ := fromStruct_shares S (some opt) (hostNames r) r
    { New with Options := some opt } o (fun _ hn => hn) rfl rfl h
  exact ⟨ho, object_shares S (some opt) (hostNames r) o ho hf⟩

set_option maxHeartbeats 1000000 in
/-- Witness of C18: the value of `TestNestedObjectLowercase` under
`LowerCase`. -/
theorem C18_options_shared_by_the_tree_witness :
    FromStructWithOptions asciiStrings demoMyStruct ⟨LowerCase⟩ = .ok demoLower ∧
      convertible asciiStrings (some ⟨LowerCase⟩) demoMyStruct = true ∧
      fieldNames demoLower =
        ["field1", "field2", "field3", "intslice", "structslice", "m"] ∧
      (∃ o, FromStructWithOptions asciiStrings
          (.struct [⟨"Outer", true, false, .struct demoXY⟩]) ⟨LowerCase⟩ = .ok o ∧
        MarshalJSON demoCodec o = .ok "\x7b\"outer\":\x7b\"x\":3,\"y\":4\x7d\x7d") ∧
      (demoLower.Options = some ⟨LowerCase⟩ ∧
        sharesOptions asciiStrings (some ⟨LowerCase⟩) (hostNames demoMyStruct)
          (.object demoLower) = true) ∧
      ∃ o, FromStructWithOptions asciiStrings demoMyStruct ⟨LowerCase⟩ = .ok o :=
  ⟨rfl, by decide, by decide, ⟨_, rfl, rfl⟩,
    (C18_options_shared_by_the_tree asciiStrings demoMyStruct ⟨LowerCase⟩).1 demoLower rfl,
    (C18_options_shared_by_the_tree asciiStrings demoMyStruct ⟨LowerCase⟩).2 (by decide)⟩

/-- C19 (defect of the code): `camelToSnake` reads the byte `camel[i]` at the
offset of each rune and writes it as a rune, so a character that is not
ASCII is not copied: for the string of the one letter e with acute accent
(bytes C3 A9) the result is the letter A with tilde (U+00C3). An ASCII
string without uppercase letter and digit is returned as it is
(`camelToSnake_ascii_verbatim`). -/
theorem C19_non_ascii_not_copied :
    camelToSnake "é" = "Ã" ∧ camelToSnake "café" = "cafÃ" ∧
      camelToSnake "é" ≠ "é" ∧ camelToSnake "a_b-c" = "a_b-c" := by
  decide

/-- C20: for an ASCII string, `camelToSnake` without its underscores is the
string without its underscores and with A-Z replaced by a-z, and the result
holds no letter A-Z. -/
theorem C20_only_lowercases_and_inserts_underscores (s : String)
    (h : ∀ c ∈ s.data, c.toNat < 128) :
    dropUnderscores (camelToSnake s).data = dropUnderscores (s.data.map lowerAscii) ∧
      ∀ c ∈ (camelToSnake s).data, ¬ ('A'.toNat ≤ c.toNat ∧ c.toNat ≤ 'Z'.toNat) := by
  obtain ⟨out, h1, h2, h3⟩ := camelToSnakeLoop_ascii s.data [] ⟨[], false⟩ h
  have hb : utf8Bytes s = s.data.map Char.toNat := utf8Bytes_ascii s.data h
  simp only [List.nil_append, List.length_nil] at h1
  simp only [camelToSnake, runeStarts, hb, h1, List.nil_append]
  exact ⟨h2, h3⟩

/-- Witness of C20 on `My_FieldID2`. -/
theorem C20_only_lowercases_and_inserts_underscores_witness :
    (∀ c ∈ "My_FieldID2".data, c.toNat < 128) ∧
      camelToSnake "My_FieldID2" = "my__field_id2" ∧
      dropUnderscores (camelToSnake "My_FieldID2").data =
        dropUnderscores ("My_FieldID2".data.map lowerAscii) ∧
      ∀ c ∈ (camelToSnake "My_FieldID2").data, ¬ ('A'.toNat ≤ c.toNat ∧ c.toNat ≤ 'Z'.toNat) :=
  ⟨by decide, by decide,
    C20_only_lowercases_and_inserts_underscores "My_FieldID2" (by decide)⟩

end Jsonobj
